import Mathlib

/-!
# xiao: the Context / Environment forking hierarchy

A shallow embedding of `env.go` and `context.go` of the `xiao` package, with the
properties of its specification stated and proved over the embedding.

Pointers are indices into explicit heaps, a panic is the `error` branch of
`Except Panic`, and the standard library pieces the package relies on
(`sync.Map`, interface equality, `reflect.Type.Comparable`, `atomic.AddUint64`,
`strconv.FormatUint`, the `context` package) are modelled next to the code that
uses them.
-/

namespace Xiao

/-! ## Dynamic values (`any`) -/

/-- The ways a call of the package can fail fatally. -/
inductive Panic where
  /-- `panic("nil key")` of `env.Set` -/
  | nilKey
  /-- `panic("key is not comparable")` of `env.Set` -/
  | keyNotComparable
  /-- runtime error: hash of unhashable type (a map operation on such a key) -/
  | unhashable
  /-- runtime error: comparing uncomparable type (`==` on two such interface values) -/
  | uncomparable
  /-- runtime error: interface conversion (a failed single-value type assertion) -/
  | typeAssertion
  /-- a pointer that refers to no cell of the heap (cannot arise from the Go API) -/
  | badPointer
  /-- the recursion budget of the embedding was exhausted (never on a well-formed heap) -/
  | outOfFuel
  deriving DecidableEq, Repr

/-- A sample of the values an `any` can hold: the nil interface, the types the
typed getters of `Env` narrow to, and `[2]any` as a comparable composite type
whose elements are interfaces again.  `net.IP` is a `[]byte`, hence the one
type here that is not comparable. -/
inductive GoVal where
  /-- the nil interface value -/
  | nil
  | int (n : Int)
  | int64 (n : Int)
  | uint (n : Nat)
  | uint64 (n : Nat)
  | bool (b : Bool)
  /-- a `float64`, by its IEEE-754 bit pattern -/
  | float64 (bits : Nat)
  | string (s : String)
  /-- a `net.IP`; `none` is the nil slice -/
  | ip (bytes : Option (List Nat))
  /-- a `*net.TCPAddr` (it implements `net.Addr`), by its address -/
  | addr (ptr : Nat)
  /-- a `time.Time`: the struct of `wall`, `ext` and the `loc` pointer -/
  | time (wall : Nat) (ext : Int) (loc : Nat)
  | duration (n : Int)
  /-- a `[2]any` -/
  | array2 (x y : GoVal)
  deriving DecidableEq, Repr

/-- Whether a `float64` bit pattern is a NaN: exponent all ones, mantissa non-zero. -/
def isNaN (bits : Nat) : Bool :=
  (bits / 2 ^ 52) % 2 ^ 11 == 2 ^ 11 - 1 && bits % 2 ^ 52 != 0

/-- Go's `==` on two `float64`: a NaN equals nothing, `+0` equals `-0`, and two
other floats are equal when their bit patterns are. -/
def floatEq (a b : Nat) : Bool :=
  !isNaN a && !isNaN b && (a == b || (a % 2 ^ 63 == 0 && b % 2 ^ 63 == 0))

/-- Go's `==` on two interface values whose dynamic types are hashable: equal
dynamic types and equal dynamic values.  (On two `net.IP` the comparison panics
in Go; a map operation never gets there, since hashing the key fails first.) -/
def goEq : GoVal → GoVal → Bool
  | .float64 a, .float64 b => floatEq a b
  | .array2 a b, .array2 c d => goEq a c && goEq b d
  | .ip _, _ => false
  | x, y => decide (x = y)

/-- Whether a map can hash the key: false for a slice, and for an array that
holds an unhashable interface value. -/
def hashable : GoVal → Bool
  | .ip _ => false
  | .array2 x y => hashable x && hashable y
  | _ => true

/-- The result of `reflect.TypeOf(key).Comparable()` for a non-nil `key`: it looks
at the dynamic type only, and `[2]any` is a comparable type. -/
def typeComparable : GoVal → Bool
  | .ip _ => false
  | _ => true

/-! ## `sync.Map` -/

/-- The contents of a `sync.Map`: its entries, oldest first. -/
abbrev SyncMap := List (GoVal × GoVal)

/-- The `Load` method of `sync.Map`: hashes the key, then looks for an entry with an equal key. -/
def SyncMap.Load (m : SyncMap) (key : GoVal) : Except Panic (Option GoVal) :=
  if hashable key then
    .ok ((m.find? (fun e => goEq e.1 key)).map (fun e => e.2))
  else .error .unhashable

/-- The `Store` method of `sync.Map`: hashes the key, then overwrites the value of the entry
with an equal key, or adds a new entry. -/
def SyncMap.Store (m : SyncMap) (key value : GoVal) : Except Panic SyncMap :=
  if hashable key then
    .ok (if m.any (fun e => goEq e.1 key) then
           m.map (fun e => if goEq e.1 key then (e.1, value) else e)
         else m ++ [(key, value)])
  else .error .unhashable

/-! ## `env.go` -/

/-- The struct `env`: the parent pointer and the local store. -/
structure env where
  parent : Option Nat
  vals : SyncMap
  deriving DecidableEq, Repr

/-- The heap of `env` cells; a `*env` is an index into it. -/
abbrev Heap := List env

/-- `NewEnv`: allocates `&env{}`. -/
def NewEnv (h : Heap) : Heap × Nat :=
  (h ++ [{ parent := none, vals := [] }], h.length)

/-- `(*env).fork`: allocates `&env{parent: e}`. -/
def env.fork (h : Heap) (e : Nat) : Heap × Nat :=
  (h ++ [{ parent := some e, vals := [] }], h.length)

/-- `(*env).Fork`. -/
def env.Fork (h : Heap) (e : Nat) : Heap × Nat :=
  env.fork h e

/-- `(*env).Set`: the two guards, then `e.vals.Store(key, value)`.  The result is the heap
after the call and the panic the call ended with, if any. -/
def env.Set (h : Heap) (e : Nat) (key value : GoVal) : Heap × Option Panic :=
  if key = .nil then (h, some .nilKey)
  else if !typeComparable key then (h, some .keyNotComparable)
  else
    match h[e]? with
    | none => (h, some .badPointer)
    | some node =>
      match node.vals.Store key value with
      | .error p => (h, some p)
      | .ok vals => (h.set e { node with vals := vals }, none)

/-- `(*env).Get`, with a budget for the walk to the root. -/
def env.GetFuel : Nat → Heap → Nat → GoVal → Except Panic (GoVal × Bool)
  | 0, _, _, _ => .error .outOfFuel
  | fuel + 1, h, e, key =>
    match h[e]? with
    | none => .error .badPointer
    | some node =>
      match node.vals.Load key with
      | .error p => .error p
      | .ok (some value) => .ok (value, true)
      | .ok none =>
        match node.parent with
        | some p => env.GetFuel fuel h p key
        | none => .ok (.nil, false)

/-- `(*env).Get`: local store first, otherwise the parent. A walk from `e` visits at most
`e + 1` cells, parents being allocated before their children. -/
def env.Get (h : Heap) (e : Nat) (key : GoVal) : Except Panic (GoVal × Bool) :=
  env.GetFuel (e + 1) h e key

/-- `(*env).Has`. -/
def env.Has (h : Heap) (e : Nat) (key : GoVal) : Except Panic Bool :=
  match env.Get h e key with
  | .error p => .error p
  | .ok (_, ok) => .ok ok

/-- The assignment `keys[k] = struct{}{}` on a `map[any]struct{}`, the map being the list of
its keys: a key equal to one already present adds nothing. -/
def mapInsert (keys : List GoVal) (k : GoVal) : List GoVal :=
  if keys.any (fun x => goEq x k) then keys else keys ++ [k]

/-- `(*env).keys`, with a budget for the walk to the root: the keys of the parent first, then
`e.vals.Range` adds the local ones. -/
def env.keysFuel : Nat → Heap → Nat → Except Panic (List GoVal)
  | 0, _, _ => .error .outOfFuel
  | fuel + 1, h, e =>
    match h[e]? with
    | none => .error .badPointer
    | some node =>
      match (match node.parent with
             | some p => env.keysFuel fuel h p
             | none => .ok []) with
      | .error p => .error p
      | .ok keys => .ok (node.vals.foldl (fun ks kv => mapInsert ks kv.1) keys)

/-- `(*env).keys`. -/
def env.keys (h : Heap) (e : Nat) : Except Panic (List GoVal) :=
  env.keysFuel (e + 1) h e

/-- `(*env).Keys`: the keys of the index, in the order the map yields them. -/
def env.Keys (h : Heap) (e : Nat) : Except Panic (List GoVal) :=
  env.keys h e

/-- The shape shared by the typed getters: `Get`, then a single-value type assertion, which
panics when it fails; the zero value when the key is not found. -/
def env.getTyped {α : Type} (narrow : GoVal → Option α) (zero : α)
    (h : Heap) (e : Nat) (key : GoVal) : Except Panic α :=
  match env.Get h e key with
  | .error p => .error p
  | .ok (value, true) =>
    match narrow value with
    | some x => .ok x
    | none => .error .typeAssertion
  | .ok (_, false) => .ok zero

/-- `(*env).GetInt`: `value.(int)`, or `0`. -/
def env.GetInt : Heap → Nat → GoVal → Except Panic Int :=
  env.getTyped (fun v => match v with | .int n => some n | _ => none) 0

/-- `(*env).GetInt64`: `value.(int64)`, or `0`. -/
def env.GetInt64 : Heap → Nat → GoVal → Except Panic Int :=
  env.getTyped (fun v => match v with | .int64 n => some n | _ => none) 0

/-- `(*env).GetUint`: `value.(uint)`, or `0`. -/
def env.GetUint : Heap → Nat → GoVal → Except Panic Nat :=
  env.getTyped (fun v => match v with | .uint n => some n | _ => none) 0

/-- `(*env).GetUint64`: `value.(uint64)`, or `0`. -/
def env.GetUint64 : Heap → Nat → GoVal → Except Panic Nat :=
  env.getTyped (fun v => match v with | .uint64 n => some n | _ => none) 0

/-- `(*env).GetBool`: `value.(bool)`, or `false`. -/
def env.GetBool : Heap → Nat → GoVal → Except Panic Bool :=
  env.getTyped (fun v => match v with | .bool b => some b | _ => none) false

/-- `(*env).GetFloat`: `value.(float64)`, or `0.0` (the bit pattern `0`). -/
def env.GetFloat : Heap → Nat → GoVal → Except Panic Nat :=
  env.getTyped (fun v => match v with | .float64 bits => some bits | _ => none) 0

/-- `(*env).GetString`: `value.(string)`, or `""`. -/
def env.GetString : Heap → Nat → GoVal → Except Panic String :=
  env.getTyped (fun v => match v with | .string s => some s | _ => none) ""

/-- `(*env).GetIP`: `value.(net.IP)`, or the nil slice. -/
def env.GetIP : Heap → Nat → GoVal → Except Panic (Option (List Nat)) :=
  env.getTyped (fun v => match v with | .ip bytes => some bytes | _ => none) none

/-- `(*env).GetAddr`: `value.(net.Addr)`, which holds for the dynamic types that implement
`net.Addr`, or the nil interface. -/
def env.GetAddr : Heap → Nat → GoVal → Except Panic GoVal :=
  env.getTyped (fun v => match v with | .addr ptr => some (.addr ptr) | _ => none) .nil

/-- `(*env).GetTime`: `value.(time.Time)`, or `time.Time{}`. -/
def env.GetTime : Heap → Nat → GoVal → Except Panic (Nat × Int × Nat) :=
  env.getTyped (fun v => match v with | .time w x l => some (w, x, l) | _ => none) (0, 0, 0)

/-- `(*env).GetDuration`: `value.(time.Duration)`, or `0`. -/
def env.GetDuration : Heap → Nat → GoVal → Except Panic Int :=
  env.getTyped (fun v => match v with | .duration n => some n | _ => none) 0

/-! ## Trees of environments and their histories -/

/-- The cells a `Get` at `e` may visit, `e` first, with the budget of `env.GetFuel`. -/
def env.pathFuel : Nat → Heap → Nat → List Nat
  | 0, _, _ => []
  | fuel + 1, h, e =>
    e :: (match h[e]? with
          | none => []
          | some node =>
            match node.parent with
            | some p => env.pathFuel fuel h p
            | none => [])

/-- The path from `e` up to the root: `e`, its parent, and so on. -/
def env.path (h : Heap) (e : Nat) : List Nat :=
  env.pathFuel (e + 1) h e

/-- Whether a heap is one the package can build: a parent is allocated before its children. -/
def WellFormed (h : Heap) : Prop :=
  ∀ (i : Nat) (node : env), h[i]? = some node → ∀ p, node.parent = some p → p < i

/-- A call of the `Env` interface that changes the tree. -/
inductive EnvCall where
  | Fork (e : Nat)
  | Set (e : Nat) (key value : GoVal)
  deriving DecidableEq, Repr

/-- The receiver of a call. -/
def EnvCall.receiver : EnvCall → Nat
  | .Fork e => e
  | .Set e _ _ => e

/-- The heap after a call. -/
def EnvCall.apply (h : Heap) : EnvCall → Heap
  | .Fork e => (env.Fork h e).1
  | .Set e key value => (env.Set h e key value).1

/-- Runs a sequence of calls, each on a cell that exists when the call is made; `none` when
a call names a cell that does not exist yet. -/
def runCalls (h : Heap) : List EnvCall → Option Heap
  | [] => some h
  | c :: cs => if c.receiver < h.length then runCalls (c.apply h) cs else none

/-- The heap of a program that has called `NewEnv` once. -/
def rootHeap : Heap := (NewEnv []).1

/-- Whether `Set(key, _)` returns normally: the key is not nil and its dynamic type is
comparable and it can be hashed. -/
def settable (key : GoVal) : Bool :=
  decide (key ≠ .nil) && typeComparable key && hashable key

/-- Follows the claim: the value most recently set for `k` at node `n`, by a `Set` that
returned normally, keys being identified by `==`. -/
def lastSet (calls : List EnvCall) (n : Nat) (k : GoVal) : Option GoVal :=
  calls.reverse.findSome? (fun c =>
    match c with
    | .Set e key value => if e = n ∧ settable key = true ∧ goEq key k = true then some value else none
    | .Fork _ => none)

/-- Follows the claim: the value most recently set for `k` at the nearest node on the path
from `d` up to the root that holds `k`, with `true`; `(nil, false)` when no node on the
path holds `k`. -/
def specGet (calls : List EnvCall) (h : Heap) (d : Nat) (k : GoVal) : GoVal × Bool :=
  match (env.path h d).findSome? (fun n => lastSet calls n k) with
  | some v => (v, true)
  | none => (.nil, false)

/-- The calls of the scenario: the root sets `region`, a child `C1` (cell 1) is forked and sets
`zone`, a grandchild `G` (cell 2) is forked from `C1`, a sibling `C2` (cell 3) from the root. -/
def scenarioCalls : List EnvCall :=
  [.Set 0 (.string "region") (.string "us"), .Fork 0, .Set 1 (.string "zone") (.string "a"),
   .Fork 1, .Fork 0]

/-- The heap the scenario ends with. -/
def scenarioHeap : Heap :=
  [{ parent := none, vals := [(.string "region", .string "us")] },
   { parent := some 0, vals := [(.string "zone", .string "a")] },
   { parent := some 1, vals := [] },
   { parent := some 0, vals := [] }]

/-- The heap of the scenario before `C1` sets `zone`: all four cells, only `region` set. -/
def scenarioHeapBefore : Heap :=
  [{ parent := none, vals := [(.string "region", .string "us")] },
   { parent := some 0, vals := [] },
   { parent := some 1, vals := [] },
   { parent := some 0, vals := [] }]

/-! ## The standard library pieces `context.go` uses -/

/-- `strconv.FormatUint(i, 10)`: the decimal numeral of `i`, without padding. -/
def FormatUint (i : Nat) : String :=
  (Nat.toDigits 10 i).asString

/-- The number a decimal numeral stands for. -/
def decimalValue (s : String) : Nat :=
  s.data.foldl (fun acc c => 10 * acc + (c.toNat - 48)) 0

/-- The error values of the `context` package. -/
inductive GoErr where
  | Canceled
  | DeadlineExceeded
  deriving DecidableEq, Repr

/-- Whether two interface values have identical dynamic types (two `[2]any` always do). -/
def sameType : GoVal → GoVal → Bool
  | .nil, .nil => true
  | .int _, .int _ => true
  | .int64 _, .int64 _ => true
  | .uint _, .uint _ => true
  | .uint64 _, .uint64 _ => true
  | .bool _, .bool _ => true
  | .float64 _, .float64 _ => true
  | .string _, .string _ => true
  | .ip _, .ip _ => true
  | .addr _, .addr _ => true
  | .time _ _ _, .time _ _ _ => true
  | .duration _, .duration _ => true
  | .array2 _ _, .array2 _ _ => true
  | _, _ => false

/-- Go's `==` on two interface values, as the `Value` method uses it: values of different
dynamic types are unequal, comparing two values of a non-comparable type panics, and arrays
are compared element by element in index order, the comparison stopping at the first pair
that differs or panics. -/
def ifaceEq : GoVal → GoVal → Except Panic Bool
  | .ip _, .ip _ => .error .uncomparable
  | .array2 a b, .array2 c d =>
    match ifaceEq a c with
    | .error p => .error p
    | .ok false => .ok false
    | .ok true => ifaceEq b d
  | x, y => .ok (goEq x y)

/-- A value of the standard `context.Context`, as the `context` package builds them: the
background context and the contexts derived from it.  A cancellable context carries the
identity of its cancellation state. -/
inductive GCtx where
  /-- `context.Background()` -/
  | background
  /-- the result of `context.WithCancel(parent)` -/
  | cancelCtx (parent : GCtx) (id : Nat)
  /-- the result of `context.WithDeadline(parent, deadline)` that carries its own timer -/
  | timerCtx (parent : GCtx) (id : Nat) (deadline : Int)
  /-- the result of `context.WithValue(parent, key, value)` -/
  | valueCtx (parent : GCtx) (key value : GoVal)
  deriving DecidableEq, Repr

/-- The mutable state the package works on: the heap of `env` cells, the `uint64` cells the
trackers point to, and the state of the `context` package, which is the number of
cancellable contexts created, the clock (in nanoseconds), and the cancellations that took
place, oldest first, each with the context it was triggered on and its error. -/
structure World where
  envs : Heap
  trackers : List Nat
  gnext : Nat
  now : Int
  ended : List (Nat × GoErr)
  deriving DecidableEq, Repr

/-- The cancellable contexts a context hangs on: itself and its ancestors, nearest first. -/
def GCtx.ids : GCtx → List Nat
  | .background => []
  | .cancelCtx parent id => id :: parent.ids
  | .timerCtx parent id _ => id :: parent.ids
  | .valueCtx parent _ _ => parent.ids

/-- The `Err` method: nil (`none`) while the context is live; afterwards the error of the
first cancellation that hit the context or one of its ancestors, which is the one that
took effect (a cancellation of a context that is done already changes nothing, and a context
derived from a done parent is born done with the error of the parent). -/
def GCtx.Err (w : World) (g : GCtx) : Option GoErr :=
  w.ended.findSome? (fun ev => if ev.1 ∈ g.ids then some ev.2 else none)

/-- Whether the channel `Done()` returns is closed. -/
def GCtx.Done (w : World) (g : GCtx) : Bool :=
  (g.Err w).isSome

/-- The `Deadline` method: `none` stands for `ok = false`. -/
def GCtx.Deadline : GCtx → Option Int
  | .background => none
  | .cancelCtx parent _ => parent.Deadline
  | .timerCtx _ _ deadline => some deadline
  | .valueCtx parent _ _ => parent.Deadline

/-- The `Value` method: the value of the nearest `valueCtx` whose key equals `k`, or nil. -/
def GCtx.Value : GCtx → GoVal → Except Panic GoVal
  | .background, _ => .ok .nil
  | .cancelCtx parent _, k => parent.Value k
  | .timerCtx parent _ _, k => parent.Value k
  | .valueCtx parent key value, k =>
    match ifaceEq key k with
    | .error p => .error p
    | .ok true => .ok value
    | .ok false => parent.Value k

/-- A `CancelFunc` returned by the `context` package: the context it cancels. -/
abbrev CancelFunc := Nat

/-- Calling a `CancelFunc`: cancels its context with `Canceled`. -/
def CancelFunc.call (w : World) (f : CancelFunc) : World :=
  { w with ended := w.ended ++ [(f, .Canceled)] }

/-- The timer of a `timerCtx` going off: cancels its context with `DeadlineExceeded`. -/
def fireTimer (w : World) (id : Nat) : World :=
  { w with ended := w.ended ++ [(id, .DeadlineExceeded)] }

/-- `context.WithCancel(parent)`. -/
def gcontext.WithCancel (w : World) (parent : GCtx) : World × GCtx × CancelFunc :=
  ({ w with gnext := w.gnext + 1 }, .cancelCtx parent w.gnext, w.gnext)

/-- `context.WithDeadline(parent, d)`: a plain `WithCancel` when the parent ends sooner anyway;
otherwise a context with a timer, cancelled on the spot when `d` has passed already. -/
def gcontext.WithDeadline (w : World) (parent : GCtx) (d : Int) : World × GCtx × CancelFunc :=
  if (match parent.Deadline with
      | some cur => decide (cur < d)
      | none => false) then
    gcontext.WithCancel w parent
  else if d - w.now ≤ 0 then
    (fireTimer { w with gnext := w.gnext + 1 } w.gnext, .timerCtx parent w.gnext d, w.gnext)
  else
    ({ w with gnext := w.gnext + 1 }, .timerCtx parent w.gnext d, w.gnext)

/-- `context.WithTimeout(parent, timeout)`. -/
def gcontext.WithTimeout (w : World) (parent : GCtx) (timeout : Int) :
    World × GCtx × CancelFunc :=
  gcontext.WithDeadline w parent (w.now + timeout)

/-- `context.WithValue(parent, key, val)`: panics on a nil key and on a key whose type is not
comparable. -/
def gcontext.WithValue (parent : GCtx) (key val : GoVal) : Except Panic GCtx :=
  if key = .nil then .error .nilKey
  else if !typeComparable key then .error .keyNotComparable
  else .ok (.valueCtx parent key val)

/-! ## The `Logger` of a context -/

/-- Modelled from the spec: the `Logger` (its file is not part of the sources at hand), by its
identity: the chain of name components and the chain of location components. -/
structure Logger where
  name : List String
  location : List String
  deriving DecidableEq, Repr

/-- Modelled from the spec: `NewLogger(name, location, ...)`, a logger with the given identity. -/
def NewLogger (name location : String) : Logger :=
  { name := if name = "" then [] else [name],
    location := if location = "" then [] else [location] }

/-- Modelled from the spec: `Logger.Fork(name, location)` returns a logger whose name is the
name of the receiver chained with the given component, if non-empty, and whose location is
the location of the receiver chained with the given component, if non-empty. -/
def Logger.Fork (l : Logger) (name location : String) : Logger :=
  { name := if name = "" then l.name else l.name ++ [name],
    location := if location = "" then l.location else l.location ++ [location] }

/-- Modelled from the spec: `Logger.Name()`, as the chain of its components. -/
def Logger.Name (l : Logger) : List String := l.name

/-- Modelled from the spec: `Logger.Location()`, as the chain of its components. -/
def Logger.Location (l : Logger) : List String := l.location

/-! ## `context.go` -/

/-- The struct `context`: `tracker` and `env` are pointers into the world. -/
structure context where
  gctx : GCtx
  tracker : Nat
  env : Nat
  logger : Logger
  deriving DecidableEq, Repr

/-- `NewContext(gctx, env, log)`, each argument `none` when nil: defaults for the missing
ones and a fresh tracker. -/
def NewContext (w : World) (gctx : Option GCtx) (e : Option Nat) (log : Option Logger) :
    World × context :=
  let g := match gctx with
    | some g => g
    | none => .background
  let he := match e with
    | some e => (w.envs, e)
    | none => NewEnv w.envs
  let l := match log with
    | some l => l
    | none => NewLogger "" ""
  ({ w with envs := he.1, trackers := w.trackers ++ [0] },
   { gctx := g, tracker := w.trackers.length, env := he.2, logger := l.Fork "" "" })

/-- `(*context).fork`: same signal source, same tracker, forked `Env` and `Logger`. -/
def context.fork (w : World) (ctx : context) (name location : String) : World × context :=
  ({ w with envs := (env.Fork w.envs ctx.env).1 },
   { gctx := ctx.gctx, tracker := ctx.tracker,
     env := (env.Fork w.envs ctx.env).2, logger := ctx.logger.Fork name location })

/-- `(*context).Deadline`. -/
def context.Deadline (ctx : context) : Option Int := ctx.gctx.Deadline

/-- `(*context).Done`: whether the channel is closed. -/
def context.Done (w : World) (ctx : context) : Bool := ctx.gctx.Done w

/-- `(*context).Err`. -/
def context.Err (w : World) (ctx : context) : Option GoErr := ctx.gctx.Err w

/-- `(*context).Value`. -/
def context.Value (ctx : context) (key : GoVal) : Except Panic GoVal := ctx.gctx.Value key

/-- `(*context).At`. -/
def context.At (w : World) (ctx : context) (location : String) : World × context :=
  context.fork w ctx "" location

/-- `atomic.AddUint64(addr, 1)`: the new value, which wraps around at `2 ^ 64`. -/
def atomicAddUint64 (cells : List Nat) (addr : Nat) : List Nat × Nat :=
  (cells.set addr ((cells.getD addr 0 + 1) % 2 ^ 64), (cells.getD addr 0 + 1) % 2 ^ 64)

/-- `(*context).ForkAt`: draws the next number from the tracker, forks under that name, and
gives the child a tracker of its own. -/
def context.ForkAt (w : World) (ctx : context) (location : String) : World × context :=
  let r := atomicAddUint64 w.trackers ctx.tracker
  let f := context.fork { w with trackers := r.1 } ctx (FormatUint r.2) location
  ({ f.1 with trackers := f.1.trackers ++ [0] }, { f.2 with tracker := f.1.trackers.length })

/-- `(*context).Fork`. -/
def context.Fork (w : World) (ctx : context) : World × context :=
  context.ForkAt w ctx ""

/-- `(*context).RebornWith`, the argument `none` when nil. -/
def context.RebornWith (w : World) (ctx : context) (gctx : Option GCtx) : World × context :=
  let g := match gctx with
    | some g => g
    | none => .background
  let f := context.fork w ctx "" ""
  (f.1, { f.2 with gctx := g })

/-- `(*context).Reborn`. -/
def context.Reborn (w : World) (ctx : context) : World × context :=
  context.RebornWith w ctx (some .background)

/-- `(*context).Name`. -/
def context.Name (ctx : context) : List String := ctx.logger.Name

/-- `(*context).Location`. -/
def context.Location (ctx : context) : List String := ctx.logger.Location

/-- `(*context).WithCancel`. -/
def context.WithCancel (w : World) (ctx : context) : World × context × CancelFunc :=
  let f := context.fork w ctx "" ""
  let r := gcontext.WithCancel f.1 f.2.gctx
  (r.1, { f.2 with gctx := r.2.1 }, r.2.2)

/-- `(*context).WithDeadline`. -/
def context.WithDeadline (w : World) (ctx : context) (d : Int) :
    World × context × CancelFunc :=
  let f := context.fork w ctx "" ""
  let r := gcontext.WithDeadline f.1 f.2.gctx d
  (r.1, { f.2 with gctx := r.2.1 }, r.2.2)

/-- `(*context).WithTimeout`. -/
def context.WithTimeout (w : World) (ctx : context) (timeout : Int) :
    World × context × CancelFunc :=
  let f := context.fork w ctx "" ""
  let r := gcontext.WithTimeout f.1 f.2.gctx timeout
  (r.1, { f.2 with gctx := r.2.1 }, r.2.2)

/-- `(*context).WithValue`: the fork happens first; `context.WithValue` may then panic, in
which case no context is returned. -/
def context.WithValue (w : World) (ctx : context) (key value : GoVal) :
    World × Except Panic context :=
  let f := context.fork w ctx "" ""
  (f.1,
   match gcontext.WithValue f.2.gctx key value with
   | .error p => .error p
   | .ok g => .ok { f.2 with gctx := g })

/-- `(*context).Env`. -/
def context.Env (ctx : context) : Nat := ctx.env

/-- `(*context).Set`. -/
def context.Set (w : World) (ctx : context) (key value : GoVal) : World × Option Panic :=
  ({ w with envs := (env.Set w.envs ctx.env key value).1 },
   (env.Set w.envs ctx.env key value).2)

/-- `(*context).Get`. -/
def context.Get (w : World) (ctx : context) (key : GoVal) : Except Panic (GoVal × Bool) :=
  env.Get w.envs ctx.env key

/-- The world before anything was allocated, the clock at `0`. -/
def World.empty : World :=
  { envs := [], trackers := [], gnext := 0, now := 0, ended := [] }

/-! ## Sequences of calls on contexts -/

/-- A sequence of `ForkAt` calls, each with its receiver and its location, in the order their
atomic increments take effect; the result is the world after and the children, in that order. -/
def forkAtAll (w : World) : List (context × String) → World × List context
  | [] => (w, [])
  | (c, location) :: rest =>
    ((forkAtAll (c.ForkAt w location).1 rest).1,
     (c.ForkAt w location).2 :: (forkAtAll (c.ForkAt w location).1 rest).2)

/-- A call of the `Context` interface that derives a context. -/
inductive CtxCall where
  | Fork
  | At (location : String)
  | ForkAt (location : String)
  | Reborn
  | RebornWith (gctx : Option GCtx)
  | WithCancel
  | WithDeadline (d : Int)
  | WithTimeout (timeout : Int)
  | WithValue (key value : GoVal)
  deriving DecidableEq, Repr

/-- Whether the call is a naming fork. -/
def CtxCall.naming : CtxCall → Bool
  | .Fork => true
  | .ForkAt _ => true
  | _ => false

/-- Whether the call replaces the signal source. -/
def CtxCall.reborn : CtxCall → Bool
  | .Reborn => true
  | .RebornWith _ => true
  | _ => false

/-- The location a call passes on: its argument for `At` and `ForkAt`, empty otherwise. -/
def CtxCall.location : CtxCall → String
  | .At location => location
  | .ForkAt location => location
  | _ => ""

/-- The world after a call and the context it returns, `none` when the call panics. -/
def context.call (w : World) (ctx : context) : CtxCall → World × Option context
  | .Fork => ((ctx.Fork w).1, some (ctx.Fork w).2)
  | .At location => ((ctx.At w location).1, some (ctx.At w location).2)
  | .ForkAt location => ((ctx.ForkAt w location).1, some (ctx.ForkAt w location).2)
  | .Reborn => ((ctx.Reborn w).1, some (ctx.Reborn w).2)
  | .RebornWith g => ((ctx.RebornWith w g).1, some (ctx.RebornWith w g).2)
  | .WithCancel => ((ctx.WithCancel w).1, some (ctx.WithCancel w).2.1)
  | .WithDeadline d => ((ctx.WithDeadline w d).1, some (ctx.WithDeadline w d).2.1)
  | .WithTimeout t => ((ctx.WithTimeout w t).1, some (ctx.WithTimeout w t).2.1)
  | .WithValue key value =>
    ((ctx.WithValue w key value).1,
     match (ctx.WithValue w key value).2 with
     | .ok d => some d
     | .error _ => none)

/-- Calls made one after the other on the same receiver: the world after, and what each call
returned. -/
def context.callAll (w : World) (ctx : context) : List CtxCall → World × List (Option context)
  | [] => (w, [])
  | c :: rest =>
    ((context.callAll (ctx.call w c).1 ctx rest).1,
     (ctx.call w c).2 :: (context.callAll (ctx.call w c).1 ctx rest).2)

/-- A chain of calls, each made on the context the previous one returned: the world after and
the last context, `none` when a call of the chain panicked. -/
def context.chain (w : World) (ctx : context) : List CtxCall → World × Option context
  | [] => (w, some ctx)
  | c :: rest =>
    match (ctx.call w c).2 with
    | some d => context.chain (ctx.call w c).1 d rest
    | none => ((ctx.call w c).1, none)

/-- A context together with the contexts derived from it so far. -/
structure Family where
  world : World
  members : List context
  deriving DecidableEq, Repr

/-- One more call, on the member with the given index; the context it returns joins the family. -/
def Family.step (s : Family) (i : Nat) (c : CtxCall) : Family :=
  match s.members[i]? with
  | none => s
  | some ctx =>
    { world := (ctx.call s.world c).1,
      members := match (ctx.call s.world c).2 with
        | some d => s.members ++ [d]
        | none => s.members }

/-- Any number of calls on the members of a family, in order. -/
def Family.run (s : Family) : List (Nat × CtxCall) → Family
  | [] => s
  | (i, c) :: rest => Family.run (s.step i c) rest

/-- The world with one root context, `SimpleContext()` having been called once. -/
def rootWorld : World := (NewContext World.empty none none none).1

/-- The root context of `rootWorld`. -/
def rootContext : context := (NewContext World.empty none none none).2

/-- The world of `rootWorld` after `2 ^ 64 - 1` naming forks from the root: its tracker holds
the largest `uint64`. -/
def wrapWorld : World :=
  { rootWorld with trackers := [2 ^ 64 - 1] }

/-- A context whose deadline had passed when it was derived from the root: the result of
`root.WithDeadline(t)` with `t` before the current time. -/
def expiredContext : World × context × CancelFunc :=
  rootContext.WithDeadline rootWorld (-5)

/-- A `float64` NaN (the quiet NaN `math.NaN()` returns). -/
def nanKey : GoVal := .float64 0x7FF8000000000001

/-- The root sets a value under a NaN key, twice. -/
def nanCalls : List EnvCall :=
  [.Set 0 nanKey (.int 1), .Set 0 nanKey (.int 2)]

/-- The heap `nanCalls` ends with: the store holds both entries, a NaN being equal to no key. -/
def nanHeap : Heap :=
  [{ parent := none, vals := [(nanKey, .int 1), (nanKey, .int 2)] }]

/-- Keys set one after the other on a context: the world after. -/
def context.setAll (w : World) (ctx : context) : List (GoVal × GoVal) → World
  | [] => w
  | (key, value) :: rest => context.setAll (ctx.Set w key value).1 ctx rest

/-! ## `gerror`: the libraries it uses -/

/-- The conversion of an integer to `int32`: wraps around modulo `2 ^ 32`. -/
def wrapInt32 (z : Int) : Int :=
  (z + 2 ^ 31) % 2 ^ 32 - 2 ^ 31

/-- The `String` method of `codes.Code`. -/
def codeString (c : Nat) : String :=
  match c with
  | 0 => "OK"
  | 1 => "Canceled"
  | 2 => "Unknown"
  | 3 => "InvalidArgument"
  | 4 => "DeadlineExceeded"
  | 5 => "NotFound"
  | 6 => "AlreadyExists"
  | 7 => "PermissionDenied"
  | 8 => "ResourceExhausted"
  | 9 => "FailedPrecondition"
  | 10 => "Aborted"
  | 11 => "OutOfRange"
  | 12 => "Unimplemented"
  | 13 => "Internal"
  | 14 => "Unavailable"
  | 15 => "DataLoss"
  | 16 => "Unauthenticated"
  | n => "Code(" ++ FormatUint n ++ ")"

/-- A field of a `structpb.Struct`, by its kind; a number is a `float64`, given by its value
(the non-finite ones are left out), and the kinds `gerror` does not read are one case. -/
inductive PbField where
  | null
  | number (q : ℚ)
  | string (s : String)
  | bool (b : Bool)
  | other
  deriving DecidableEq

/-- `(*structpb.Value).GetNumberValue`, on the value a map lookup gives (`none` when the key
is missing): `0` unless the value is a number. -/
def PbField.GetNumberValue : Option PbField → ℚ
  | some (.number q) => q
  | _ => 0

/-- `(*structpb.Value).GetStringValue`: `""` unless the value is a string. -/
def PbField.GetStringValue : Option PbField → String
  | some (.string s) => s
  | _ => ""

/-- The conversion `int32(f)` of a `float64`: truncation towards zero; for a value out of the
range of `int32` the result depends on the platform, and is the one of amd64 here. -/
def float64ToInt32 (q : ℚ) : Int :=
  if -(2 : Int) ^ 31 ≤ q.num.tdiv q.den ∧ q.num.tdiv q.den < (2 : Int) ^ 31 then
    q.num.tdiv q.den
  else -(2 : Int) ^ 31

/-- A message among the details of a status, as `(*Status).Details` returns it. -/
inductive Detail where
  /-- a `*structpb.Value` that holds a struct with these fields (none: `Fields` is nil) -/
  | structValue (fields : List (String × PbField))
  /-- a `*structpb.Value` of another kind -/
  | value (v : PbField)
  /-- a message of another type, or the error of unpacking it -/
  | other
  deriving DecidableEq

/-- A `*status.Status`: code, message and details. -/
structure Status where
  code : Nat
  message : String
  details : List Detail
  deriving DecidableEq

/-- A non-nil `protoreflect.Enum` value: its number and what its `String` method prints, `none`
when its type has no method `String() string` (the interface `protoreflect.Enum` does not ask
for one). -/
structure PbEnum where
  number : Int
  name : Option String
  deriving DecidableEq, Repr

/-! ## `gerror/gerror.go` and `gerror/codec.go` -/

/-- The constant `CODE_OK`. -/
def CODE_OK : Int := 0

/-- The constant `CODE_GLOBAL_BOUNDARY`. -/
def CODE_GLOBAL_BOUNDARY : Int := 10000

/-- The constant `_MAGIC_PREFIX`. -/
def MAGIC_PREFIX : String := "<cjey.xiao.gerror>"

/-- The struct `GError`; `Code` is an `int32`. -/
structure GError where
  Code : Int
  Name : String
  Message : String
  deriving DecidableEq, Repr

/-- A Go `error` value, as far as `Decode` tells them apart. -/
inductive GoError where
  /-- the nil error -/
  | nil
  /-- a `*GError`, `none` for the nil pointer -/
  | gerror (e : Option GError)
  /-- an error whose `GRPCStatus()` is the given status, such as what `(*Status).Err` returns -/
  | grpcStatus (s : Status)
  /-- an error without the method `GRPCStatus` that wraps one whose `GRPCStatus()` is the given
  status (`errors.As` finds it), by its own `Error()` string -/
  | wrapped (msg : String) (s : Status)
  /-- any other error, by its `Error()` string; also one whose `GRPCStatus()`, its own or the
  one of an error it wraps, is nil -/
  | other (msg : String)
  deriving DecidableEq

/-- The ways `New` panics. -/
inductive NewPanic where
  /-- runtime error: nil pointer dereference (`code.Number()` on the nil interface) -/
  | nilEnum
  /-- runtime error: interface conversion (the single-value type assertion
  `code.(interface{ String() string })` on an enum without that method) -/
  | typeAssertion
  /-- error code must be a positive enum number -/
  | notPositive
  /-- reserved error code for the local and global boundary -/
  | reserved
  deriving DecidableEq, Repr

/-- `New(code, format, a...)`, the message being what `fmt.Sprintf(format, a...)` gives and
`none` being the nil interface. The struct is built first, which calls `code.Number()` and then
asserts that `code` has a method `String`; the two checks of the code follow. -/
def gerror.New (code : Option PbEnum) (message : String) : Except NewPanic GError :=
  match code with
  | none => .error .nilEnum
  | some enum =>
    match enum.name with
    | none => .error .typeAssertion
    | some name =>
      if wrapInt32 enum.number ≤ 0 then .error .notPositive
      else if wrapInt32 enum.number = CODE_GLOBAL_BOUNDARY then .error .reserved
      else .ok { Code := wrapInt32 enum.number, Name := name, Message := message }

/-- `(*GError).OK`. -/
def GError.OK (e : GError) : Bool := e.Code == 0

/-- The argument of `Equal`: a `codes.Code`, a non-nil `protoreflect.Enum`, or anything else
(the nil interface for one). -/
inductive CodeArg where
  | grpc (c : Nat)
  | enum (e : PbEnum)
  | other

/-- `(*GError).Equal`: for an enum the names are compared only when the codes are equal, and
then the single-value type assertion panics on an enum without a method `String`. -/
def GError.Equal (e : GError) : CodeArg → Except Panic Bool
  | .grpc c => .ok (e.Code == wrapInt32 (-1 * wrapInt32 c) && e.Name == codeString c)
  | .enum en =>
    if e.Code = wrapInt32 en.number then
      match en.name with
      | none => .error .typeAssertion
      | some name => .ok (e.Name == name)
    else .ok false
  | .other => .ok false

/-- `(*GError).IsLocal`. -/
def GError.IsLocal (e : GError) : Bool :=
  decide (e.Code > 0) && decide (e.Code < wrapInt32 CODE_GLOBAL_BOUNDARY)

/-- `(*GError).IsGlobal`. -/
def GError.IsGlobal (e : GError) : Bool :=
  decide (e.Code > wrapInt32 CODE_GLOBAL_BOUNDARY)

/-- `(*GError).IsGrpc`. -/
def GError.IsGrpc (e : GError) : Bool :=
  decide (e.Code < 0)

/-- `(*GError).Encode`: a status of code `Unknown` whose message starts with the magic prefix
and whose one detail is the struct of code, name and message. -/
def GError.Encode (e : GError) : GoError :=
  .grpcStatus
    { code := 2,
      message :=
        if e.Message = "" then
          MAGIC_PREFIX ++ " # " ++ e.Name ++ "[" ++ toString e.Code ++ "]"
        else
          MAGIC_PREFIX ++ " # " ++ e.Name ++ "[" ++ toString e.Code ++ "]: " ++ e.Message,
      details := [.structValue [("code", .number e.Code), ("name", .string e.Name),
        ("message", .string e.Message)]] }

/-- `Encode(code, format, a...)`. -/
def gerror.Encode (code : Option PbEnum) (message : String) : Except NewPanic GoError :=
  match gerror.New code message with
  | .error p => .error p
  | .ok e => .ok e.Encode

/-- `status.Convert` on a non-nil error: the status the error carries; for an error that wraps
one that carries a status, that status with the text of the error as its message; or a
status of code `Unknown` with the text of the error. -/
def statusConvert : GoError → Status
  | .grpcStatus s => s
  | .wrapped msg s => { code := s.code, message := msg, details := s.details }
  | .other msg => { code := 2, message := msg, details := [] }
  | .gerror (some e) =>
    { code := 2,
      message :=
        (if e.Code > 0 then e.Name ++ "[" ++ toString e.Code ++ "]" else e.Name) ++
          (if e.Message = "" then "" else ": " ++ e.Message),
      details := [] }
  | _ => { code := 0, message := "", details := [] }

/-- The `GError` that `Decode` returns for a nil error. -/
def okGError : GError := { Code := 0, Name := "OK", Message := "" }

/-- `Decode(err)`: the pointer it returns, `none` standing for nil. -/
def gerror.Decode (err : GoError) : Option GError :=
  match err with
  | .nil => some { Code := 0, Name := "OK", Message := "" }
  | .gerror none => some { Code := 0, Name := "OK", Message := "" }
  | .gerror (some e) => some e
  | err =>
    let sts := statusConvert err
    if sts.code = 0 then some { Code := 0, Name := "OK", Message := "" }
    else
      let grpc : GError :=
        { Code := wrapInt32 (-1 * wrapInt32 sts.code), Name := codeString sts.code,
          Message := sts.message }
      if sts.code = 2 ∧ MAGIC_PREFIX.data.isPrefixOf sts.message.data = true then
        match sts.details with
        | [.structValue fields] =>
          if fields ≠ [] ∧
              float64ToInt32 (PbField.GetNumberValue (fields.lookup "code")) > 0 then
            some { Code := float64ToInt32 (PbField.GetNumberValue (fields.lookup "code")),
                   Name := PbField.GetStringValue (fields.lookup "name"),
                   Message := PbField.GetStringValue (fields.lookup "message") }
          else some grpc
        | _ => some grpc
      else some grpc

/-- The enum value of the test: `typepb.Field_TYPE_STRING`. -/
def fieldTypeString : PbEnum := { number := 9, name := some "TYPE_STRING" }

/-! ## `netkit`: the libraries it uses

Strings are sequences of characters here, a Go string being the UTF-8 encoding of one; the
bytes the code looks for (`:`, `,`, `.`, `[`, `]`, `%`, digits) are ASCII, so that looking for them
byte by byte or character by character is the same. -/

/-- `unicode.IsSpace`. -/
def isSpace (c : Char) : Bool :=
  (9 ≤ c.toNat && c.toNat ≤ 13) || c.toNat == 32 || c.toNat == 0x85 || c.toNat == 0xA0 ||
    c.toNat == 0x1680 || (0x2000 ≤ c.toNat && c.toNat ≤ 0x200A) || c.toNat == 0x2028 ||
    c.toNat == 0x2029 || c.toNat == 0x202F || c.toNat == 0x205F || c.toNat == 0x3000

/-- `strings.TrimSpace` and `bytes.TrimSpace`, on the characters of the string. -/
def trimSpaceChars (s : List Char) : List Char :=
  ((s.dropWhile isSpace).reverse.dropWhile isSpace).reverse

/-- `strings.TrimSpace`. -/
def TrimSpace (s : String) : String :=
  String.mk (trimSpaceChars s.data)

/-- `strconv.ParseUint(s, 10, bitSize)`: `none` when it returns an error, which it does for
the empty string, for a character that is not a decimal digit, and for a value that does not
fit `bitSize` bits. -/
def ParseUint (s : String) (bitSize : Nat) : Option Nat :=
  if s.data = [] then none
  else if s.data.all Char.isDigit then
    if decimalValue s < 2 ^ bitSize then some (decimalValue s) else none
  else none

/-- `net.JoinHostPort`. -/
def JoinHostPort (host port : String) : String :=
  if host.data.contains ':' then "[" ++ host ++ "]:" ++ port else host ++ ":" ++ port

/-- The part before and the part after the last `:` of a string, if it has one. -/
def splitLastColon : List Char → Option (List Char × List Char)
  | [] => none
  | c :: cs =>
    match splitLastColon cs with
    | some (before, after) => some (c :: before, after)
    | none => if c = ':' then some ([], cs) else none

/-- `net.SplitHostPort`: host and port, `none` when it returns an error. -/
def SplitHostPort (hostport : String) : Option (String × String) :=
  match splitLastColon hostport.data with
  | none => none
  | some (before, after) =>
    if hostport.data.head? = some '[' then
      match hostport.data.indexOf? ']' with
      | none => none
      | some close =>
        if close + 1 = before.length then
          if (hostport.data.drop 1).contains '[' then none
          else if (hostport.data.drop (close + 1)).contains ']' then none
          else some (String.mk ((hostport.data.drop 1).take (close - 1)), String.mk after)
        else none
    else if before.contains ':' then none
    else if hostport.data.contains '[' then none
    else if hostport.data.contains ']' then none
    else some (String.mk before, String.mk after)

/-- The loop of `parseIPv4Fields`: the value and the number of digits of the field being read,
the number of fields read, and the fields. -/
def parseIPv4Loop : List Char → Nat → Nat → Nat → List Nat → Option (List Nat)
  | [], val, pos, _, fields => if pos < 3 then none else some (fields ++ [val])
  | c :: rest, val, pos, digLen, fields =>
    if c.isDigit then
      if digLen = 1 ∧ val = 0 then none
      else if val * 10 + (c.toNat - 48) > 255 then none
      else parseIPv4Loop rest (val * 10 + (c.toNat - 48)) pos (digLen + 1) fields
    else if c = '.' then
      if digLen = 0 ∨ rest = [] then none
      else if pos = 3 then none
      else parseIPv4Loop rest 0 (pos + 1) 0 (fields ++ [val])
    else none

/-- `parseIPv4Fields` on a whole string: the four bytes. -/
def parseIPv4Fields (s : List Char) : Option (List Nat) :=
  parseIPv4Loop s 0 0 0 []

/-- The value of a hexadecimal digit. -/
def hexVal (c : Char) : Option Nat :=
  if 48 ≤ c.toNat ∧ c.toNat ≤ 57 then some (c.toNat - 48)
  else if 97 ≤ c.toNat ∧ c.toNat ≤ 102 then some (c.toNat - 97 + 10)
  else if 65 ≤ c.toNat ∧ c.toNat ≤ 70 then some (c.toNat - 65 + 10)
  else none

/-- The inner loop of `parseIPv6`: reads hexadecimal digits; gives their number, their value
and the rest of the string, or `none` for more than four digits. -/
def parseHexField : List Char → Nat → Nat → Option (Nat × Nat × List Char)
  | [], off, acc => some (off, acc, [])
  | c :: rest, off, acc =>
    match hexVal c with
    | none => some (off, acc, c :: rest)
    | some d =>
      if off > 3 then none
      else if acc * 16 + d > 65535 then none
      else parseHexField rest (off + 1) (acc * 16 + d)

/-- The outer loop of `parseIPv6`, which runs while fewer than 16 bytes are filled (at most
eight times): the rest of the string, the position of the ellipsis and the bytes so far. -/
def parseIPv6Loop : Nat → List Char → Option Nat → List Nat →
    Option (List Char × Option Nat × List Nat)
  | 0, s, ellipsis, ip => some (s, ellipsis, ip)
  | fuel + 1, s, ellipsis, ip =>
    if ip.length < 16 then
      match parseHexField s 0 0 with
      | none => none
      | some (off, acc, rest) =>
        if off = 0 then none
        else if rest.head? = some '.' then
          if ellipsis = none ∧ ip.length ≠ 12 then none
          else if ip.length + 4 > 16 then none
          else
            match parseIPv4Fields s with
            | none => none
            | some v4 => some ([], ellipsis, ip ++ v4)
        else
          match rest with
          | [] => some ([], ellipsis, ip ++ [acc / 256, acc % 256])
          | c :: rest1 =>
            if c ≠ ':' then none
            else
              match rest1 with
              | [] => none
              | c1 :: rest2 =>
                if c1 = ':' then
                  if ellipsis ≠ none then none
                  else
                    match rest2 with
                    | [] => some ([], some (ip.length + 2), ip ++ [acc / 256, acc % 256])
                    | _ => parseIPv6Loop fuel rest2 (some (ip.length + 2))
                        (ip ++ [acc / 256, acc % 256])
                else parseIPv6Loop fuel (c1 :: rest2) ellipsis (ip ++ [acc / 256, acc % 256])
    else some (s, ellipsis, ip)

/-- The end of `parseIPv6`: nothing may be left of the string, and the ellipsis is expanded. -/
def finishIPv6 : List Char × Option Nat × List Nat → Option (List Nat)
  | (s, ellipsis, ip) =>
    if s ≠ [] then none
    else if ip.length < 16 then
      match ellipsis with
      | none => none
      | some e => some (ip.take e ++ List.replicate (16 - ip.length) 0 ++ ip.drop e)
    else if ellipsis ≠ none then none
    else some ip

/-- `parseIPv6` for an address without zone: the 16 bytes. -/
def parseIPv6 (s : List Char) : Option (List Nat) :=
  match s with
  | ':' :: ':' :: rest =>
    match rest with
    | [] => some (List.replicate 16 0)
    | _ => (parseIPv6Loop 9 rest (some 0) []).bind finishIPv6
  | _ => (parseIPv6Loop 9 s none []).bind finishIPv6

/-- `net.ParseIP`: the 16 bytes of the address, `none` for nil.  The first `.`, `:` or `%` decides
between IPv4 and IPv6; an IPv4 address is returned in its 16-byte form; an address with a
zone is not accepted. -/
def ParseIP (s : String) : Option (List Nat) :=
  match s.data.find? (fun c => c = '.' || c = ':' || c = '%') with
  | some '.' =>
    match parseIPv4Fields s.data with
    | some v4 => some ([0, 0, 0, 0, 0, 0, 0, 0, 0, 0, 255, 255] ++ v4)
    | none => none
  | some ':' => if s.data.contains '%' then none else parseIPv6 s.data
  | _ => none

/-- `net.IP.To4`. -/
def IPTo4 (ip : List Nat) : Option (List Nat) :=
  if ip.length = 4 then some ip
  else if ip.length = 16 ∧ ip.take 12 = [0, 0, 0, 0, 0, 0, 0, 0, 0, 0, 255, 255] then
    some (ip.drop 12)
  else none

/-- The dotted decimal form of four bytes. -/
def dotted (a b c d : Nat) : String :=
  FormatUint a ++ "." ++ FormatUint b ++ "." ++ FormatUint c ++ "." ++ FormatUint d

/-- The eight 16-bit groups of 16 bytes. -/
def ipv6Groups : List Nat → List Nat
  | hi :: lo :: rest => (hi * 256 + lo) :: ipv6Groups rest
  | _ => []

/-- The length of the run of zero groups a list starts with. -/
def zeroRun : List Nat → Nat
  | 0 :: rest => zeroRun rest + 1
  | _ => 0

/-- The first longest run of two or more zero groups from position `i` on: its start and its
end, given the best run found before. -/
def longestZeroRun : List Nat → Nat → Option (Nat × Nat) → Option (Nat × Nat)
  | [], _, best => best
  | g :: rest, i, best =>
    let l := zeroRun (g :: rest)
    let better := match best with
      | some (s, e) => decide (l > e - s)
      | none => true
    longestZeroRun rest (i + 1) (if l ≥ 2 ∧ better = true then some (i, i + l) else best)

/-- The loop of `appendTo6` that writes the groups, from group `i` on (at most eight groups). -/
def appendGroups : Nat → List Nat → Nat → Option (Nat × Nat) → String
  | 0, _, _, _ => ""
  | fuel + 1, groups, i, zero =>
    if i ≥ 8 then ""
    else if (match zero with
             | some (s, _) => decide (i = s)
             | none => false) then
      match zero with
      | some (_, e) =>
        if e ≥ 8 then "::"
        else "::" ++ (Nat.toDigits 16 (groups.getD e 0)).asString ++
          appendGroups fuel groups (e + 1) zero
      | none => ""
    else
      (if i > 0 then ":" else "") ++ (Nat.toDigits 16 (groups.getD i 0)).asString ++
        appendGroups fuel groups (i + 1) zero

/-- Two lower-case hexadecimal digits for each byte. -/
def hexString : List Nat → String
  | [] => ""
  | b :: rest =>
    (Nat.toDigits 16 (b / 16)).asString ++ (Nat.toDigits 16 (b % 16)).asString ++ hexString rest

/-- `net.IP.String`, `none` being the nil slice. -/
def IPString (ip : Option (List Nat)) : String :=
  match ip with
  | none => "<nil>"
  | some bytes =>
    if bytes.length = 0 then "<nil>"
    else if bytes.length ≠ 4 ∧ bytes.length ≠ 16 then "?" ++ hexString bytes
    else
      match IPTo4 bytes with
      | some [a, b, c, d] => dotted a b c d
      | _ => appendGroups 8 (ipv6Groups bytes) 0 (longestZeroRun (ipv6Groups bytes) 0 none)

/-! ## `netkit/addr.go` -/

/-- The errors of `AddrCompletion`. -/
inductive AddrError where
  /-- invalid address (the error of `net.SplitHostPort`) -/
  | invalidAddress
  /-- invalid default ip, should not be nil -/
  | nilDefaultIP
  /-- invalid ip part -/
  | invalidIPPart
  /-- invalid default port, should not be 0 -/
  | zeroDefaultPort
  /-- invalid port part -/
  | invalidPortPart
  deriving DecidableEq, Repr

/-- The first step of `AddrCompletion`: the trimmed string, turned into `host:port` form when
it is empty, an IP address or a decimal number. -/
def normalizeRaw (raw : String) : String :=
  if TrimSpace raw = "" then JoinHostPort "" ""
  else
    match ParseIP (TrimSpace raw) with
    | some rawip => JoinHostPort (IPString (some rawip)) ""
    | none =>
      match ParseUint (TrimSpace raw) 64 with
      | some n => JoinHostPort "" (FormatUint n)
      | none => TrimSpace raw

/-- `AddrCompletion(raw, ip, port)`; `ip` is `none` for nil and `port` is a `uint16`. -/
def AddrCompletion (raw : String) (ip : Option (List Nat)) (port : Nat) :
    Except AddrError String :=
  match SplitHostPort (normalizeRaw raw) with
  | none => .error .invalidAddress
  | some (rawhost, rawport) =>
    match (if rawhost = "" then
            (if ip = none then Except.error AddrError.nilDefaultIP
             else Except.ok (IPString ip))
           else
            match ParseIP rawhost with
            | none => Except.error AddrError.invalidIPPart
            | some rawip => Except.ok (IPString (some rawip))) with
    | .error e => .error e
    | .ok host =>
      if rawport = "" then
        if port = 0 then .error .zeroDefaultPort
        else .ok (JoinHostPort host (FormatUint port))
      else
        match ParseUint rawport 64 with
        | none => .error .invalidPortPart
        | some n =>
          if n = 0 ∨ n > 65535 then .error .invalidPortPart
          else .ok (JoinHostPort host (FormatUint n))

/-- The closure `parse` of `UniqCSVAddrs`: the list of addresses after one more segment. The
map `hit` holds exactly the addresses of the list. -/
def uniqParse (port : Nat) (addrs : List String) (baddr : String) : List String :=
  let addr := TrimSpace baddr
  if addr = "" then addrs
  else
    let result : Option String :=
      if port > 0 then
        match ParseIP addr with
        | some ip => some (JoinHostPort (IPString (some ip)) (FormatUint port))
        | none =>
          match SplitHostPort addr with
          | some (h, p) =>
            match ParseUint p 16 with
            | none => none
            | some num => if num = 0 then some (h ++ ":" ++ FormatUint port) else some addr
          | none =>
            if baddr.data.contains ':' then some addr
            else some (addr ++ ":" ++ FormatUint port)
      else
        match ParseIP addr with
        | some _ => some addr
        | none =>
          match SplitHostPort addr with
          | some (h, p) =>
            match ParseUint p 16 with
            | none => none
            | some num => if num = 0 then some h else some addr
          | none => some addr
    match result with
    | none => addrs
    | some a => if addrs.contains a then addrs else addrs ++ [a]

/-- The segments between the commas of a string. -/
def splitComma : List Char → List Char → List (List Char)
  | [], cur => [cur.reverse]
  | c :: rest, cur =>
    if c = ',' then cur.reverse :: splitComma rest [] else splitComma rest (c :: cur)

/-- `UniqCSVAddrs(port, csvs...)`. -/
def UniqCSVAddrs (port : Nat) (csvs : List String) : List String :=
  csvs.foldl (fun addrs csv =>
    if csv = "" then addrs
    else (splitComma csv.data []).foldl (fun addrs seg => uniqParse port addrs (String.mk seg))
      addrs) []

/-- `TrimPort(port, addrs...)`: an address that splits into a host and a decimal port of 16
bits equal to `port` is replaced by its host, every other address is kept. -/
def TrimPort (port : Nat) (addrs : List String) : List String :=
  addrs.map (fun addr =>
    match SplitHostPort addr with
    | some (h, p) =>
      match ParseUint p 16 with
      | some num => if num % 2 ^ 16 = port then h else addr
      | none => addr
    | none => addr)

/-- The comparison `<` of two Go strings, which compares them byte by byte; for UTF-8 that is
character by character, on the code points. -/
def lessChars : List Char → List Char → Bool
  | [], [] => false
  | [], _ :: _ => true
  | _ :: _, [] => false
  | a :: as, b :: bs =>
    if a.toNat < b.toNat then true
    else if b.toNat < a.toNat then false
    else lessChars as bs

/-- The comparison `a < b` of Go strings. -/
def stringLess (a b : String) : Bool := lessChars a.data b.data

/-- The comparison `a <= b` of Go strings. -/
def stringLE (a b : String) : Prop := stringLess b a = false

instance stringLE.decidable : DecidableRel stringLE :=
  fun a b => inferInstanceAs (Decidable (stringLess b a = false))

/-- `sort.Strings`: the strings in ascending order. Equal strings are the same string, so the
order the library's algorithm leaves is the one of any other sorting algorithm. -/
def sortStrings (l : List String) : List String :=
  l.insertionSort stringLE

/-- `strings.Join(elems, sep)`. -/
def Join (elems : List String) (sep : String) : String :=
  sep.intercalate elems

/-- `PrettyCSVAddr(port, csvs...)`. -/
def PrettyCSVAddr (port : Nat) (csvs : List String) : String :=
  Join (sortStrings (TrimPort port (UniqCSVAddrs port csvs))) ","

/-! ## `netkit/net.go` -/

/-- The test of `IsPrivateIPv4` and `IsPublicIPv4` on the four bytes of an address. -/
def privateBytes (ip0 ip1 : Nat) : Bool :=
  ip0 == 127 || ip0 == 10 ||
    (ip0 == 100 && ip1 &&& 0xc0 == 64) ||
    (ip0 == 172 && ip1 &&& 0xf0 == 16) ||
    (ip0 == 192 && ip1 == 168) ||
    (ip0 == 169 && ip1 == 254)

/-- `IsPrivateIPv4(ip)`, `none` being the nil slice. -/
def IsPrivateIPv4 (ip : Option (List Nat)) : Bool :=
  match ip.bind IPTo4 with
  | none => false
  | some ip4 => privateBytes (ip4.getD 0 0) (ip4.getD 1 0)

/-- `IsPublicIPv4(ip)`. -/
def IsPublicIPv4 (ip : Option (List Nat)) : Bool :=
  match ip.bind IPTo4 with
  | none => false
  | some ip4 => !privateBytes (ip4.getD 0 0) (ip4.getD 1 0)

/-! ## `xiao.go` -/

/-- The closure `SessionNameGenerator` returns: the header and the counter it captures. -/
structure Generator where
  header : String
  counter : Nat
  deriving DecidableEq, Repr

/-- `SessionNameGenerator(header)`. -/
def SessionNameGenerator (header : String) : Generator :=
  { header := header, counter := 0 }

/-- The constant `h` of the generator. -/
def zeros12 : String := "000000000000"

/-- A call `g(pfx...)` of the generator: the generator after it and the name it returns, `none`
when the slice `h[:12-len(s)]` is out of range and the call panics. -/
def Generator.call (g : Generator) (pfx : List String) : Generator × Option String :=
  let seq := (atomicAddUint64 [g.counter] 0).2
  let s := FormatUint seq
  ({ header := g.header, counter := seq },
    if s.data.length ≤ 12 then
      match pfx with
      | p :: _ => some (p ++ g.header ++ String.mk (zeros12.data.take (12 - s.data.length)) ++ s)
      | [] => some (g.header ++ String.mk (zeros12.data.take (12 - s.data.length)) ++ s)
    else none)

/-- The generator after a sequence of calls, each given by its prefixes. -/
def Generator.calls (g : Generator) : List (List String) → Generator
  | [] => g
  | pfx :: rest => Generator.calls (g.call pfx).1 rest

/-- The number `n` written as 12 decimal digits, padded with zeros on the left. -/
def zeroPadded12 (n : Nat) : String :=
  String.mk (List.replicate (12 - (Nat.toDigits 10 n).length) '0' ++ Nat.toDigits 10 n)

/-- The name the claim on `SessionNameGenerator` gives for the `n`-th call: the header followed
by the 12 digits of `n`, with the first given prefix, if any, before the header. -/
def sessionName (pfx : List String) (header : String) (n : Nat) : String :=
  match pfx with
  | p :: _ => p ++ header ++ zeroPadded12 n
  | [] => header ++ zeroPadded12 n

/-! ## `event.go` -/

/-- The struct `Event`: whether the channel `done` is closed, and `Args` (the nil slice being
the empty list). The mutex makes `Emit` and `Done` run one after the other. -/
structure Event where
  done : Bool
  Args : List GoVal

/-- `NewEvent()`. -/
def NewEvent : Event := { done := false, Args := [] }

/-- `(*Event).Emit(args...)`: the event after it and what it returns. -/
def Event.Emit (evt : Event) (args : List GoVal) : Event × Bool :=
  if evt.done then (evt, false)
  else ({ done := true, Args := args }, true)

/-- `(*Event).Done()`. -/
def Event.Done (evt : Event) : Bool := evt.done

/-- A sequence of `Emit` calls, each given by its arguments: the event after them and what
they return. -/
def Event.emitAll (evt : Event) : List (List GoVal) → Event × List Bool
  | [] => (evt, [])
  | args :: rest =>
    ((Event.emitAll (evt.Emit args).1 rest).1,
      (evt.Emit args).2 :: (Event.emitAll (evt.Emit args).1 rest).2)

/-! # Theorems -/

/-! ## Facts about key equality -/

theorem floatEq_symm (a b : Nat) : floatEq a b = floatEq b a := by
  have e : (a == b) = (b == a) := BEq.comm
  unfold floatEq
  rw [e]
  cases isNaN a <;> cases isNaN b <;> cases (b == a) <;>
    cases (a % 2 ^ 63 == 0) <;> cases (b % 2 ^ 63 == 0) <;> rfl

theorem floatEq_trans {a b c : Nat} (h₁ : floatEq a b = true) (h₂ : floatEq b c = true) :
    floatEq a c = true := by
  unfold floatEq at *
  simp only [Bool.and_eq_true, Bool.not_eq_true', Bool.or_eq_true, beq_iff_eq] at *
  obtain ⟨⟨ha, _⟩, hab⟩ := h₁
  obtain ⟨⟨_, hc⟩, hbc⟩ := h₂
  refine ⟨⟨ha, hc⟩, ?_⟩
  rcases hab with hab | ⟨ha0, hb0⟩
  · subst hab; exact hbc
  · rcases hbc with hbc | ⟨_, hc0⟩
    · subst hbc; exact Or.inr ⟨ha0, hb0⟩
    · exact Or.inr ⟨ha0, hc0⟩

theorem goEq_symm (a b : GoVal) : goEq a b = goEq b a := by
  induction a generalizing b with
  | array2 x y ihx ihy =>
    cases b <;> simp [goEq]
    rw [ihx, ihy]
  | float64 a =>
    cases b <;> simp [goEq]
    exact floatEq_symm _ _
  | _ => cases b <;> simp [goEq, eq_comm]

theorem goEq_trans {a b c : GoVal} (h₁ : goEq a b = true) (h₂ : goEq b c = true) :
    goEq a c = true := by
  induction a generalizing b c with
  | array2 x y ihx ihy =>
    cases b <;> simp [goEq] at h₁
    cases c <;> simp [goEq] at h₂
    simp [goEq]
    exact ⟨ihx h₁.1 h₂.1, ihy h₁.2 h₂.2⟩
  | float64 a =>
    cases b <;> simp [goEq] at h₁
    cases c <;> simp [goEq] at h₂
    simp [goEq]
    exact floatEq_trans h₁ h₂
  | _ =>
    cases b <;> simp [goEq] at h₁ <;> cases c <;> simp [goEq] at h₂ <;> simp_all [goEq]

/-! ## Facts about `sync.Map` -/

/-- The value `Load` finds for a hashable key. -/
theorem SyncMap.Load_of_hashable (m : SyncMap) {k : GoVal} (hk : hashable k = true) :
    m.Load k = .ok ((m.find? (fun e => goEq e.1 k)).map (fun e => e.2)) := by
  simp [SyncMap.Load, hk]

theorem find_overwrite (m : SyncMap) (k v k2 : GoVal) :
    ((m.map (fun e => if goEq e.1 k then (e.1, v) else e)).find? (fun e => goEq e.1 k2)).map
        (fun e => e.2)
      = (m.find? (fun e => goEq e.1 k2)).map (fun e => if goEq e.1 k then v else e.2) := by
  induction m with
  | nil => rfl
  | cons e m ih =>
    have hkey : (if goEq e.1 k then (e.1, v) else e).1 = e.1 := by
      by_cases h : goEq e.1 k = true <;> simp [h]
    simp only [List.map_cons, List.find?_cons, hkey]
    by_cases h2 : goEq e.1 k2 = true
    · simp only [h2, Option.map_some']
      by_cases h : goEq e.1 k = true <;> simp [h]
    · simp only [h2]
      exact ih

/-- What a `Store` that returned normally does to later lookups: the stored key, and every
key equal to it, now finds the stored value; every other key finds what it found before. -/
theorem find_store (m : SyncMap) (k v k2 : GoVal) :
    ((if m.any (fun e => goEq e.1 k) then m.map (fun e => if goEq e.1 k then (e.1, v) else e)
        else m ++ [(k, v)]).find? (fun e => goEq e.1 k2)).map (fun e => e.2)
      = if goEq k k2 then some v else (m.find? (fun e => goEq e.1 k2)).map (fun e => e.2) := by
  by_cases hany : m.any (fun e => goEq e.1 k) = true
  · rw [if_pos hany, find_overwrite]
    obtain ⟨e, he, hek⟩ := List.any_eq_true.mp hany
    by_cases hk : goEq k k2 = true
    · rw [if_pos hk]
      have hne : m.find? (fun e => goEq e.1 k2) ≠ none := by
        intro hnone
        have := List.find?_eq_none.mp hnone e he
        exact this (goEq_trans hek hk)
      obtain ⟨e', he'⟩ := Option.ne_none_iff_exists'.mp hne
      have h2 : goEq e'.1 k2 = true := List.find?_some (p := fun (e : GoVal × GoVal) => goEq e.1 k2) he'
      have : goEq e'.1 k = true := goEq_trans h2 (by rw [goEq_symm]; exact hk)
      simp [he', this]
    · rw [if_neg hk]
      cases hf : m.find? (fun e => goEq e.1 k2) with
      | none => rfl
      | some e' =>
        have h2 : goEq e'.1 k2 = true := List.find?_some (p := fun (e : GoVal × GoVal) => goEq e.1 k2) hf
        have : ¬ goEq e'.1 k = true := by
          intro h
          exact hk (goEq_trans (by rw [goEq_symm]; exact h) h2)
        simp [this]
  · rw [if_neg hany, List.find?_append]
    have hall : ∀ e ∈ m, ¬ goEq e.1 k = true := by
      intro e he h
      exact hany (List.any_eq_true.mpr ⟨e, he, h⟩)
    by_cases hk : goEq k k2 = true
    · rw [if_pos hk]
      have hnone : m.find? (fun e => goEq e.1 k2) = none := by
        apply List.find?_eq_none.mpr
        intro e he h
        exact hall e he (goEq_trans h (by rw [goEq_symm]; exact hk))
      simp [hnone, hk]
    · rw [if_neg hk]
      cases hf : m.find? (fun e => goEq e.1 k2) <;> simp [hk]

/-- The `Store` method succeeds on a hashable key, and then `Load` sees the new value under
every key equal to the stored one and the old contents under every other key. -/
theorem SyncMap.Load_Store (m : SyncMap) (k v : GoVal) (hk : hashable k = true) :
    ∃ m', m.Store k v = .ok m' ∧
      ∀ k2, hashable k2 = true →
        m'.Load k2 = if goEq k k2 then .ok (some v) else m.Load k2 := by
  refine ⟨if m.any (fun e => goEq e.1 k) then m.map (fun e => if goEq e.1 k then (e.1, v) else e)
      else m ++ [(k, v)], by simp [SyncMap.Store, hk], ?_⟩
  intro k2 hk2
  rw [SyncMap.Load_of_hashable _ hk2, SyncMap.Load_of_hashable _ hk2, find_store]
  by_cases h : goEq k k2 = true <;> simp [h]

/-- After a `Store` that returned normally the map holds the stored value, under the given
key or under the equal key it held already. -/
theorem SyncMap.mem_Store (m m' : SyncMap) (k v : GoVal) (h : m.Store k v = .ok m') :
    ∃ k', (k' = k ∨ goEq k' k = true) ∧ (k', v) ∈ m' := by
  unfold SyncMap.Store at h
  by_cases hk : hashable k = true
  · rw [if_pos hk] at h
    injection h with h
    subst h
    by_cases hany : m.any (fun e => goEq e.1 k) = true
    · obtain ⟨e, he, hek⟩ := List.any_eq_true.mp hany
      refine ⟨e.1, Or.inr hek, ?_⟩
      rw [if_pos hany]
      exact List.mem_map.mpr ⟨e, he, by simp [hek]⟩
    · refine ⟨k, Or.inl rfl, ?_⟩
      rw [if_neg hany]
      simp
  · rw [if_neg hk] at h
    cases h

/-! ## Facts about `env.Set` -/

theorem settable_eq_false_iff (key : GoVal) :
    settable key = false ↔ key = .nil ∨ typeComparable key = false ∨ hashable key = false := by
  unfold settable
  by_cases h1 : key = .nil
  · simp [h1]
  · cases h2 : typeComparable key <;> cases h3 : hashable key <;> simp [h1]

/-- A `Set` with a key that is nil, of a non-comparable type or unhashable panics and leaves
the heap as it was. -/
theorem env.Set_of_not_settable (h : Heap) (e : Nat) (key value : GoVal)
    (hs : settable key = false) :
    (env.Set h e key value).1 = h ∧ (env.Set h e key value).2 ≠ none := by
  unfold env.Set
  by_cases h1 : key = .nil
  · simp [h1]
  · rw [if_neg h1]
    cases h2 : typeComparable key
    · simp
    · have h3 : hashable key = false := by
        rcases (settable_eq_false_iff key).mp hs with h | h | h
        · exact absurd h h1
        · rw [h2] at h; cases h
        · exact h
      cases hn : h[e]? with
      | none => simp
      | some node => simp [SyncMap.Store, h3]

/-- A `Set` with any other key, on a cell that exists, returns normally and replaces the
store of that cell by the result of `Store`. -/
theorem env.Set_of_settable (h : Heap) (e : Nat) (key value : GoVal) (node : env)
    (hn : h[e]? = some node) (hs : settable key = true) :
    ∃ vals, node.vals.Store key value = .ok vals ∧
      env.Set h e key value = (h.set e { node with vals := vals }, none) := by
  unfold settable at hs
  simp only [Bool.and_eq_true, decide_eq_true_eq] at hs
  obtain ⟨⟨h1, h2⟩, h3⟩ := hs
  obtain ⟨vals, hv, -⟩ := SyncMap.Load_Store node.vals key value h3
  refine ⟨vals, hv, ?_⟩
  unfold env.Set
  simp [h1, h2, hn, hv]

/-! ## Facts about `env.Get` and histories of calls -/

/-- On a well-formed heap whose local stores answer `k` as `f` says, `Get` returns what the
first node of the path with an answer holds. -/
theorem env.GetFuel_of_loads (h : Heap) (k : GoVal) (f : Nat → Option GoVal)
    (hwf : WellFormed h)
    (hload : ∀ (n : Nat) (node : env), h[n]? = some node → node.vals.Load k = .ok (f n)) :
    ∀ (fuel d : Nat), d < fuel → d < h.length →
      env.GetFuel fuel h d k =
        .ok (match (env.pathFuel fuel h d).findSome? f with
             | some v => (v, true)
             | none => (.nil, false)) := by
  intro fuel
  induction fuel with
  | zero => intro d hd; omega
  | succ fuel ih =>
    intro d hd hlen
    have hn : h[d]? = some h[d] := List.getElem?_eq_getElem hlen
    have hl := hload d _ hn
    simp only [env.GetFuel, env.pathFuel, hn, hl, List.findSome?_cons]
    cases hf : f d with
    | some v => rfl
    | none =>
      cases hp : (h[d]).parent with
      | none => simp
      | some p =>
        have hlt : p < d := hwf d _ hn p hp
        simp only []
        exact ih p (by omega) (by omega)

theorem runCalls_append (h : Heap) (calls : List EnvCall) (c : EnvCall) :
    runCalls h (calls ++ [c]) =
      (runCalls h calls).bind (fun h' =>
        if c.receiver < h'.length then some (c.apply h') else none) := by
  induction calls generalizing h with
  | nil =>
    simp only [List.nil_append, runCalls, Option.some_bind]
  | cons a calls ih =>
    simp only [List.cons_append, runCalls]
    by_cases ha : a.receiver < h.length
    · simp only [ha, if_true]; exact ih _
    · simp [ha]

theorem lastSet_append_Fork (calls : List EnvCall) (e n : Nat) (k : GoVal) :
    lastSet (calls ++ [.Fork e]) n k = lastSet calls n k := by
  simp [lastSet, List.reverse_append, List.findSome?_cons]

theorem lastSet_append_Set (calls : List EnvCall) (e n : Nat) (key value k : GoVal) :
    lastSet (calls ++ [.Set e key value]) n k =
      if e = n ∧ settable key = true ∧ goEq key k = true then some value
      else lastSet calls n k := by
  simp only [lastSet, List.reverse_append, List.reverse_cons, List.reverse_nil, List.nil_append,
    List.singleton_append, List.findSome?_cons]
  by_cases hc : e = n ∧ settable key = true ∧ goEq key k = true
  · simp only [hc, and_self, if_true]
  · simp only [hc, if_false]

theorem lastSet_eq_none (calls : List EnvCall) (n : Nat) (k : GoVal)
    (h : ∀ c ∈ calls, c.receiver ≠ n) : lastSet calls n k = none := by
  unfold lastSet
  rw [List.findSome?_eq_none_iff]
  intro c hc
  have hr := h c (List.mem_reverse.mp hc)
  cases c with
  | Fork e => rfl
  | Set e key value =>
    have : ¬ e = n := hr
    simp [this]

/-- What holds of every heap the package can reach from a fresh root: it is well-formed, every
call was made on a cell of it, and each local store answers a hashable key with the value
most recently set for it at that cell. -/
theorem runCalls_invariant (calls : List EnvCall) :
    ∀ h, runCalls rootHeap calls = some h →
      WellFormed h ∧ (∀ c ∈ calls, c.receiver < h.length) ∧
      (∀ (n : Nat) (node : env) (k : GoVal), h[n]? = some node → hashable k = true →
          node.vals.Load k = .ok (lastSet calls n k)) := by
  induction calls using List.reverseRecOn with
  | nil =>
    intro h hr
    simp only [runCalls, Option.some.injEq] at hr
    subst hr
    refine ⟨?_, by simp, ?_⟩
    · intro i node hn p hp
      simp only [rootHeap, NewEnv, List.nil_append] at hn
      cases i with
      | zero => simp at hn; subst hn; simp at hp
      | succ i => simp at hn
    · intro n node k hn hk
      simp only [rootHeap, NewEnv, List.nil_append] at hn
      cases n with
      | zero =>
        simp at hn; subst hn
        simp [SyncMap.Load, hk, lastSet]
      | succ n => simp at hn
  | append_singleton calls c ih =>
    intro h hr
    rw [runCalls_append] at hr
    cases hr0 : runCalls rootHeap calls with
    | none => simp [hr0] at hr
    | some h0 =>
      rw [hr0] at hr
      simp only [Option.some_bind] at hr
      by_cases hc : c.receiver < h0.length
      · rw [if_pos hc] at hr
        injection hr with hr
        subst hr
        obtain ⟨hwf, hrecv, hloads⟩ := ih h0 hr0
        cases c with
        | Fork e =>
          have hc' : e < h0.length := hc
          simp only [EnvCall.apply, env.Fork, env.fork]
          refine ⟨?_, ?_, ?_⟩
          · intro i node hn p hp
            by_cases hi : i < h0.length
            · rw [List.getElem?_append_left hi] at hn
              exact hwf i node hn p hp
            · by_cases hi' : i = h0.length
              · subst hi'
                rw [List.getElem?_concat_length] at hn
                injection hn with hn
                subst hn
                simp only [Option.some.injEq] at hp
                omega
              · rw [List.getElem?_eq_none (by simp; omega)] at hn
                cases hn
          · intro c hcm
            rw [List.length_append]
            rcases List.mem_append.mp hcm with hcm | hcm
            · have := hrecv c hcm; omega
            · simp only [List.mem_singleton] at hcm
              subst hcm
              simp only [EnvCall.receiver, List.length_singleton]; omega
          · intro n node k hn hk
            rw [lastSet_append_Fork]
            by_cases hi : n < h0.length
            · rw [List.getElem?_append_left hi] at hn
              exact hloads n node k hn hk
            · by_cases hi' : n = h0.length
              · subst hi'
                rw [List.getElem?_concat_length] at hn
                injection hn with hn
                subst hn
                rw [lastSet_eq_none]
                · simp [SyncMap.Load, hk]
                · intro c hcm
                  have := hrecv c hcm
                  omega
              · rw [List.getElem?_eq_none (by simp; omega)] at hn
                cases hn
        | Set e key value =>
          have hc' : e < h0.length := hc
          have he : h0[e]? = some h0[e] := List.getElem?_eq_getElem hc'
          simp only [EnvCall.apply]
          cases hs : settable key with
          | false =>
            rw [(env.Set_of_not_settable h0 e key value hs).1]
            refine ⟨hwf, ?_, ?_⟩
            · intro c hcm
              rcases List.mem_append.mp hcm with hcm | hcm
              · exact hrecv c hcm
              · simp only [List.mem_singleton] at hcm
                subst hcm
                exact hc'
            · intro n node k hn hk
              rw [lastSet_append_Set]
              simp only [hs, Bool.false_eq_true, false_and, and_false, if_false]
              exact hloads n node k hn hk
          | true =>
            obtain ⟨vals, hv, hset⟩ := env.Set_of_settable h0 e key value _ he hs
            rw [hset]
            have hkey : hashable key = true := by
              unfold settable at hs
              simp only [Bool.and_eq_true] at hs
              exact hs.2
            obtain ⟨vals', hv', hload'⟩ := SyncMap.Load_Store (h0[e]).vals key value hkey
            rw [hv] at hv'
            injection hv' with hv'
            subst hv'
            refine ⟨?_, ?_, ?_⟩
            · intro i node hn p hp
              by_cases hie : e = i
              · subst hie
                rw [List.getElem?_set_self hc'] at hn
                injection hn with hn
                subst hn
                exact hwf e _ he p hp
              · rw [List.getElem?_set_ne hie] at hn
                exact hwf i node hn p hp
            · intro c hcm
              rw [List.length_set]
              rcases List.mem_append.mp hcm with hcm | hcm
              · exact hrecv c hcm
              · simp only [List.mem_singleton] at hcm
                subst hcm
                exact hc'
            · intro n node k hn hk
              rw [lastSet_append_Set]
              by_cases hie : e = n
              · subst hie
                rw [List.getElem?_set_self hc'] at hn
                injection hn with hn
                subst hn
                simp only [hload' k hk, hs, true_and]
                by_cases hg : goEq key k = true
                · simp [hg]
                · simp only [hg, if_false]
                  exact hloads e _ k he hk
              · rw [List.getElem?_set_ne hie] at hn
                simp only [hie, false_and, if_false]
                exact hloads n node k hn hk
      · simp [hc] at hr

/-! ## The overlay lookup (C1) -/

/-- C1, as stated, fails for a key that cannot be hashed: on a fresh root, `Get` of a
`net.IP` (a slice) panics instead of reporting not-found. -/
theorem C1_counterexample :
    runCalls rootHeap [] = some rootHeap ∧ 0 < rootHeap.length ∧
      specGet [] rootHeap 0 (.ip none) = (.nil, false) ∧
      env.Get rootHeap 0 (.ip none) = .error .unhashable ∧
      env.Get rootHeap 0 (.ip none) ≠ .ok (specGet [] rootHeap 0 (.ip none)) := by
  refine ⟨rfl, by decide, rfl, rfl, ?_⟩
  intro h
  cases h

/-- C1, amended: for every tree built from a fresh root by a sequence of `Fork` and `Set`
calls, every node `d` of it and every key `k` that can be hashed, `Get` returns `(v, true)`
with `v` the value most recently set for `k` at the nearest node on the path from `d` up to
the root that holds `k`, and `(nil, false)` when no node on that path holds `k`. -/
theorem C1_get_returns_nearest_set (calls : List EnvCall) (h : Heap) (d : Nat) (k : GoVal)
    (hrun : runCalls rootHeap calls = some h) (hd : d < h.length) (hk : hashable k = true) :
    env.Get h d k = .ok (specGet calls h d k) := by
  obtain ⟨hwf, -, hloads⟩ := runCalls_invariant calls h hrun
  exact env.GetFuel_of_loads h k (fun n => lastSet calls n k) hwf
    (fun n node hn => hloads n node k hn hk) (d + 1) d (by omega) hd

/-- The scenario of C1: the grandchild sees `region` of the root and `zone` of its parent. -/
theorem C1_get_returns_nearest_set_witness :
    env.Get scenarioHeap 2 (.string "region") = .ok (.string "us", true) ∧
      env.Get scenarioHeap 2 (.string "zone") = .ok (.string "a", true) :=
  ⟨C1_get_returns_nearest_set scenarioCalls scenarioHeap 2 (.string "region") rfl (by decide) rfl,
   C1_get_returns_nearest_set scenarioCalls scenarioHeap 2 (.string "zone") rfl (by decide) rfl⟩

/-- On a well-formed heap the budget of the walk is never what ends it: any two budgets above
`m` give the same path from `m`, which therefore runs up to the root. -/
theorem env.pathFuel_stable (h : Heap) (hwf : WellFormed h) :
    ∀ (fuel1 fuel2 m : Nat), m < fuel1 → m < fuel2 →
      env.pathFuel fuel1 h m = env.pathFuel fuel2 h m := by
  intro fuel1
  induction fuel1 with
  | zero => intro fuel2 m h1; omega
  | succ f1 ih =>
    intro fuel2 m h1 h2
    cases fuel2 with
    | zero => omega
    | succ f2 =>
      simp only [env.pathFuel]
      cases hc : h[m]? with
      | none => rfl
      | some c =>
        dsimp only
        cases hp : c.parent with
        | none => rfl
        | some p =>
          dsimp only
          have hlt : p < m := hwf m c hc p hp
          rw [ih f2 p (by omega) (by omega)]

/-! ## Writes are local (C2) -/

/-- The heap after a `Set` is the heap before, with at most the cell of the receiver replaced. -/
theorem env.Set_heap (h : Heap) (n : Nat) (key value : GoVal) :
    (env.Set h n key value).1 = h ∨ ∃ node, (env.Set h n key value).1 = h.set n node := by
  unfold env.Set
  by_cases h1 : key = .nil
  · simp [h1]
  · rw [if_neg h1]
    cases h2 : typeComparable key
    · simp
    · cases hn : h[n]? with
      | none => simp
      | some node =>
        simp only [Bool.not_true, Bool.false_eq_true, if_false]
        cases hs : node.vals.Store key value with
        | error p => exact Or.inl rfl
        | ok vals => exact Or.inr ⟨_, rfl⟩

theorem env.GetFuel_set_of_not_mem (h : Heap) (n : Nat) (node : env) (k : GoVal) :
    ∀ (fuel m : Nat), n ∉ env.pathFuel fuel h m →
      env.GetFuel fuel (h.set n node) m k = env.GetFuel fuel h m k := by
  intro fuel
  induction fuel with
  | zero => intro m _; rfl
  | succ fuel ih =>
    intro m hm
    simp only [env.pathFuel, List.mem_cons, not_or] at hm
    obtain ⟨hne, hrest⟩ := hm
    simp only [env.GetFuel, List.getElem?_set_ne hne]
    cases hc : h[m]? with
    | none => rfl
    | some c =>
      simp only [hc] at hrest
      dsimp only
      cases hl : c.vals.Load k with
      | error p => rfl
      | ok r =>
        cases r with
        | some v => rfl
        | none =>
          dsimp only
          cases hp : c.parent with
          | none => rfl
          | some p =>
            simp only [hp] at hrest
            exact ih p hrest

theorem env.keysFuel_set_of_not_mem (h : Heap) (n : Nat) (node : env) :
    ∀ (fuel m : Nat), n ∉ env.pathFuel fuel h m →
      env.keysFuel fuel (h.set n node) m = env.keysFuel fuel h m := by
  intro fuel
  induction fuel with
  | zero => intro m _; rfl
  | succ fuel ih =>
    intro m hm
    simp only [env.pathFuel, List.mem_cons, not_or] at hm
    obtain ⟨hne, hrest⟩ := hm
    simp only [env.keysFuel, List.getElem?_set_ne hne]
    cases hc : h[m]? with
    | none => rfl
    | some c =>
      simp only [hc] at hrest
      dsimp only
      cases hp : c.parent with
      | none => rfl
      | some p =>
        simp only [hp] at hrest
        dsimp only
        rw [ih p hrest]

/-- A `Set` at `n` changes no `Get` and no `Keys` at a node whose path avoids `n`. -/
theorem env.Set_frame (h : Heap) (n m : Nat) (key value : GoVal)
    (hm : n ∉ env.path h m) :
    (∀ k, env.Get (env.Set h n key value).1 m k = env.Get h m k) ∧
      env.Keys (env.Set h n key value).1 m = env.Keys h m := by
  rcases env.Set_heap h n key value with he | ⟨node, he⟩
  · rw [he]; exact ⟨fun _ => rfl, rfl⟩
  · rw [he]
    exact ⟨fun k => env.GetFuel_set_of_not_mem h n node k (m + 1) m hm,
      env.keysFuel_set_of_not_mem h n node (m + 1) m hm⟩

/-- C2: a `Set` at node `n` changes nothing for a node `m` that is neither `n` nor a
descendant of `n` (`n` is not on the path from `m` up to the root): every `Get` at `m` and
`Keys` at `m` return the same before and after the call. -/
theorem C2_set_is_local (h : Heap) (n m : Nat) (key value : GoVal)
    (hm : n ∉ env.path h m) :
    (∀ k, env.Get (env.Set h n key value).1 m k = env.Get h m k) ∧
      env.Keys (env.Set h n key value).1 m = env.Keys h m := by
  rcases env.Set_heap h n key value with he | ⟨node, he⟩
  · rw [he]; exact ⟨fun _ => rfl, rfl⟩
  · rw [he]
    exact ⟨fun k => env.GetFuel_set_of_not_mem h n node k (m + 1) m hm,
      env.keysFuel_set_of_not_mem h n node (m + 1) m hm⟩

/-- The scenario of C2: when the child `C1` sets `zone`, the sibling `C2` forked from the root
still finds no `zone`, and still lists only `region`. -/
theorem C2_set_is_local_witness :
    (env.Set scenarioHeapBefore 1 (.string "zone") (.string "a")).1 = scenarioHeap ∧
      env.Get scenarioHeap 3 (.string "zone") = .ok (.nil, false) ∧
      env.Keys scenarioHeap 3 = .ok [.string "region"] :=
  ⟨rfl,
   ((C2_set_is_local scenarioHeapBefore 1 3 (.string "zone") (.string "a") (by decide)).1
      (.string "zone")),
   (C2_set_is_local scenarioHeapBefore 1 3 (.string "zone") (.string "a") (by decide)).2⟩

/-! ## When `Set` fails (C9) -/

/-- C9, as stated, fails for a key of a comparable type that holds a value of a
non-comparable one: `[2]any{net.IP(nil), nil}` is not nil and `[2]any` is a comparable type,
so both guards of `Set` pass, and the store then panics hashing the key. -/
theorem C9_counterexample :
    (GoVal.array2 (.ip none) .nil) ≠ .nil ∧
      typeComparable (.array2 (.ip none) .nil) = true ∧
      (env.Set rootHeap 0 (.array2 (.ip none) .nil) (.int 1)).2 = some .unhashable := by
  refine ⟨by decide, rfl, rfl⟩

/-- C9, amended: `Set` on a node fails fatally if and only if the key is nil, or its dynamic
type is not comparable, or the key cannot be hashed (it holds, inside a comparable array, a
value of a non-comparable type).  When it fails the heap is left unchanged; otherwise only
the store of the receiver changes, it holds the given value under the key (or under the equal
key it held already), and it answers every key equal to the given one with the given value
and every other key as before. -/
theorem C9_set_fails_iff (h : Heap) (e : Nat) (key value : GoVal) (he : e < h.length) :
    ((env.Set h e key value).2 ≠ none ↔
        key = .nil ∨ typeComparable key = false ∨ hashable key = false) ∧
      ((env.Set h e key value).2 ≠ none → (env.Set h e key value).1 = h) ∧
      ((env.Set h e key value).2 = none →
        ∃ vals, (h[e]).vals.Store key value = .ok vals ∧
          (env.Set h e key value).1 = h.set e { h[e] with vals := vals } ∧
          (∃ k', (k' = key ∨ goEq k' key = true) ∧ (k', value) ∈ vals) ∧
          ∀ k2, hashable k2 = true →
            vals.Load k2 = if goEq key k2 then .ok (some value) else (h[e]).vals.Load k2) := by
  have hn : h[e]? = some h[e] := List.getElem?_eq_getElem he
  cases hs : settable key with
  | false =>
    obtain ⟨h1, h2⟩ := env.Set_of_not_settable h e key value hs
    refine ⟨⟨fun _ => (settable_eq_false_iff key).mp hs, fun _ => h2⟩, fun _ => h1, ?_⟩
    intro h3
    exact absurd h3 h2
  | true =>
    obtain ⟨vals, hv, hset⟩ := env.Set_of_settable h e key value _ hn hs
    have hnot : ¬ (key = .nil ∨ typeComparable key = false ∨ hashable key = false) := by
      intro hc
      have := (settable_eq_false_iff key).mpr hc
      rw [hs] at this
      cases this
    have hkey : hashable key = true := by
      cases hh : hashable key with
      | true => rfl
      | false => exact absurd (Or.inr (Or.inr hh)) hnot
    refine ⟨?_, ?_, ?_⟩
    · rw [hset]
      exact ⟨fun hc => absurd rfl hc, fun hc => absurd hc hnot⟩
    · rw [hset]
      intro hc
      exact absurd rfl hc
    · intro _
      obtain ⟨vals', hv', hload⟩ := SyncMap.Load_Store (h[e]).vals key value hkey
      rw [hv] at hv'
      injection hv' with hv'
      subst hv'
      refine ⟨vals, hv, by rw [hset], SyncMap.mem_Store _ _ _ _ hv, hload⟩

/-- C9 at work: on the root of the scenario a `Set` of `region` returns normally and
overwrites the value, and a `Set` with the nil key panics and changes nothing. -/
theorem C9_set_fails_iff_witness :
    (env.Set scenarioHeap 0 (.string "region") (.string "eu")).2 = none ∧
      (env.Set scenarioHeap 0 .nil (.string "eu")).1 = scenarioHeap :=
  ⟨not_not.mp (mt
      (C9_set_fails_iff scenarioHeap 0 (.string "region") (.string "eu") (by decide)).1.mp
      (by decide)),
   (C9_set_fails_iff scenarioHeap 0 .nil (.string "eu") (by decide)).2.1 (by decide)⟩

/-! ## The typed getters (C10) -/

theorem env.getTyped_not_found {α : Type} (narrow : GoVal → Option α) (zero : α)
    (h : Heap) (e : Nat) (key v : GoVal) (hg : env.Get h e key = .ok (v, false)) :
    env.getTyped narrow zero h e key = .ok zero := by
  simp [env.getTyped, hg]

theorem env.getTyped_found {α : Type} (narrow : GoVal → Option α) (zero : α)
    (h : Heap) (e : Nat) (key v : GoVal) (x : α) (hg : env.Get h e key = .ok (v, true))
    (hx : narrow v = some x) :
    env.getTyped narrow zero h e key = .ok x := by
  simp [env.getTyped, hg, hx]

/-- C10: when `Get(k)` reports not-found, each typed getter returns the zero value of its type
without failing; when `Get(k)` finds a value of the requested type, the getter returns
exactly that value. -/
theorem C10_typed_getters (h : Heap) (e : Nat) (key : GoVal) :
    (∀ v, env.Get h e key = .ok (v, false) →
        env.GetInt h e key = .ok 0 ∧ env.GetInt64 h e key = .ok 0 ∧
        env.GetUint h e key = .ok 0 ∧ env.GetUint64 h e key = .ok 0 ∧
        env.GetDuration h e key = .ok 0 ∧ env.GetFloat h e key = .ok 0 ∧
        env.GetBool h e key = .ok false ∧ env.GetString h e key = .ok "" ∧
        env.GetIP h e key = .ok none ∧ env.GetAddr h e key = .ok .nil ∧
        env.GetTime h e key = .ok (0, 0, 0)) ∧
      (∀ v, env.Get h e key = .ok (v, true) →
        (∀ n, v = .int n → env.GetInt h e key = .ok n) ∧
        (∀ n, v = .int64 n → env.GetInt64 h e key = .ok n) ∧
        (∀ n, v = .uint n → env.GetUint h e key = .ok n) ∧
        (∀ n, v = .uint64 n → env.GetUint64 h e key = .ok n) ∧
        (∀ n, v = .duration n → env.GetDuration h e key = .ok n) ∧
        (∀ bits, v = .float64 bits → env.GetFloat h e key = .ok bits) ∧
        (∀ b, v = .bool b → env.GetBool h e key = .ok b) ∧
        (∀ s, v = .string s → env.GetString h e key = .ok s) ∧
        (∀ bytes, v = .ip bytes → env.GetIP h e key = .ok bytes) ∧
        (∀ ptr, v = .addr ptr → env.GetAddr h e key = .ok (.addr ptr)) ∧
        (∀ w x l, v = .time w x l → env.GetTime h e key = .ok (w, x, l))) := by
  constructor
  · intro v hg
    exact ⟨env.getTyped_not_found _ _ h e key v hg, env.getTyped_not_found _ _ h e key v hg,
      env.getTyped_not_found _ _ h e key v hg, env.getTyped_not_found _ _ h e key v hg,
      env.getTyped_not_found _ _ h e key v hg, env.getTyped_not_found _ _ h e key v hg,
      env.getTyped_not_found _ _ h e key v hg, env.getTyped_not_found _ _ h e key v hg,
      env.getTyped_not_found _ _ h e key v hg, env.getTyped_not_found _ _ h e key v hg,
      env.getTyped_not_found _ _ h e key v hg⟩
  · intro v hg
    refine ⟨?_, ?_, ?_, ?_, ?_, ?_, ?_, ?_, ?_, ?_, ?_⟩
    all_goals
      intros
      subst_vars
      exact env.getTyped_found _ _ h e key _ _ hg rfl

/-- C10 in the scenario: the sibling `C2` finds no `zone`, so `GetInt` and `GetString` give
`0` and `""`; the grandchild finds the string `us` under `region`. -/
theorem C10_typed_getters_witness :
    env.GetInt scenarioHeap 3 (.string "zone") = .ok 0 ∧
      env.GetString scenarioHeap 3 (.string "zone") = .ok "" ∧
      env.GetString scenarioHeap 2 (.string "region") = .ok "us" :=
  ⟨((C10_typed_getters scenarioHeap 3 (.string "zone")).1 .nil rfl).1,
   ((C10_typed_getters scenarioHeap 3 (.string "zone")).1 .nil rfl).2.2.2.2.2.2.2.1,
   ((C10_typed_getters scenarioHeap 2 (.string "region")).2 (.string "us") rfl).2.2.2.2.2.2.2.1
      "us" rfl⟩

/-! ## Decimal numerals -/

theorem digitChar_value : ∀ k, k < 10 → (Nat.digitChar k).toNat - 48 = k := by
  decide

theorem toDigitsCore_append (fuel : Nat) :
    ∀ (n : Nat) (ds : List Char),
      Nat.toDigitsCore 10 fuel n ds = Nat.toDigitsCore 10 fuel n [] ++ ds := by
  induction fuel with
  | zero => intro n ds; rfl
  | succ fuel ih =>
    intro n ds
    simp only [Nat.toDigitsCore]
    by_cases h : n / 10 = 0
    · simp [h]
    · simp only [h, if_false]
      rw [ih (n / 10) (Nat.digitChar (n % 10) :: ds), ih (n / 10) [Nat.digitChar (n % 10)]]
      simp

theorem decimalValue_toDigitsCore (fuel : Nat) :
    ∀ n, n < fuel →
      (Nat.toDigitsCore 10 fuel n []).foldl (fun acc c => 10 * acc + (c.toNat - 48)) 0 = n := by
  induction fuel with
  | zero => intro n hn; omega
  | succ fuel ih =>
    intro n hn
    simp only [Nat.toDigitsCore]
    have hd := digitChar_value (n % 10) (Nat.mod_lt _ (by decide))
    by_cases h : n / 10 = 0
    · simp only [h, if_true, List.foldl_cons, List.foldl_nil, hd]
      omega
    · simp only [h, if_false]
      rw [toDigitsCore_append, List.foldl_append, ih (n / 10) (by omega)]
      simp only [List.foldl_cons, List.foldl_nil, hd]
      omega

/-- Reading the numeral `FormatUint` writes gives the number back. -/
theorem decimalValue_FormatUint (n : Nat) : decimalValue (FormatUint n) = n := by
  unfold decimalValue FormatUint Nat.toDigits
  exact decimalValue_toDigitsCore (n + 1) n (by omega)

/-- Different numbers have different numerals. -/
theorem FormatUint_injective {a b : Nat} (h : FormatUint a = FormatUint b) : a = b := by
  have := congrArg decimalValue h
  rwa [decimalValue_FormatUint, decimalValue_FormatUint] at this

/-! ## The naming fork (C3, C4, C6) -/

theorem getD_set_append_self (l : List Nat) (t v : Nat) (ht : t < l.length) :
    (l.set t v ++ [0]).getD t 0 = v := by
  rw [List.getD_eq_getElem?_getD, List.getElem?_append_left (by simpa using ht),
    List.getElem?_set_self ht]
  rfl

theorem getD_set_append_ne (l : List Nat) (t t' v : Nat) (hne : t ≠ t') :
    (l.set t v ++ [0]).getD t' 0 = l.getD t' 0 := by
  rw [List.getD_eq_getElem?_getD, List.getD_eq_getElem?_getD]
  by_cases h : t' < l.length
  · rw [List.getElem?_append_left (by simpa using h), List.getElem?_set_ne hne]
  · rw [List.getElem?_eq_none (l := l) (by omega)]
    by_cases h' : t' = l.length
    · subst h'
      have : (l.set t v ++ [0])[l.length]? = some 0 := by
        have := List.getElem?_concat_length (l.set t v) 0
        rw [List.length_set] at this
        exact this
      rw [this]
      rfl
    · rw [List.getElem?_eq_none (by simp; omega)]

/-- What one `ForkAt` does: the child is named with the numeral of the incremented counter,
the counter of the receiver holds that number, and the child owns a new counter. -/
theorem context.ForkAt_spec (w : World) (c : context) (location : String) :
    (c.ForkAt w location).2.logger =
        c.logger.Fork (FormatUint ((w.trackers.getD c.tracker 0 + 1) % 2 ^ 64)) location ∧
      (c.ForkAt w location).1.trackers =
        w.trackers.set c.tracker ((w.trackers.getD c.tracker 0 + 1) % 2 ^ 64) ++ [0] ∧
      (c.ForkAt w location).2.tracker = w.trackers.length ∧
      (c.ForkAt w location).2.gctx = c.gctx := by
  refine ⟨rfl, rfl, ?_, rfl⟩
  simp [context.ForkAt, context.fork, atomicAddUint64]

/-- The children of a sequence of `ForkAt` calls that draw from the tracker `t`: the call
whose increment comes `i + 1`-th is named with the counter before the sequence plus `i + 1`,
reduced modulo `2 ^ 64`. -/
theorem forkAtAll_names (calls : List (context × String)) :
    ∀ (w : World) (t : Nat), t < w.trackers.length → (∀ x ∈ calls, x.1.tracker = t) →
      ∀ (i : Nat) (c : context) (location : String), calls[i]? = some (c, location) →
        ∃ d, (forkAtAll w calls).2[i]? = some d ∧
          d.logger = c.logger.Fork
            (FormatUint ((w.trackers.getD t 0 + (i + 1)) % 2 ^ 64)) location := by
  induction calls with
  | nil => intro w t _ _ i c location hi; simp at hi
  | cons x rest ih =>
    intro w t ht hall i c location hi
    obtain ⟨c0, l0⟩ := x
    have hc0 : c0.tracker = t := hall (c0, l0) (List.mem_cons_self _ _)
    obtain ⟨hlog, htr, -, -⟩ := context.ForkAt_spec w c0 l0
    cases i with
    | zero =>
      simp only [List.getElem?_cons_zero, Option.some.injEq, Prod.mk.injEq] at hi
      obtain ⟨rfl, rfl⟩ := hi
      refine ⟨(c0.ForkAt w l0).2, by simp [forkAtAll], ?_⟩
      rw [hlog, hc0]
    | succ i =>
      simp only [List.getElem?_cons_succ] at hi
      have ht' : t < (c0.ForkAt w l0).1.trackers.length := by
        rw [htr]; simp; omega
      obtain ⟨d, hd, hdl⟩ := ih (c0.ForkAt w l0).1 t ht'
        (fun x hx => hall x (List.mem_cons_of_mem _ hx)) i c location hi
      refine ⟨d, by simpa [forkAtAll] using hd, ?_⟩
      rw [hdl, htr, hc0, getD_set_append_self _ _ _ ht]
      congr 2
      omega

/-- C3, as stated, fails when the counter wraps around: with the tracker at `2 ^ 64 - 1` the
next `ForkAt` is named `0`, not with the numeral of `2 ^ 64`, and a name issued before is
not smaller than it. -/
theorem C3_counterexample :
    rootContext.tracker < wrapWorld.trackers.length ∧
      wrapWorld.trackers.getD rootContext.tracker 0 = 2 ^ 64 - 1 ∧
      (forkAtAll wrapWorld [(rootContext, "")]).2.map (fun d => d.logger.name) = [["0"]] ∧
      FormatUint (2 ^ 64 - 1 + 1) = "18446744073709551616" ∧
      (rootContext.ForkAt wrapWorld "").2.logger ≠
        rootContext.logger.Fork (FormatUint (2 ^ 64 - 1 + 1)) "" := by
  refine ⟨by decide, rfl, rfl, rfl, by decide⟩

/-- C3, amended: in a sequence of `n < 2 ^ 64` naming forks that draw from one tracker, taken
in the order of their atomic increments, the call whose increment is `i + 1`-th is named with
the decimal numeral of (counter before the sequence + `i + 1`) modulo `2 ^ 64`; the names
are pairwise distinct; and as long as the counter does not wrap around (counter before +
`n < 2 ^ 64`, as for a fresh tracker) the number is the counter before plus `i + 1` itself
and the names, read as numbers, increase strictly in issuance order. -/
theorem C3_forkAt_names (w : World) (t : Nat) (calls : List (context × String))
    (ht : t < w.trackers.length) (hall : ∀ x ∈ calls, x.1.tracker = t)
    (hn : calls.length < 2 ^ 64) :
    (∀ (i : Nat) (c : context) (location : String), calls[i]? = some (c, location) →
        ∃ d, (forkAtAll w calls).2[i]? = some d ∧
          d.logger = c.logger.Fork
            (FormatUint ((w.trackers.getD t 0 + (i + 1)) % 2 ^ 64)) location) ∧
      (∀ i j, i < j → j < calls.length →
        FormatUint ((w.trackers.getD t 0 + (i + 1)) % 2 ^ 64) ≠
          FormatUint ((w.trackers.getD t 0 + (j + 1)) % 2 ^ 64)) ∧
      (w.trackers.getD t 0 + calls.length < 2 ^ 64 →
        ∀ i j, i < j → j < calls.length →
          (w.trackers.getD t 0 + (i + 1)) % 2 ^ 64 = w.trackers.getD t 0 + (i + 1) ∧
          (w.trackers.getD t 0 + (j + 1)) % 2 ^ 64 = w.trackers.getD t 0 + (j + 1) ∧
          decimalValue (FormatUint (w.trackers.getD t 0 + (i + 1))) <
            decimalValue (FormatUint (w.trackers.getD t 0 + (j + 1)))) := by
  refine ⟨forkAtAll_names calls w t ht hall, ?_, ?_⟩
  · intro i j hij hj heq
    have := FormatUint_injective heq
    omega
  · intro hb i j hij hj
    rw [decimalValue_FormatUint, decimalValue_FormatUint]
    refine ⟨Nat.mod_eq_of_lt (by omega), Nat.mod_eq_of_lt (by omega), by omega⟩

/-- C3 on a fresh tracker: two naming forks from the root are named `1` and `2`, which are
different numerals. -/
theorem C3_forkAt_names_witness :
    (forkAtAll rootWorld [(rootContext, "x"), (rootContext, "y")]).2.map
        (fun d => d.logger.name) = [["1"], ["2"]] ∧
      FormatUint ((rootWorld.trackers.getD 0 0 + (0 + 1)) % 2 ^ 64) ≠
        FormatUint ((rootWorld.trackers.getD 0 0 + (1 + 1)) % 2 ^ 64) :=
  ⟨rfl,
   (C3_forkAt_names rootWorld 0 [(rootContext, "x"), (rootContext, "y")] (by decide)
      (by decide) (by decide)).2.1 0 1 (by decide) (by decide)⟩

theorem gcontext.WithDeadline_frame (w : World) (parent : GCtx) (d : Int) :
    (gcontext.WithDeadline w parent d).1.trackers = w.trackers ∧
      (gcontext.WithDeadline w parent d).1.envs = w.envs := by
  unfold gcontext.WithDeadline gcontext.WithCancel fireTimer
  split_ifs <;> exact ⟨rfl, rfl⟩

/-- A call other than a naming fork leaves every tracker as it was, and the context it returns
shares the tracker of the receiver and forks the logger with an empty name and the location
the call passes on. -/
theorem context.call_of_not_naming (w : World) (ctx : context) (c : CtxCall)
    (hc : c.naming = false) :
    (ctx.call w c).1.trackers = w.trackers ∧
      ∀ d, (ctx.call w c).2 = some d →
        d.tracker = ctx.tracker ∧ d.logger = ctx.logger.Fork "" c.location := by
  cases c with
  | Fork => simp [CtxCall.naming] at hc
  | ForkAt location => simp [CtxCall.naming] at hc
  | At location =>
    refine ⟨rfl, ?_⟩
    intro d hd
    simp only [context.call, Option.some.injEq] at hd
    subst hd
    exact ⟨rfl, rfl⟩
  | Reborn =>
    refine ⟨rfl, ?_⟩
    intro d hd
    simp only [context.call, Option.some.injEq] at hd
    subst hd
    exact ⟨rfl, rfl⟩
  | RebornWith g =>
    refine ⟨rfl, ?_⟩
    intro d hd
    simp only [context.call, Option.some.injEq] at hd
    subst hd
    exact ⟨rfl, rfl⟩
  | WithCancel =>
    refine ⟨rfl, ?_⟩
    intro d hd
    simp only [context.call, Option.some.injEq] at hd
    subst hd
    exact ⟨rfl, rfl⟩
  | WithDeadline t =>
    refine ⟨(gcontext.WithDeadline_frame _ _ _).1, ?_⟩
    intro d hd
    simp only [context.call, Option.some.injEq] at hd
    subst hd
    exact ⟨rfl, rfl⟩
  | WithTimeout t =>
    refine ⟨(gcontext.WithDeadline_frame _ _ _).1, ?_⟩
    intro d hd
    simp only [context.call, Option.some.injEq] at hd
    subst hd
    exact ⟨rfl, rfl⟩
  | WithValue key value =>
    refine ⟨rfl, ?_⟩
    intro d hd
    simp only [context.call, context.WithValue] at hd
    cases hg : gcontext.WithValue (context.fork w ctx "" "").2.gctx key value with
    | error p => simp [hg] at hd
    | ok g =>
      simp only [hg, Option.some.injEq] at hd
      subst hd
      exact ⟨rfl, rfl⟩

/-- No call touches the counter of a tracker other than the one of its receiver, and the
context it returns does not point to such a tracker either. -/
theorem context.call_frame (w : World) (ctx : context) (c : CtxCall) (t : Nat)
    (ht : t < w.trackers.length) (hne : ctx.tracker ≠ t) :
    (ctx.call w c).1.trackers.getD t 0 = w.trackers.getD t 0 ∧
      t < (ctx.call w c).1.trackers.length ∧
      ∀ d, (ctx.call w c).2 = some d → d.tracker ≠ t := by
  cases hc : c.naming with
  | false =>
    obtain ⟨htr, hd⟩ := context.call_of_not_naming w ctx c hc
    refine ⟨by rw [htr], by rw [htr]; exact ht, ?_⟩
    intro d hdd
    rw [(hd d hdd).1]
    exact hne
  | true =>
    have key : ∀ location, (ctx.ForkAt w location).1.trackers.getD t 0 = w.trackers.getD t 0 ∧
        t < (ctx.ForkAt w location).1.trackers.length ∧ (ctx.ForkAt w location).2.tracker ≠ t := by
      intro location
      obtain ⟨-, htr, htk, -⟩ := context.ForkAt_spec w ctx location
      refine ⟨by rw [htr, getD_set_append_ne _ _ _ _ hne], by rw [htr]; simp; omega, ?_⟩
      rw [htk]
      omega
    cases c with
    | Fork =>
      refine ⟨(key "").1, (key "").2.1, ?_⟩
      intro d hd
      simp only [context.call, Option.some.injEq] at hd
      subst hd
      exact (key "").2.2
    | ForkAt location =>
      refine ⟨(key location).1, (key location).2.1, ?_⟩
      intro d hd
      simp only [context.call, Option.some.injEq] at hd
      subst hd
      exact (key location).2.2
    | _ => simp [CtxCall.naming] at hc

/-- Whatever the members of a family do, a tracker none of them points to keeps its value. -/
theorem Family.run_frame (steps : List (Nat × CtxCall)) :
    ∀ (s : Family) (t : Nat), t < s.world.trackers.length →
      (∀ c ∈ s.members, c.tracker ≠ t) →
      (s.run steps).world.trackers.getD t 0 = s.world.trackers.getD t 0 := by
  induction steps with
  | nil => intro s t _ _; rfl
  | cons x rest ih =>
    intro s t ht hmem
    obtain ⟨i, c⟩ := x
    simp only [Family.run]
    cases hi : s.members[i]? with
    | none =>
      have : s.step i c = s := by simp [Family.step, hi]
      rw [this]
      exact ih s t ht hmem
    | some ctx =>
      have hctx : ctx ∈ s.members := List.getElem?_mem hi
      obtain ⟨h1, h2, h3⟩ := context.call_frame s.world ctx c t ht (hmem ctx hctx)
      have hstep : (s.step i c).world = (ctx.call s.world c).1 := by simp [Family.step, hi]
      rw [ih (s.step i c) t (by rw [hstep]; exact h2) ?_, hstep, h1]
      intro d hd
      simp only [Family.step, hi] at hd
      cases hr : (ctx.call s.world c).2 with
      | none =>
        rw [hr] at hd
        exact hmem d hd
      | some d' =>
        rw [hr] at hd
        rcases List.mem_append.mp hd with hd | hd
        · exact hmem d hd
        · simp only [List.mem_singleton] at hd
          subst hd
          exact h3 d hr

/-- C4: the two children `A = p.ForkAt(x)` and `B = p.ForkAt(y)` of a context `p` own counters
of their own, different from each other and from the one of `p`, both at zero; the first
`ForkAt` made from `A` is named `1`; and whatever calls are made on `A` and on the contexts
derived from `A`, the counter of `B` and the counter of `p` keep their values. -/
theorem C4_fresh_tracker (w wA wB : World) (p A B : context) (x y z : String)
    (hp : p.tracker < w.trackers.length)
    (hA : p.ForkAt w x = (wA, A)) (hB : p.ForkAt wA y = (wB, B)) :
    (A.tracker ≠ p.tracker ∧ B.tracker ≠ p.tracker ∧ A.tracker ≠ B.tracker) ∧
      (wA.trackers.getD A.tracker 0 = 0 ∧ wB.trackers.getD B.tracker 0 = 0 ∧
        wB.trackers.getD A.tracker 0 = 0) ∧
      (A.ForkAt wB z).2.logger = A.logger.Fork "1" z ∧
      ∀ steps : List (Nat × CtxCall),
        (Family.run { world := wB, members := [A] } steps).world.trackers.getD B.tracker 0 = 0 ∧
        (Family.run { world := wB, members := [A] } steps).world.trackers.getD p.tracker 0 =
          wB.trackers.getD p.tracker 0 := by
  obtain ⟨-, htrA, htkA, -⟩ := context.ForkAt_spec w p x
  obtain ⟨-, htrB, htkB, -⟩ := context.ForkAt_spec wA p y
  rw [hA] at htrA htkA
  rw [hB] at htrB htkB
  simp only at htrA htkA htrB htkB
  have hlenA : wA.trackers.length = w.trackers.length + 1 := by rw [htrA]; simp
  have hlenB : wB.trackers.length = w.trackers.length + 2 := by rw [htrB]; simp; omega
  have hAp : A.tracker ≠ p.tracker := by omega
  have hBp : B.tracker ≠ p.tracker := by omega
  have hAB : A.tracker ≠ B.tracker := by omega
  have hA0 : wA.trackers.getD A.tracker 0 = 0 := by
    rw [htrA, getD_set_append_ne _ _ _ _ (Ne.symm hAp), htkA]
    exact List.getD_eq_default _ _ (le_refl _)
  have hB0 : wB.trackers.getD B.tracker 0 = 0 := by
    rw [htrB, getD_set_append_ne _ _ _ _ (Ne.symm hBp), htkB]
    exact List.getD_eq_default _ _ (le_refl _)
  have hA0' : wB.trackers.getD A.tracker 0 = 0 := by
    rw [htrB, getD_set_append_ne _ _ _ _ (Ne.symm hAp)]
    exact hA0
  refine ⟨⟨hAp, hBp, hAB⟩, ⟨hA0, hB0, hA0'⟩, ?_, ?_⟩
  · rw [(context.ForkAt_spec wB A z).1, hA0']
    rfl
  · intro steps
    constructor
    · rw [Family.run_frame steps { world := wB, members := [A] } B.tracker (by simp; omega)
        (by intro c hc; simp at hc; subst hc; exact hAB)]
      exact hB0
    · exact Family.run_frame steps { world := wB, members := [A] } p.tracker (by simp; omega)
        (by intro c hc; simp at hc; subst hc; exact hAp)

/-- The naming scenario: with the root tracker at 0, `root.ForkAt("x")` is named `1`,
`root.ForkAt("y")` is named `2`, and `child.ForkAt("z")` gets the component `1` again. -/
theorem C4_fresh_tracker_witness :
    (rootContext.ForkAt rootWorld "x").2.logger.name = ["1"] ∧
      (rootContext.ForkAt (rootContext.ForkAt rootWorld "x").1 "y").2.logger.name = ["2"] ∧
      ((rootContext.ForkAt rootWorld "x").2.ForkAt
          (rootContext.ForkAt (rootContext.ForkAt rootWorld "x").1 "y").1 "z").2.logger =
        (rootContext.ForkAt rootWorld "x").2.logger.Fork "1" "z" :=
  ⟨rfl, rfl,
   (C4_fresh_tracker rootWorld (rootContext.ForkAt rootWorld "x").1
      (rootContext.ForkAt (rootContext.ForkAt rootWorld "x").1 "y").1 rootContext
      (rootContext.ForkAt rootWorld "x").2
      (rootContext.ForkAt (rootContext.ForkAt rootWorld "x").1 "y").2 "x" "y" "z"
      (by decide) rfl rfl).2.2.1⟩

/-! ## Forks that do not name (C5, C6) -/

/-- C5: calls of `At`, `Reborn`, `RebornWith`, `WithCancel`, `WithDeadline`, `WithTimeout` and
`WithValue`, any number of them on the same context, leave every tracker as it was, and each
child they return forks the logger with an empty name component (so that its name is the
name of the receiver) and with the location the call passes on (empty except for `At`). -/
theorem C5_at_keeps_sequence (w : World) (c : context) (calls : List CtxCall)
    (hnn : ∀ x ∈ calls, x.naming = false) :
    (c.callAll w calls).1.trackers = w.trackers ∧
      (∀ (i : Nat) (x : CtxCall) (d : context), calls[i]? = some x →
        (c.callAll w calls).2[i]? = some (some d) →
          d.logger = c.logger.Fork "" x.location ∧ d.Name = c.Name) ∧
      ∀ x ∈ calls, (∀ l, x = .At l → x.location = l) ∧ ((∀ l, x ≠ .At l) → x.location = "") := by
  have hloc : ∀ x ∈ calls,
      (∀ l, x = .At l → x.location = l) ∧ ((∀ l, x ≠ .At l) → x.location = "") := by
    intro x hx
    have hxn := hnn x hx
    cases x <;> simp [CtxCall.location, CtxCall.naming] at hxn ⊢
  rw [← and_assoc]
  refine ⟨?_, hloc⟩
  clear hloc
  induction calls generalizing w with
  | nil =>
    refine ⟨rfl, ?_⟩
    intro i x d hi
    simp at hi
  | cons a rest ih =>
    obtain ⟨htr, hd⟩ := context.call_of_not_naming w c a (hnn a (List.mem_cons_self _ _))
    obtain ⟨ih1, ih2⟩ := ih (c.call w a).1 (fun x hx => hnn x (List.mem_cons_of_mem _ hx))
    refine ⟨by simp only [context.callAll]; rw [ih1, htr], ?_⟩
    intro i x d hi hr
    cases i with
    | zero =>
      simp only [List.getElem?_cons_zero, Option.some.injEq] at hi
      subst hi
      simp only [context.callAll, List.getElem?_cons_zero, Option.some.injEq] at hr
      have hl := (hd d hr).2
      refine ⟨hl, ?_⟩
      rw [context.Name, context.Name, hl]
      simp [Logger.Name, Logger.Fork]
    | succ i =>
      simp only [List.getElem?_cons_succ] at hi
      simp only [context.callAll, List.getElem?_cons_succ] at hr
      exact ih2 i x d hi hr

/-- Ten `At` calls on a root whose tracker stands at 1: the tracker still stands at 1. -/
theorem C5_at_keeps_sequence_witness :
    (rootContext.ForkAt rootWorld "").1.trackers.getD rootContext.tracker 0 = 1 ∧
      (rootContext.callAll (rootContext.ForkAt rootWorld "").1
          (List.replicate 10 (.At "a"))).1.trackers =
        (rootContext.ForkAt rootWorld "").1.trackers :=
  ⟨rfl,
   (C5_at_keeps_sequence (rootContext.ForkAt rootWorld "").1 rootContext
      (List.replicate 10 (.At "a")) (by decide)).1⟩

theorem context.chain_of_not_naming (calls : List CtxCall) :
    ∀ (w w' : World) (c d : context), (∀ x ∈ calls, x.naming = false) →
      c.chain w calls = (w', some d) → d.tracker = c.tracker ∧ w'.trackers = w.trackers := by
  induction calls with
  | nil =>
    intro w w' c d _ h
    simp only [context.chain, Prod.mk.injEq, Option.some.injEq] at h
    obtain ⟨rfl, rfl⟩ := h
    exact ⟨rfl, rfl⟩
  | cons a rest ih =>
    intro w w' c d hnn h
    obtain ⟨htr, hd⟩ := context.call_of_not_naming w c a (hnn a (List.mem_cons_self _ _))
    simp only [context.chain] at h
    cases hr : (c.call w a).2 with
    | none => simp [hr] at h
    | some d1 =>
      simp only [hr] at h
      obtain ⟨h1, h2⟩ := ih _ _ _ _ (fun x hx => hnn x (List.mem_cons_of_mem _ hx)) h
      exact ⟨by rw [h1, (hd d1 hr).1], by rw [h2, htr]⟩

/-- The claim C6 fails when the counter wraps around: of `2 ^ 64 + 1` naming forks on a fresh
context the first and the last get the same name component `1`. -/
theorem C6_counterexample :
    ∃ d1 d2,
      (forkAtAll rootWorld (List.replicate (2 ^ 64 + 1) (rootContext, ""))).2[0]? = some d1 ∧
      (forkAtAll rootWorld (List.replicate (2 ^ 64 + 1) (rootContext, ""))).2[2 ^ 64]? =
        some d2 ∧
      d1.logger = rootContext.logger.Fork "1" "" ∧
      d2.logger = rootContext.logger.Fork "1" "" := by
  have hall : ∀ x ∈ List.replicate (2 ^ 64 + 1) (rootContext, ""),
      x.1.tracker = rootContext.tracker := by
    intro x hx
    rw [List.eq_of_mem_replicate hx]
  have hget : ∀ i, i < 2 ^ 64 + 1 →
      (List.replicate (2 ^ 64 + 1) (rootContext, ""))[i]? = some (rootContext, "") := by
    intro i hi
    rw [List.getElem?_replicate, if_pos hi]
  have h0 : rootWorld.trackers.getD rootContext.tracker 0 = 0 := by decide
  obtain ⟨d1, h1, l1⟩ := forkAtAll_names _ rootWorld rootContext.tracker (by decide) hall 0
    rootContext "" (hget 0 (by norm_num))
  obtain ⟨d2, h2, l2⟩ := forkAtAll_names _ rootWorld rootContext.tracker (by decide) hall
    (2 ^ 64) rootContext "" (hget (2 ^ 64) (by norm_num))
  rw [h0] at l1 l2
  have e1 : (0 + (0 + 1)) % 2 ^ 64 = 1 := by norm_num
  have e2 : (0 + (2 ^ 64 + 1)) % 2 ^ 64 = 1 := by norm_num
  rw [e1] at l1
  rw [e2] at l2
  exact ⟨d1, d2, h1, h2, l1, l2⟩

/-- C6, amended: a context `d` reached from `c` by a chain of calls that do not name (`At`, `Reborn`,
`RebornWith`, `WithCancel`, `WithDeadline`, `WithTimeout`, `WithValue`) shares the tracker of
`c`, the chain having consumed no number; a `ForkAt` on `d` advances the counter of `c`, so
that it and a following `ForkAt` on `c` get consecutive, different numerals; in any sequence of
naming forks on contexts with this tracker the names are the numerals of the consecutive
counter values modulo `2 ^ 64`; and in any such sequence of fewer than `2 ^ 64` forks they are
pairwise distinct. -/
theorem C6_shared_tracker (w w' : World) (c d : context) (chainCalls : List CtxCall)
    (hc : c.tracker < w.trackers.length)
    (hnn : ∀ x ∈ chainCalls, x.naming = false)
    (hch : c.chain w chainCalls = (w', some d)) :
    d.tracker = c.tracker ∧ w'.trackers = w.trackers ∧
      (∀ l1 l2 : String,
        (d.ForkAt w' l1).1.trackers.getD c.tracker 0 =
            (w.trackers.getD c.tracker 0 + 1) % 2 ^ 64 ∧
          (d.ForkAt w' l1).2.logger =
            d.logger.Fork (FormatUint ((w.trackers.getD c.tracker 0 + 1) % 2 ^ 64)) l1 ∧
          (c.ForkAt (d.ForkAt w' l1).1 l2).2.logger =
            c.logger.Fork (FormatUint ((w.trackers.getD c.tracker 0 + (1 + 1)) % 2 ^ 64)) l2 ∧
          FormatUint ((w.trackers.getD c.tracker 0 + 1) % 2 ^ 64) ≠
            FormatUint ((w.trackers.getD c.tracker 0 + (1 + 1)) % 2 ^ 64)) ∧
      (∀ calls : List (context × String), (∀ x ∈ calls, x.1.tracker = d.tracker) →
        (∀ (i : Nat) (r : context) (location : String), calls[i]? = some (r, location) →
          ∃ child, (forkAtAll w' calls).2[i]? = some child ∧
            child.logger = r.logger.Fork
              (FormatUint ((w.trackers.getD c.tracker 0 + (i + 1)) % 2 ^ 64)) location) ∧
        (calls.length < 2 ^ 64 → ∀ i j, i < j → j < calls.length →
          FormatUint ((w.trackers.getD c.tracker 0 + (i + 1)) % 2 ^ 64) ≠
            FormatUint ((w.trackers.getD c.tracker 0 + (j + 1)) % 2 ^ 64))) := by
  obtain ⟨htk, htr⟩ := context.chain_of_not_naming chainCalls w w' c d hnn hch
  have hc' : c.tracker < w'.trackers.length := by rw [htr]; exact hc
  refine ⟨htk, htr, ?_, ?_⟩
  · intro l1 l2
    obtain ⟨hlog, htrd, -, -⟩ := context.ForkAt_spec w' d l1
    obtain ⟨hlog2, -, -, -⟩ := context.ForkAt_spec (d.ForkAt w' l1).1 c l2
    have hcell : (d.ForkAt w' l1).1.trackers.getD c.tracker 0 =
        (w.trackers.getD c.tracker 0 + 1) % 2 ^ 64 := by
      rw [htrd, htk, getD_set_append_self _ _ _ hc', htr]
    refine ⟨hcell, by rw [hlog, htk, htr], ?_, ?_⟩
    · rw [hlog2, hcell]
      congr 2
      omega
    · intro heq
      have := FormatUint_injective heq
      omega
  · intro calls hall
    constructor
    · intro i r location hi
      have := forkAtAll_names calls w' d.tracker (by rw [htk]; exact hc') hall i r location hi
      rw [htk, htr] at this
      exact this
    · intro hn i j hij hj heq
      have := FormatUint_injective heq
      omega

/-- The example of C6: on a fresh context `c`, `c.At("a").ForkAt("")` gets `1` and a
following `c.ForkAt("")` gets `2`. -/
theorem C6_shared_tracker_witness :
    ((rootContext.At rootWorld "a").2.ForkAt (rootContext.At rootWorld "a").1 "").2.logger.name
        = ["1"] ∧
      (rootContext.ForkAt
          ((rootContext.At rootWorld "a").2.ForkAt (rootContext.At rootWorld "a").1 "").1
          "").2.logger.name = ["2"] ∧
      (rootContext.At rootWorld "a").2.tracker = rootContext.tracker :=
  ⟨rfl, rfl,
   (C6_shared_tracker rootWorld (rootContext.At rootWorld "a").1 rootContext
      (rootContext.At rootWorld "a").2 [.At "a"] (by decide) (by decide) rfl).1⟩

/-! ## Cancellation (C7, C8) -/

theorem GCtx.Err_background (w : World) : GCtx.background.Err w = none := by
  simp [GCtx.Err, GCtx.ids]

/-- C7: `Reborn()` and `RebornWith(nil)` return a context on the background signal source:
in every state of the world, whatever was cancelled in it, its `Err()` is nil and its `Done`
channel is open, and it has no deadline; `RebornWith(g)` for a non-nil `g` reports the
`Deadline()`, `Done()`, `Err()` and `Value(k)` of `g`. -/
theorem C7_reborn_isolates (w : World) (c : context) :
    (∀ w1 : World,
        (c.Reborn w).2.Err w1 = none ∧ (c.Reborn w).2.Done w1 = false ∧
        (c.RebornWith w none).2.Err w1 = none ∧ (c.RebornWith w none).2.Done w1 = false) ∧
      (c.Reborn w).2.Deadline = none ∧ (c.RebornWith w none).2.Deadline = none ∧
      ∀ g : GCtx,
        (c.RebornWith w (some g)).2.Deadline = g.Deadline ∧
        (∀ w1 : World, (c.RebornWith w (some g)).2.Done w1 = g.Done w1 ∧
          (c.RebornWith w (some g)).2.Err w1 = g.Err w1) ∧
        ∀ k, (c.RebornWith w (some g)).2.Value k = g.Value k := by
  refine ⟨?_, rfl, rfl, ?_⟩
  · intro w1
    have h1 : (c.Reborn w).2.Err w1 = none := GCtx.Err_background w1
    have h2 : (c.RebornWith w none).2.Err w1 = none := GCtx.Err_background w1
    refine ⟨h1, ?_, h2, ?_⟩
    · simp only [context.Done, GCtx.Done]
      rw [show (c.Reborn w).2.gctx.Err w1 = none from h1]
      rfl
    · simp only [context.Done, GCtx.Done]
      rw [show (c.RebornWith w none).2.gctx.Err w1 = none from h2]
      rfl
  · intro g
    exact ⟨rfl, fun w1 => ⟨rfl, rfl⟩, fun k => rfl⟩

theorem GCtx.Err_isSome_of_ids (w : World) (g1 g2 : GCtx)
    (hsub : ∀ id ∈ g1.ids, id ∈ g2.ids) (h : g1.Err w ≠ none) : g2.Err w ≠ none := by
  unfold GCtx.Err at *
  intro hnone
  apply h
  rw [List.findSome?_eq_none_iff] at hnone ⊢
  intro ev hev
  have := hnone ev hev
  by_cases h1 : ev.1 ∈ g1.ids
  · simp [hsub _ h1] at this
  · simp [h1]

/-- The error of a done context never changes, whatever is cancelled afterwards. -/
theorem GCtx.Err_sticky (w1 w2 : World) (g : GCtx) (e : GoErr)
    (hext : ∃ more, w2.ended = w1.ended ++ more) (h : g.Err w1 = some e) :
    g.Err w2 = some e := by
  obtain ⟨more, hm⟩ := hext
  unfold GCtx.Err at *
  rw [hm, List.findSome?_append, h]
  rfl

theorem gcontext.WithDeadline_ids (w : World) (parent : GCtx) (d : Int) :
    ∀ id ∈ parent.ids, id ∈ (gcontext.WithDeadline w parent d).2.1.ids := by
  intro id hid
  unfold gcontext.WithDeadline gcontext.WithCancel
  split_ifs <;> simp [GCtx.ids, hid]

/-- A call that does not replace the signal source returns a context that hangs on every
cancellable context the receiver hangs on. -/
theorem context.call_ids (w : World) (ctx : context) (c : CtxCall) (hc : c.reborn = false) :
    ∀ d, (ctx.call w c).2 = some d → ∀ id ∈ ctx.gctx.ids, id ∈ d.gctx.ids := by
  intro d hd id hid
  cases c with
  | Reborn => simp [CtxCall.reborn] at hc
  | RebornWith g => simp [CtxCall.reborn] at hc
  | Fork =>
    simp only [context.call, Option.some.injEq] at hd
    subst hd
    exact hid
  | At location =>
    simp only [context.call, Option.some.injEq] at hd
    subst hd
    exact hid
  | ForkAt location =>
    simp only [context.call, Option.some.injEq] at hd
    subst hd
    exact hid
  | WithCancel =>
    simp only [context.call, Option.some.injEq] at hd
    subst hd
    exact List.mem_cons_of_mem _ hid
  | WithDeadline t =>
    simp only [context.call, Option.some.injEq] at hd
    subst hd
    exact gcontext.WithDeadline_ids _ _ _ id hid
  | WithTimeout t =>
    simp only [context.call, Option.some.injEq] at hd
    subst hd
    exact gcontext.WithDeadline_ids _ _ _ id hid
  | WithValue key value =>
    simp only [context.call, context.WithValue] at hd
    cases hg : gcontext.WithValue (context.fork w ctx "" "").2.gctx key value with
    | error p => simp [hg] at hd
    | ok g =>
      simp only [hg, Option.some.injEq] at hd
      subst hd
      unfold gcontext.WithValue at hg
      split_ifs at hg
      injection hg with hg
      subst hg
      exact hid

theorem context.chain_ids (calls : List CtxCall) :
    ∀ (w w' : World) (c d : context), (∀ x ∈ calls, x.reborn = false) →
      c.chain w calls = (w', some d) → ∀ id ∈ c.gctx.ids, id ∈ d.gctx.ids := by
  induction calls with
  | nil =>
    intro w w' c d _ h id hid
    simp only [context.chain, Prod.mk.injEq, Option.some.injEq] at h
    obtain ⟨-, rfl⟩ := h
    exact hid
  | cons a rest ih =>
    intro w w' c d hnr h id hid
    simp only [context.chain] at h
    cases hr : (c.call w a).2 with
    | none => simp [hr] at h
    | some d1 =>
      simp only [hr] at h
      exact ih _ _ _ _ (fun x hx => hnr x (List.mem_cons_of_mem _ hx)) h id
        (context.call_ids w c a (hnr a (List.mem_cons_self _ _)) d1 hr id hid)

/-- C8, as stated, fails for a context that is done already with another error: the context
`expiredContext`, derived with a deadline in the past, has `Err() = DeadlineExceeded`; the
context its `WithCancel()` returns is born with that error and keeps it when the `CancelFunc`
is invoked, so its `Err()` is not `Canceled`. -/
theorem C8_counterexample :
    expiredContext.2.1.Err expiredContext.1 = some .DeadlineExceeded ∧
      (expiredContext.2.1.WithCancel expiredContext.1).2.1.Err
          (CancelFunc.call (expiredContext.2.1.WithCancel expiredContext.1).1
            (expiredContext.2.1.WithCancel expiredContext.1).2.2) = some .DeadlineExceeded ∧
      (expiredContext.2.1.WithCancel expiredContext.1).2.1.Err
          (CancelFunc.call (expiredContext.2.1.WithCancel expiredContext.1).1
            (expiredContext.2.1.WithCancel expiredContext.1).2.2) ≠ some .Canceled := by
  refine ⟨by decide, by decide, by decide⟩

/-- C8, amended: a context `d` derived from `c` through any chain of `Fork`, `At`, `ForkAt`,
`WithCancel`, `WithDeadline`, `WithTimeout` and `WithValue` is done in every state of the world
in which `c` is done, and once done it keeps its error whatever is cancelled afterwards.
Invoking the `CancelFunc` returned by `c.WithCancel()` leaves the returned context done: with
`Err() = Canceled` if it was live until then, and with the error it had already otherwise;
`c.Err()` keeps the value it had before. -/
theorem C8_cancellation_propagates (w w' : World) (c d : context) (calls : List CtxCall)
    (hnr : ∀ x ∈ calls, x.reborn = false) (hch : c.chain w calls = (w', some d))
    (hfresh : ∀ id ∈ c.gctx.ids, id < w.gnext) :
    (∀ w1 : World, c.Err w1 ≠ none → d.Err w1 ≠ none) ∧
      (∀ (w1 w2 : World) (e : GoErr), (∃ more, w2.ended = w1.ended ++ more) →
        d.Err w1 = some e → d.Err w2 = some e) ∧
      (∀ w1 : World,
        (c.WithCancel w).2.1.Err (CancelFunc.call w1 (c.WithCancel w).2.2) ≠ none ∧
        ((c.WithCancel w).2.1.Err w1 = none →
          (c.WithCancel w).2.1.Err (CancelFunc.call w1 (c.WithCancel w).2.2)
            = some .Canceled) ∧
        (∀ e, (c.WithCancel w).2.1.Err w1 = some e →
          (c.WithCancel w).2.1.Err (CancelFunc.call w1 (c.WithCancel w).2.2) = some e) ∧
        c.Err (CancelFunc.call w1 (c.WithCancel w).2.2) = c.Err w1) := by
  refine ⟨?_, ?_, ?_⟩
  · intro w1 h
    exact GCtx.Err_isSome_of_ids w1 c.gctx d.gctx (context.chain_ids calls w w' c d hnr hch) h
  · intro w1 w2 e hext h
    exact GCtx.Err_sticky w1 w2 d.gctx e hext h
  · intro w1
    have hg : (c.WithCancel w).2.1.gctx = .cancelCtx c.gctx w.gnext := rfl
    have hf : (c.WithCancel w).2.2 = w.gnext := rfl
    have hnot : w.gnext ∉ c.gctx.ids := fun h => Nat.lt_irrefl _ (hfresh _ h)
    have hlast : ([(w.gnext, GoErr.Canceled)] : List (Nat × GoErr)).findSome?
        (fun ev => if ev.1 ∈ (GCtx.cancelCtx c.gctx w.gnext).ids then some ev.2 else none)
        = some .Canceled := by
      simp [GCtx.ids]
    have hlastc : ([(w.gnext, GoErr.Canceled)] : List (Nat × GoErr)).findSome?
        (fun ev => if ev.1 ∈ c.gctx.ids then some ev.2 else none) = none := by
      simp [hnot]
    simp only [context.Err, hg, hf, GCtx.Err, CancelFunc.call, List.findSome?_append, hlast,
      hlastc]
    refine ⟨?_, ?_, ?_, ?_⟩
    · cases List.findSome? (fun ev => if ev.1 ∈ (GCtx.cancelCtx c.gctx w.gnext).ids
        then some ev.2 else none) w1.ended <;> simp
    · intro h
      rw [h]
      rfl
    · intro e h
      rw [h]
      rfl
    · cases List.findSome? (fun ev => if ev.1 ∈ c.gctx.ids then some ev.2 else none)
        w1.ended <;> rfl

/-- C8 on a fresh root: the context returned by `root.WithCancel()` is live, invoking the
`CancelFunc` gives it `Err() = Canceled`, and the root stays live. -/
theorem C8_cancellation_propagates_witness :
    (rootContext.WithCancel rootWorld).2.1.Err
        (CancelFunc.call (rootContext.WithCancel rootWorld).1
          (rootContext.WithCancel rootWorld).2.2) = some .Canceled ∧
      rootContext.Err (CancelFunc.call (rootContext.WithCancel rootWorld).1
          (rootContext.WithCancel rootWorld).2.2) = none :=
  ⟨((C8_cancellation_propagates rootWorld
        (rootContext.chain rootWorld [.WithCancel, .At "a"]).1 rootContext
        ((rootContext.WithCancel rootWorld).2.1.At (rootContext.WithCancel rootWorld).1 "a").2
        [.WithCancel, .At "a"] (by decide) rfl (by decide)).2.2
        (rootContext.WithCancel rootWorld).1).2.1 rfl,
   ((C8_cancellation_propagates rootWorld
        (rootContext.chain rootWorld [.WithCancel, .At "a"]).1 rootContext
        ((rootContext.WithCancel rootWorld).2.1.At (rootContext.WithCancel rootWorld).1 "a").2
        [.WithCancel, .At "a"] (by decide) rfl (by decide)).2.2
        (rootContext.WithCancel rootWorld).1).2.2.2⟩

/-! ## Typed getters on a value of another type (C11) -/

/-- C11, as stated, fails: in the scenario the root holds the string `us` under `region`, and
`GetInt("region")` at the grandchild does not return `0`, it panics in the type assertion;
for the absent key `zone` at the sibling it returns `0`. -/
theorem C11_counterexample :
    env.Get scenarioHeap 2 (.string "region") = .ok (.string "us", true) ∧
      env.GetInt scenarioHeap 2 (.string "region") = .error .typeAssertion ∧
      env.GetInt scenarioHeap 2 (.string "region") ≠ .ok 0 ∧
      env.GetInt scenarioHeap 3 (.string "zone") = .ok 0 := by
  refine ⟨rfl, rfl, ?_, rfl⟩
  intro h
  cases h

theorem env.getTyped_mismatch {α : Type} (narrow : GoVal → Option α) (zero : α)
    (h : Heap) (e : Nat) (key v : GoVal) (hg : env.Get h e key = .ok (v, true))
    (hx : narrow v = none) :
    env.getTyped narrow zero h e key = .error .typeAssertion := by
  simp [env.getTyped, hg, hx]

/-- C11, amended: when the key is present (`Get` finds a value) and the value is not of the
requested type, each typed getter fails fatally, with the panic of a failed type assertion;
it does not return the zero value, so a present key of another type is told apart from an
absent one. -/
theorem C11_typed_getters_mismatch (h : Heap) (e : Nat) (key v : GoVal)
    (hg : env.Get h e key = .ok (v, true)) :
    ((∀ n, v ≠ .int n) → env.GetInt h e key = .error .typeAssertion) ∧
      ((∀ n, v ≠ .int64 n) → env.GetInt64 h e key = .error .typeAssertion) ∧
      ((∀ n, v ≠ .uint n) → env.GetUint h e key = .error .typeAssertion) ∧
      ((∀ n, v ≠ .uint64 n) → env.GetUint64 h e key = .error .typeAssertion) ∧
      ((∀ n, v ≠ .duration n) → env.GetDuration h e key = .error .typeAssertion) ∧
      ((∀ bits, v ≠ .float64 bits) → env.GetFloat h e key = .error .typeAssertion) ∧
      ((∀ b, v ≠ .bool b) → env.GetBool h e key = .error .typeAssertion) ∧
      ((∀ s, v ≠ .string s) → env.GetString h e key = .error .typeAssertion) ∧
      ((∀ bytes, v ≠ .ip bytes) → env.GetIP h e key = .error .typeAssertion) ∧
      ((∀ ptr, v ≠ .addr ptr) → env.GetAddr h e key = .error .typeAssertion) ∧
      ((∀ w x l, v ≠ .time w x l) → env.GetTime h e key = .error .typeAssertion) := by
  refine ⟨?_, ?_, ?_, ?_, ?_, ?_, ?_, ?_, ?_, ?_, ?_⟩
  all_goals
    intro hne
    apply env.getTyped_mismatch _ _ h e key v hg
    cases v <;> first | rfl | (exfalso; exact hne _ rfl) | (exfalso; exact hne _ _ _ rfl)

/-- C11 in the scenario: `GetBool` and `GetInt` on the string under `region` panic. -/
theorem C11_typed_getters_mismatch_witness :
    env.GetBool scenarioHeap 2 (.string "region") = .error .typeAssertion ∧
      env.GetInt scenarioHeap 2 (.string "region") = .error .typeAssertion :=
  ⟨(C11_typed_getters_mismatch scenarioHeap 2 (.string "region") (.string "us")
      rfl).2.2.2.2.2.2.1 (by intro b hb; cases hb),
   (C11_typed_getters_mismatch scenarioHeap 2 (.string "region") (.string "us")
      rfl).1 (by intro n hn; cases hn)⟩

/-! ## The keys of a node (C12) -/

theorem goEq_hashable {a b : GoVal} (h : goEq a b = true) : hashable a = hashable b := by
  induction a generalizing b with
  | array2 x y ihx ihy =>
    cases b <;> simp [goEq] at h
    simp only [hashable]
    rw [ihx h.1, ihy h.2]
  | float64 a =>
    cases b <;> simp [goEq] at h
    rfl
  | ip bytes => simp [goEq] at h
  | _ =>
    cases b <;> simp [goEq] at h
    simp [hashable]

theorem mapInsert_mem (ks : List GoVal) (k x : GoVal) (hx : x ∈ mapInsert ks k) :
    x ∈ ks ∨ x = k := by
  unfold mapInsert at hx
  split_ifs at hx
  · exact Or.inl hx
  · rcases List.mem_append.mp hx with hx | hx
    · exact Or.inl hx
    · exact Or.inr (by simpa using hx)

theorem mapInsert_subset (ks : List GoVal) (k x : GoVal) (hx : x ∈ ks) : x ∈ mapInsert ks k := by
  unfold mapInsert
  split_ifs
  · exact hx
  · exact List.mem_append_left _ hx

theorem mapInsert_covers (ks : List GoVal) (k : GoVal) :
    k ∈ mapInsert ks k ∨ ∃ y ∈ mapInsert ks k, goEq y k = true := by
  unfold mapInsert
  by_cases h : ks.any (fun x => goEq x k) = true
  · rw [if_pos h]
    obtain ⟨y, hy, hyk⟩ := List.any_eq_true.mp h
    exact Or.inr ⟨y, hy, hyk⟩
  · rw [if_neg h]
    exact Or.inl (by simp)

theorem mapInsert_pairwise (ks : List GoVal) (k : GoVal)
    (hp : ks.Pairwise (fun a b => goEq a b = false)) :
    (mapInsert ks k).Pairwise (fun a b => goEq a b = false) := by
  unfold mapInsert
  by_cases h : ks.any (fun x => goEq x k) = true
  · rw [if_pos h]; exact hp
  · rw [if_neg h]
    rw [List.pairwise_append]
    refine ⟨hp, List.pairwise_singleton _ _, ?_⟩
    intro a ha b hb
    simp only [List.mem_singleton] at hb
    subst hb
    cases hg : goEq a b with
    | false => rfl
    | true => exact absurd (List.any_eq_true.mpr ⟨a, ha, hg⟩) h

/-- What the `Range` loop of `keys` leaves in the index: the keys it started with and the keys
of the store, no two of them equal, every key of the store being in it or equal to one in it. -/
theorem foldl_mapInsert_spec (vals : SyncMap) :
    ∀ ks : List GoVal, ks.Pairwise (fun a b => goEq a b = false) →
      (vals.foldl (fun ks kv => mapInsert ks kv.1) ks).Pairwise (fun a b => goEq a b = false) ∧
      (∀ x ∈ ks, x ∈ vals.foldl (fun ks kv => mapInsert ks kv.1) ks) ∧
      (∀ x ∈ vals.foldl (fun ks kv => mapInsert ks kv.1) ks, x ∈ ks ∨ ∃ kv ∈ vals, kv.1 = x) ∧
      (∀ kv ∈ vals, kv.1 ∈ vals.foldl (fun ks kv => mapInsert ks kv.1) ks ∨
        ∃ y ∈ vals.foldl (fun ks kv => mapInsert ks kv.1) ks, goEq y kv.1 = true) := by
  induction vals with
  | nil =>
    intro ks hp
    exact ⟨hp, fun x hx => hx, fun x hx => Or.inl hx, fun kv hkv => by simp at hkv⟩
  | cons a rest ih =>
    intro ks hp
    obtain ⟨h1, h2, h3, h4⟩ := ih (mapInsert ks a.1) (mapInsert_pairwise ks a.1 hp)
    simp only [List.foldl_cons]
    refine ⟨h1, fun x hx => h2 x (mapInsert_subset ks a.1 x hx), ?_, ?_⟩
    · intro x hx
      rcases h3 x hx with hx | ⟨kv, hkv, hkx⟩
      · rcases mapInsert_mem ks a.1 x hx with hx | hx
        · exact Or.inl hx
        · exact Or.inr ⟨a, List.mem_cons_self _ _, hx.symm⟩
      · exact Or.inr ⟨kv, List.mem_cons_of_mem _ hkv, hkx⟩
    · intro kv hkv
      rcases List.mem_cons.mp hkv with hkv | hkv
      · subst hkv
        rcases mapInsert_covers ks kv.1 with hc | ⟨y, hy, hyk⟩
        · exact Or.inl (h2 _ hc)
        · exact Or.inr ⟨y, h2 _ hy, hyk⟩
      · exact h4 kv hkv

/-- On a well-formed heap `keys` returns normally: the index holds no two equal keys, each of
its elements is a key of a store on the path to the root, and each key of such a store is in
it or equal to one in it. -/
theorem env.keysFuel_spec (h : Heap) (hwf : WellFormed h) :
    ∀ (fuel e : Nat), e < fuel → e < h.length →
      ∃ ks, env.keysFuel fuel h e = .ok ks ∧
        ks.Pairwise (fun a b => goEq a b = false) ∧
        (∀ x ∈ ks, ∃ n ∈ env.pathFuel fuel h e, ∃ node, h[n]? = some node ∧
          ∃ kv ∈ node.vals, kv.1 = x) ∧
        (∀ n ∈ env.pathFuel fuel h e, ∀ node, h[n]? = some node → ∀ kv ∈ node.vals,
          kv.1 ∈ ks ∨ ∃ y ∈ ks, goEq y kv.1 = true) := by
  intro fuel
  induction fuel with
  | zero => intro e he; omega
  | succ fuel ih =>
    intro e he hlen
    have hn : h[e]? = some h[e] := List.getElem?_eq_getElem hlen
    simp only [env.keysFuel, env.pathFuel, hn]
    cases hp : (h[e]).parent with
    | none =>
      obtain ⟨h1, -, h3, h4⟩ := foldl_mapInsert_spec (h[e]).vals [] List.Pairwise.nil
      refine ⟨_, rfl, h1, ?_, ?_⟩
      · intro x hx
        rcases h3 x hx with hx | hx
        · simp at hx
        · exact ⟨e, by simp, h[e], hn, hx⟩
      · intro n hnm node hnode kv hkv
        simp only [List.mem_singleton] at hnm
        subst hnm
        rw [hn] at hnode
        injection hnode with hnode
        subst hnode
        exact h4 kv hkv
    | some p =>
      have hlt : p < e := hwf e _ hn p hp
      obtain ⟨ks0, hk0, hp0, hm0, hc0⟩ := ih p (by omega) (by omega)
      obtain ⟨h1, h2, h3, h4⟩ := foldl_mapInsert_spec (h[e]).vals ks0 hp0
      simp only [hk0]
      refine ⟨_, rfl, h1, ?_, ?_⟩
      · intro x hx
        rcases h3 x hx with hx | hx
        · obtain ⟨n, hnm, node, hnode, hkv⟩ := hm0 x hx
          exact ⟨n, List.mem_cons_of_mem _ hnm, node, hnode, hkv⟩
        · exact ⟨e, by simp, h[e], hn, hx⟩
      · intro n hnm node hnode kv hkv
        rcases List.mem_cons.mp hnm with hnm | hnm
        · subst hnm
          rw [hn] at hnode
          injection hnode with hnode
          subst hnode
          exact h4 kv hkv
        · rcases hc0 n hnm node hnode kv hkv with hc | ⟨y, hy, hyk⟩
          · exact Or.inl (h2 _ hc)
          · exact Or.inr ⟨y, h2 _ hy, hyk⟩

/-- On a well-formed heap `Get` of a hashable key finds a value exactly when a store on the
path to the root holds an equal key. -/
theorem env.GetFuel_found_iff (h : Heap) (hwf : WellFormed h) (k : GoVal)
    (hk : hashable k = true) :
    ∀ (fuel e : Nat), e < fuel → e < h.length →
      ∃ r, env.GetFuel fuel h e k = .ok r ∧
        (r.2 = true ↔ ∃ n ∈ env.pathFuel fuel h e, ∃ node, h[n]? = some node ∧
          ∃ kv ∈ node.vals, goEq kv.1 k = true) := by
  intro fuel
  induction fuel with
  | zero => intro e he; omega
  | succ fuel ih =>
    intro e he hlen
    have hn : h[e]? = some h[e] := List.getElem?_eq_getElem hlen
    simp only [env.GetFuel, env.pathFuel, hn, SyncMap.Load_of_hashable _ hk]
    cases hf : (h[e]).vals.find? (fun kv => goEq kv.1 k) with
    | some kv =>
      refine ⟨_, rfl, ?_⟩
      simp only [Option.map_some', true_iff]
      exact ⟨e, by simp, h[e], hn, kv, List.mem_of_find?_eq_some hf,
        List.find?_some (p := fun (kv : GoVal × GoVal) => goEq kv.1 k) hf⟩
    | none =>
      have hnone : ∀ kv ∈ (h[e]).vals, ¬ goEq kv.1 k = true := by
        intro kv hkv
        exact List.find?_eq_none.mp hf kv hkv
      simp only [Option.map_none']
      cases hp : (h[e]).parent with
      | none =>
        refine ⟨_, rfl, ?_⟩
        simp only [Bool.false_eq_true, false_iff]
        rintro ⟨n, hnm, node, hnode, kv, hkv, hg⟩
        simp only [List.mem_singleton] at hnm
        subst hnm
        rw [hn] at hnode
        injection hnode with hnode
        subst hnode
        exact hnone kv hkv hg
      | some p =>
        have hlt : p < e := hwf e _ hn p hp
        obtain ⟨r, hr, hiff⟩ := ih p (by omega) (by omega)
        refine ⟨r, hr, ?_⟩
        rw [hiff]
        constructor
        · rintro ⟨n, hnm, rest⟩
          exact ⟨n, List.mem_cons_of_mem _ hnm, rest⟩
        · rintro ⟨n, hnm, node, hnode, kv, hkv, hg⟩
          rcases List.mem_cons.mp hnm with hnm | hnm
          · subst hnm
            rw [hn] at hnode
            injection hnode with hnode
            subst hnode
            exact absurd hg (hnone kv hkv)
          · exact ⟨n, hnm, node, hnode, kv, hkv, hg⟩

/-- On a heap the package can reach, every key a store holds can be hashed. -/
theorem runCalls_keys_hashable (calls : List EnvCall) :
    ∀ h, runCalls rootHeap calls = some h →
      ∀ (n : Nat) (node : env), h[n]? = some node → ∀ kv ∈ node.vals, hashable kv.1 = true := by
  induction calls using List.reverseRecOn with
  | nil =>
    intro h hr n node hn kv hkv
    simp only [runCalls, Option.some.injEq] at hr
    subst hr
    simp only [rootHeap, NewEnv, List.nil_append] at hn
    cases n with
    | zero => simp at hn; subst hn; simp at hkv
    | succ n => simp at hn
  | append_singleton calls c ih =>
    intro h hr
    rw [runCalls_append] at hr
    cases hr0 : runCalls rootHeap calls with
    | none => simp [hr0] at hr
    | some h0 =>
      rw [hr0] at hr
      simp only [Option.some_bind] at hr
      by_cases hc : c.receiver < h0.length
      · rw [if_pos hc] at hr
        injection hr with hr
        subst hr
        have ih0 := ih h0 hr0
        cases c with
        | Fork e =>
          intro n node hn kv hkv
          simp only [EnvCall.apply, env.Fork, env.fork] at hn
          by_cases hi : n < h0.length
          · rw [List.getElem?_append_left hi] at hn
            exact ih0 n node hn kv hkv
          · by_cases hi' : n = h0.length
            · subst hi'
              rw [List.getElem?_concat_length] at hn
              injection hn with hn
              subst hn
              simp at hkv
            · rw [List.getElem?_eq_none (by simp; omega)] at hn
              cases hn
        | Set e key value =>
          have hc' : e < h0.length := hc
          have he : h0[e]? = some h0[e] := List.getElem?_eq_getElem hc'
          intro n node hn kv hkv
          simp only [EnvCall.apply] at hn
          cases hs : settable key with
          | false =>
            rw [(env.Set_of_not_settable h0 e key value hs).1] at hn
            exact ih0 n node hn kv hkv
          | true =>
            obtain ⟨vals, hv, hset⟩ := env.Set_of_settable h0 e key value _ he hs
            rw [hset] at hn
            have hkey : hashable key = true := by
              unfold settable at hs
              simp only [Bool.and_eq_true] at hs
              exact hs.2
            by_cases hie : e = n
            · subst hie
              rw [List.getElem?_set_self hc'] at hn
              injection hn with hn
              subst hn
              simp only [SyncMap.Store, hkey, if_true, Except.ok.injEq] at hv
              subst hv
              simp only at hkv
              split_ifs at hkv with hany
              · obtain ⟨kv0, hkv0, hkveq⟩ := List.mem_map.mp hkv
                have hh0 := ih0 e _ he kv0 hkv0
                by_cases hg : goEq kv0.1 key = true
                · simp only [hg, if_true] at hkveq
                  rw [← hkveq]
                  exact hh0
                · simp only [hg] at hkveq
                  rw [← hkveq]
                  exact hh0
              · rcases List.mem_append.mp hkv with hkv | hkv
                · exact ih0 e _ he kv hkv
                · simp only [List.mem_singleton] at hkv
                  subst hkv
                  exact hkey
            · rw [List.getElem?_set_ne hie] at hn
              exact ih0 n node hn kv hkv
      · simp [hc] at hr

/-- C12, as stated, fails for a key that is not equal to itself: after the root has set a
value under a NaN key twice, `Keys()` lists that key twice, and `Has` is false for the key
although `Keys()` contains it. -/
theorem C12_counterexample :
    runCalls rootHeap nanCalls = some nanHeap ∧
      env.Keys nanHeap 0 = .ok [nanKey, nanKey] ∧
      env.Has nanHeap 0 nanKey = .ok false := by
  refine ⟨rfl, rfl, rfl⟩

/-- C12, amended: for every node of a tree built from a fresh root by `Fork` and `Set` calls,
`Keys()` returns normally; no two of its elements are equal (Go `==`); each element is a key
held locally by the node or by one of its ancestors; and for every key `k`, `Has(k)` is true
if and only if `Keys()` holds an element equal to `k`, that is if and only if the node or one
of its ancestors holds a key equal to `k`.  In particular `Has` is true for every element of
`Keys()` that is equal to itself. -/
theorem C12_keys_union (calls : List EnvCall) (h : Heap) (e : Nat)
    (hrun : runCalls rootHeap calls = some h) (he : e < h.length) :
    ∃ ks, env.Keys h e = .ok ks ∧
      ks.Pairwise (fun a b => goEq a b = false) ∧
      (∀ x ∈ ks, ∃ n ∈ env.path h e, ∃ node, h[n]? = some node ∧
        ∃ kv ∈ node.vals, kv.1 = x) ∧
      (∀ k, env.Has h e k = .ok true ↔ ∃ x ∈ ks, goEq x k = true) ∧
      (∀ k, env.Has h e k = .ok true ↔
        ∃ n ∈ env.path h e, ∃ node, h[n]? = some node ∧
          ∃ kv ∈ node.vals, goEq kv.1 k = true) ∧
      (∀ x ∈ ks, goEq x x = true → env.Has h e x = .ok true) := by
  obtain ⟨hwf, -, -⟩ := runCalls_invariant calls h hrun
  have hhash := runCalls_keys_hashable calls h hrun
  obtain ⟨ks, hks, hpw, hmem, hcov⟩ := env.keysFuel_spec h hwf (e + 1) e (by omega) he
  have hstored : ∀ k, env.Has h e k = .ok true ↔
      ∃ n ∈ env.path h e, ∃ node, h[n]? = some node ∧
        ∃ kv ∈ node.vals, goEq kv.1 k = true := by
    intro k
    cases hk : hashable k with
    | true =>
      obtain ⟨r, hr, hiff⟩ := env.GetFuel_found_iff h hwf k hk (e + 1) e (by omega) he
      have hHas : env.Has h e k = .ok r.2 := by
        unfold env.Has env.Get
        rw [hr]
      rw [hHas]
      show _ ↔ ∃ n ∈ env.pathFuel (e + 1) h e, _
      rw [← hiff]
      constructor
      · intro hx
        injection hx
      · intro hx
        rw [hx]
    | false =>
      have hn : h[e]? = some h[e] := List.getElem?_eq_getElem he
      have hHas : env.Has h e k = .error .unhashable := by
        simp [env.Has, env.Get, env.GetFuel, hn, SyncMap.Load, hk]
      rw [hHas]
      constructor
      · intro hx
        cases hx
      · rintro ⟨n, -, node, hnode, kv, hkv, hg⟩
        have := goEq_hashable hg
        rw [hhash n node hnode kv hkv, hk] at this
        cases this
  have hkeys : ∀ k, (∃ x ∈ ks, goEq x k = true) ↔
      ∃ n ∈ env.path h e, ∃ node, h[n]? = some node ∧
        ∃ kv ∈ node.vals, goEq kv.1 k = true := by
    intro k
    constructor
    · rintro ⟨x, hx, hg⟩
      obtain ⟨n, hn, node, hnode, kv, hkv, hkx⟩ := hmem x hx
      exact ⟨n, hn, node, hnode, kv, hkv, by rw [hkx]; exact hg⟩
    · rintro ⟨n, hn, node, hnode, kv, hkv, hg⟩
      rcases hcov n hn node hnode kv hkv with hc | ⟨y, hy, hyk⟩
      · exact ⟨kv.1, hc, hg⟩
      · exact ⟨y, hy, goEq_trans hyk hg⟩
  refine ⟨ks, hks, hpw, hmem, ?_, hstored, ?_⟩
  · intro k
    rw [hstored, hkeys]
  · intro x hx hxx
    rw [hstored, ← hkeys]
    exact ⟨x, hx, hxx⟩

/-- C12 in the scenario: the grandchild lists `region` and `zone`, and `Has` is true for
both. -/
theorem C12_keys_union_witness :
    env.Keys scenarioHeap 2 = .ok [.string "region", .string "zone"] ∧
      env.Has scenarioHeap 2 (.string "region") = .ok true ∧
      env.Has scenarioHeap 2 (.string "zone") = .ok true := by
  obtain ⟨ks, hks, -, -, -, -, hself⟩ :=
    C12_keys_union scenarioCalls scenarioHeap 2 rfl (by decide)
  have hks' : env.Keys scenarioHeap 2 = .ok [.string "region", .string "zone"] := rfl
  rw [hks'] at hks
  injection hks with hks
  subst hks
  exact ⟨hks', hself _ (by simp) rfl, hself _ (by simp) rfl⟩

/-! ## Derivations and the receiver (C13, C14, C15) -/

theorem env.pathFuel_le (h : Heap) (hwf : WellFormed h) :
    ∀ (fuel e : Nat), ∀ n ∈ env.pathFuel fuel h e, n ≤ e := by
  intro fuel
  induction fuel with
  | zero => intro e n hn; simp [env.pathFuel] at hn
  | succ fuel ih =>
    intro e n hn
    simp only [env.pathFuel, List.mem_cons] at hn
    rcases hn with hn | hn
    · omega
    · cases hc : h[e]? with
      | none => simp [hc] at hn
      | some c =>
        simp only [hc] at hn
        cases hp : c.parent with
        | none => simp [hp] at hn
        | some p =>
          simp only [hp] at hn
          have := ih p n hn
          have := hwf e c hc p hp
          omega

theorem env.GetFuel_stable (h : Heap) (hwf : WellFormed h) (k : GoVal) :
    ∀ (fuel1 fuel2 e : Nat), e < fuel1 → e < fuel2 →
      env.GetFuel fuel1 h e k = env.GetFuel fuel2 h e k := by
  intro fuel1
  induction fuel1 with
  | zero => intro fuel2 e h1; omega
  | succ f1 ih =>
    intro fuel2 e h1 h2
    cases fuel2 with
    | zero => omega
    | succ f2 =>
      simp only [env.GetFuel]
      cases hc : h[e]? with
      | none => rfl
      | some c =>
        dsimp only
        cases hl : c.vals.Load k with
        | error p => rfl
        | ok r =>
          cases r with
          | some v => rfl
          | none =>
            dsimp only
            cases hp : c.parent with
            | none => rfl
            | some p =>
              dsimp only
              have hlt : p < e := hwf e c hc p hp
              exact ih f2 p (by omega) (by omega)

/-- Allocating a cell changes no `Get`, no `keys` and no path at the cells that exist. -/
theorem env.append_frame (h : Heap) (hwf : WellFormed h) (x : env) :
    ∀ (fuel e : Nat), e < h.length →
      (∀ k, env.GetFuel fuel (h ++ [x]) e k = env.GetFuel fuel h e k) ∧
      env.keysFuel fuel (h ++ [x]) e = env.keysFuel fuel h e ∧
      env.pathFuel fuel (h ++ [x]) e = env.pathFuel fuel h e := by
  intro fuel
  induction fuel with
  | zero => intro e _; exact ⟨fun _ => rfl, rfl, rfl⟩
  | succ fuel ih =>
    intro e he
    have hn : h[e]? = some h[e] := List.getElem?_eq_getElem he
    have hn' : (h ++ [x])[e]? = some h[e] := by
      rw [List.getElem?_append_left he]; exact hn
    simp only [env.GetFuel, env.keysFuel, env.pathFuel, hn, hn']
    cases hp : (h[e]).parent with
    | none => exact ⟨fun _ => rfl, rfl, rfl⟩
    | some p =>
      have hlt : p < e := hwf e _ hn p hp
      obtain ⟨i1, i2, i3⟩ := ih p (by omega)
      refine ⟨?_, by dsimp only; rw [i2], by dsimp only; rw [i3]⟩
      intro k
      dsimp only
      rw [i1 k]

theorem env.pathFuel_set_of_not_mem (h : Heap) (n : Nat) (node : env) :
    ∀ (fuel m : Nat), n ∉ env.pathFuel fuel h m →
      env.pathFuel fuel (h.set n node) m = env.pathFuel fuel h m := by
  intro fuel
  induction fuel with
  | zero => intro m _; rfl
  | succ fuel ih =>
    intro m hm
    simp only [env.pathFuel, List.mem_cons, not_or] at hm
    obtain ⟨hne, hrest⟩ := hm
    simp only [env.pathFuel, List.getElem?_set_ne hne]
    cases hc : h[m]? with
    | none => rfl
    | some c =>
      simp only [hc] at hrest
      dsimp only
      cases hp : c.parent with
      | none => rfl
      | some p =>
        simp only [hp] at hrest
        dsimp only
        rw [ih p hrest]

/-- Keys set on a cell that is not on the path of `m` change no `Get` and no `Keys` at `m`. -/
theorem context.setAll_frame (sets : List (GoVal × GoVal)) :
    ∀ (w : World) (d : context) (m : Nat), d.env ∉ env.path w.envs m →
      (∀ k, env.Get (d.setAll w sets).envs m k = env.Get w.envs m k) ∧
      env.Keys (d.setAll w sets).envs m = env.Keys w.envs m ∧
      (d.setAll w sets).ended = w.ended := by
  induction sets with
  | nil => intro w d m _; exact ⟨fun _ => rfl, rfl, rfl⟩
  | cons a rest ih =>
    intro w d m hm
    obtain ⟨key, value⟩ := a
    simp only [context.setAll]
    obtain ⟨hg, hk⟩ := env.Set_frame w.envs d.env m key value hm
    have hpath : d.env ∉ env.path (d.Set w key value).1.envs m := by
      simp only [context.Set]
      rcases env.Set_heap w.envs d.env key value with he | ⟨node, he⟩
      · rw [he]; exact hm
      · rw [he]
        unfold env.path
        rw [env.pathFuel_set_of_not_mem _ _ _ _ _ hm]
        exact hm
    obtain ⟨i1, i2, i3⟩ := ih (d.Set w key value).1 d m hpath
    refine ⟨?_, ?_, ?_⟩
    · intro k
      rw [i1 k]
      exact hg k
    · rw [i2]
      exact hk
    · rw [i3]
      rfl

/-- Every derivation allocates exactly one `env` cell, a child of the environment of the
receiver, and the context it returns points to that cell. -/
theorem context.call_envs (w : World) (c : context) (x : CtxCall) :
    (c.call w x).1.envs = w.envs ++ [{ parent := some c.env, vals := [] }] ∧
      ∀ d, (c.call w x).2 = some d → d.env = w.envs.length := by
  cases x with
  | WithDeadline t =>
    refine ⟨(gcontext.WithDeadline_frame _ _ _).2, ?_⟩
    intro d hd
    simp only [context.call, Option.some.injEq] at hd
    subst hd
    rfl
  | WithTimeout t =>
    refine ⟨(gcontext.WithDeadline_frame _ _ _).2, ?_⟩
    intro d hd
    simp only [context.call, Option.some.injEq] at hd
    subst hd
    rfl
  | WithValue key value =>
    refine ⟨rfl, ?_⟩
    intro d hd
    simp only [context.call, context.WithValue] at hd
    cases hg : gcontext.WithValue (context.fork w c "" "").2.gctx key value with
    | error p => simp [hg] at hd
    | ok g =>
      simp only [hg, Option.some.injEq] at hd
      subst hd
      rfl
  | _ =>
    refine ⟨rfl, ?_⟩
    intro d hd
    simp only [context.call, Option.some.injEq] at hd
    subst hd
    rfl

/-- A derivation cancels nothing, except that `WithDeadline` and `WithTimeout` cancel the
context they create when its deadline has passed already. -/
theorem context.call_ended (w : World) (c : context) (x : CtxCall) :
    (c.call w x).1.ended = w.ended ∨
      (c.call w x).1.ended = w.ended ++ [(w.gnext, .DeadlineExceeded)] := by
  have key : ∀ (g : GCtx) (t : Int),
      (gcontext.WithDeadline (context.fork w c "" "").1 g t).1.ended = w.ended ∨
        (gcontext.WithDeadline (context.fork w c "" "").1 g t).1.ended =
          w.ended ++ [(w.gnext, .DeadlineExceeded)] := by
    intro g t
    unfold gcontext.WithDeadline gcontext.WithCancel fireTimer
    split_ifs
    · exact Or.inl rfl
    · exact Or.inr rfl
    · exact Or.inl rfl
  cases x with
  | WithDeadline t => exact key _ t
  | WithTimeout t => exact key _ _
  | _ => exact Or.inl rfl

theorem GCtx.Err_of_ended (w1 w2 : World) (g : GCtx) (id : Nat) (e : GoErr)
    (hid : id ∉ g.ids)
    (h : w2.ended = w1.ended ∨ w2.ended = w1.ended ++ [(id, e)]) :
    g.Err w2 = g.Err w1 := by
  unfold GCtx.Err
  rcases h with h | h
  · rw [h]
  · rw [h, List.findSome?_append]
    have : ([(id, e)] : List (Nat × GoErr)).findSome?
        (fun ev => if ev.1 ∈ g.ids then some ev.2 else none) = none := by
      simp [hid]
    rw [this]
    cases List.findSome? (fun ev => if ev.1 ∈ g.ids then some ev.2 else none) w1.ended <;> rfl

/-- C13: a derivation (`Fork`, `At`, `ForkAt`, `Reborn`, `RebornWith`, `WithCancel`,
`WithDeadline`, `WithTimeout`, `WithValue`) returns a context on an environment cell of its
own and leaves the receiver as it was: its `Err()`, every `Get(k)` and `Env().Keys()` are the
same after the call as before, and they stay the same when keys are afterwards set on the
returned context.  (`Deadline()`, `Value(k)`, `Name()` and `Location()` are read off the
fields of the receiver, which no call assigns to.) -/
theorem C13_receiver_unchanged (w : World) (c : context) (x : CtxCall)
    (hwf : WellFormed w.envs) (hc : c.env < w.envs.length)
    (hfresh : ∀ id ∈ c.gctx.ids, id < w.gnext) :
    c.Err (c.call w x).1 = c.Err w ∧
      (∀ k, c.Get (c.call w x).1 k = c.Get w k) ∧
      env.Keys (c.call w x).1.envs c.Env = env.Keys w.envs c.Env ∧
      ∀ d, (c.call w x).2 = some d →
        d.env ≠ c.env ∧
        ∀ sets : List (GoVal × GoVal),
          c.Err (d.setAll (c.call w x).1 sets) = c.Err w ∧
          (∀ k, c.Get (d.setAll (c.call w x).1 sets) k = c.Get w k) ∧
          env.Keys (d.setAll (c.call w x).1 sets).envs c.Env = env.Keys w.envs c.Env := by
  obtain ⟨henvs, hdenv⟩ := context.call_envs w c x
  have hnot : w.gnext ∉ c.gctx.ids := fun h => Nat.lt_irrefl _ (hfresh _ h)
  have herr : c.Err (c.call w x).1 = c.Err w :=
    GCtx.Err_of_ended w (c.call w x).1 c.gctx w.gnext .DeadlineExceeded hnot
      (context.call_ended w c x)
  obtain ⟨a1, a2, a3⟩ := env.append_frame w.envs hwf { parent := some c.env, vals := [] }
    (c.env + 1) c.env hc
  have hget : ∀ k, c.Get (c.call w x).1 k = c.Get w k := by
    intro k
    simp only [context.Get, env.Get, henvs]
    exact a1 k
  have hkeys : env.Keys (c.call w x).1.envs c.Env = env.Keys w.envs c.Env := by
    simp only [context.Env, env.Keys, env.keys, henvs]
    exact a2
  refine ⟨herr, hget, hkeys, ?_⟩
  intro d hd
  have hde : d.env = w.envs.length := hdenv d hd
  refine ⟨by omega, ?_⟩
  intro sets
  have hpath : d.env ∉ env.path (c.call w x).1.envs c.env := by
    intro hmem
    rw [henvs] at hmem
    unfold env.path at hmem
    rw [a3] at hmem
    have := env.pathFuel_le w.envs hwf _ _ _ hmem
    omega
  obtain ⟨s1, s2, s3⟩ := context.setAll_frame sets (c.call w x).1 d c.env hpath
  refine ⟨?_, ?_, ?_⟩
  · rw [← herr]
    unfold context.Err GCtx.Err
    rw [s3]
  · intro k
    rw [← hget k]
    exact s1 k
  · rw [← hkeys]
    exact s2

theorem wellFormed_rootWorld : WellFormed rootWorld.envs := by
  intro i node hn p hp
  cases i with
  | zero =>
    simp [rootWorld, NewContext, NewEnv, World.empty] at hn
    subst hn
    simp at hp
  | succ i => simp [rootWorld, NewContext, NewEnv, World.empty] at hn

/-- C13 on a fresh root: after `root.WithCancel()` and a `Set` of `zone` on the returned
context the root still finds no `zone` and is still live. -/
theorem C13_receiver_unchanged_witness :
    rootContext.Get ((rootContext.WithCancel rootWorld).2.1.setAll
        (rootContext.WithCancel rootWorld).1 [(.string "zone", .string "a")])
        (.string "zone") = .ok (.nil, false) ∧
      rootContext.Err ((rootContext.WithCancel rootWorld).2.1.setAll
        (rootContext.WithCancel rootWorld).1 [(.string "zone", .string "a")]) = none :=
  ⟨(((C13_receiver_unchanged rootWorld rootContext .WithCancel wellFormed_rootWorld
        (by decide) (by decide)).2.2.2 (rootContext.WithCancel rootWorld).2.1 rfl).2
        [(.string "zone", .string "a")]).2.1 (.string "zone"),
   (((C13_receiver_unchanged rootWorld rootContext .WithCancel wellFormed_rootWorld
        (by decide) (by decide)).2.2.2 (rootContext.WithCancel rootWorld).2.1 rfl).2
        [(.string "zone", .string "a")]).1⟩

theorem env.Set_heap_vals (h : Heap) (n : Nat) (key value : GoVal) :
    (env.Set h n key value).1 = h ∨
      ∃ node vals, h[n]? = some node ∧
        (env.Set h n key value).1 = h.set n { node with vals := vals } := by
  unfold env.Set
  by_cases h1 : key = .nil
  · simp [h1]
  · rw [if_neg h1]
    cases h2 : typeComparable key
    · simp
    · cases hn : h[n]? with
      | none => simp
      | some node =>
        simp only [Bool.not_true, Bool.false_eq_true, if_false]
        cases hs : node.vals.Store key value with
        | error p => exact Or.inl rfl
        | ok vals => exact Or.inr ⟨node, vals, rfl, rfl⟩

/-- A call on a cell of a well-formed heap leaves the heap well-formed, frees no cell and
changes no parent pointer. -/
theorem EnvCall.apply_preserves (h : Heap) (c : EnvCall) (hwf : WellFormed h)
    (hc : c.receiver < h.length) :
    WellFormed (c.apply h) ∧ h.length ≤ (c.apply h).length ∧
      ∀ (i : Nat) (node : env), h[i]? = some node →
        ∃ node', (c.apply h)[i]? = some node' ∧ node'.parent = node.parent := by
  cases c with
  | Fork e =>
    have hc' : e < h.length := hc
    simp only [EnvCall.apply, env.Fork, env.fork]
    refine ⟨?_, by simp, ?_⟩
    · intro i node hn p hp
      by_cases hi : i < h.length
      · rw [List.getElem?_append_left hi] at hn
        exact hwf i node hn p hp
      · by_cases hi' : i = h.length
        · subst hi'
          rw [List.getElem?_concat_length] at hn
          injection hn with hn
          subst hn
          simp only [Option.some.injEq] at hp
          omega
        · rw [List.getElem?_eq_none (by simp; omega)] at hn
          cases hn
    · intro i node hn
      have hi : i < h.length := (List.getElem?_eq_some.mp hn).1
      exact ⟨node, by rw [List.getElem?_append_left hi]; exact hn, rfl⟩
  | Set e key value =>
    simp only [EnvCall.apply]
    rcases env.Set_heap_vals h e key value with he | ⟨node0, vals, hn0, he⟩
    · rw [he]
      exact ⟨hwf, le_refl _, fun i node hn => ⟨node, hn, rfl⟩⟩
    · rw [he]
      have hlt : e < h.length := hc
      refine ⟨?_, by simp, ?_⟩
      · intro i node hn p hp
        by_cases hie : e = i
        · subst hie
          rw [List.getElem?_set_self hlt] at hn
          injection hn with hn
          subst hn
          exact hwf e node0 hn0 p hp
        · rw [List.getElem?_set_ne hie] at hn
          exact hwf i node hn p hp
      · intro i node hn
        by_cases hie : e = i
        · subst hie
          rw [hn0] at hn
          injection hn with hn
          subst hn
          exact ⟨_, List.getElem?_set_self hlt, rfl⟩
        · exact ⟨node, by rw [List.getElem?_set_ne hie]; exact hn, rfl⟩

theorem runCalls_preserves (calls : List EnvCall) :
    ∀ (h h' : Heap), WellFormed h → runCalls h calls = some h' →
      WellFormed h' ∧ h.length ≤ h'.length ∧
        ∀ (i : Nat) (node : env), h[i]? = some node →
          ∃ node', h'[i]? = some node' ∧ node'.parent = node.parent := by
  induction calls with
  | nil =>
    intro h h' hwf hr
    simp only [runCalls, Option.some.injEq] at hr
    subst hr
    exact ⟨hwf, le_refl _, fun i node hn => ⟨node, hn, rfl⟩⟩
  | cons c rest ih =>
    intro h h' hwf hr
    simp only [runCalls] at hr
    by_cases hc : c.receiver < h.length
    · rw [if_pos hc] at hr
      obtain ⟨s1, s2, s3⟩ := EnvCall.apply_preserves h c hwf hc
      obtain ⟨r1, r2, r3⟩ := ih (c.apply h) h' s1 hr
      refine ⟨r1, by omega, ?_⟩
      intro i node hn
      obtain ⟨n1, hn1, hp1⟩ := s3 i node hn
      obtain ⟨n2, hn2, hp2⟩ := r3 i n1 hn1
      exact ⟨n2, hn2, by rw [hp2, hp1]⟩
    · simp [hc] at hr

/-- On a well-formed heap a node whose store does not answer the key returns what `Get` at
its parent returns. -/
theorem env.Get_parent (h : Heap) (hwf : WellFormed h) (e p : Nat) (node : env) (k : GoVal)
    (hn : h[e]? = some node) (hp : node.parent = some p) (hpl : p < h.length)
    (hl : ∀ v, node.vals.Load k ≠ .ok (some v)) :
    env.Get h e k = env.Get h p k := by
  have hlt : p < e := hwf e node hn p hp
  unfold env.Get
  rw [env.GetFuel_stable h hwf k (p + 1) e p (by omega) hlt]
  simp only [env.GetFuel, hn]
  cases hload : node.vals.Load k with
  | error q =>
    dsimp only
    cases e with
    | zero => omega
    | succ e' =>
      have hq : hashable k = false := by
        unfold SyncMap.Load at hload
        cases hh : hashable k with
        | false => rfl
        | true => simp [hh] at hload
      have hpn : h[p]? = some h[p] := List.getElem?_eq_getElem hpl
      simp only [SyncMap.Load, hq] at hload
      simp at hload
      subst hload
      simp [env.GetFuel, hpn, SyncMap.Load, hq]
  | ok r =>
    cases r with
    | some v => exact absurd hload (hl v)
    | none =>
      dsimp only
      rw [hp]

/-- The environment of a derived context: a new, empty cell under the environment of the
receiver, through which every `Get` falls to the receiver. -/
theorem context.call_env_forked (w : World) (c d : context) (x : CtxCall)
    (hwf : WellFormed w.envs) (hc : c.env < w.envs.length)
    (hd : (c.call w x).2 = some d) :
    d.env = w.envs.length ∧
      (c.call w x).1.envs = w.envs ++ [{ parent := some c.env, vals := [] }] ∧
      (∀ key, d.Get (c.call w x).1 key = c.Get (c.call w x).1 key) ∧
      (∀ key, d.Get (c.call w x).1 key = c.Get w key) ∧
      ∀ (later : List EnvCall) (h2 : Heap), runCalls (c.call w x).1.envs later = some h2 →
        ∀ key, (∀ node, h2[d.env]? = some node → ∀ v, node.vals.Load key ≠ .ok (some v)) →
          env.Get h2 d.env key = env.Get h2 c.env key := by
  obtain ⟨henvs, hdenv⟩ := context.call_envs w c x
  have hde : d.env = w.envs.length := hdenv d hd
  have hwf1 : WellFormed (c.call w x).1.envs := by
    rw [henvs]
    exact (EnvCall.apply_preserves w.envs (.Fork c.env) hwf hc).1
  have hcell : (c.call w x).1.envs[d.env]? = some { parent := some c.env, vals := [] } := by
    rw [henvs, hde]
    exact List.getElem?_concat_length _ _
  have hclen : c.env < (c.call w x).1.envs.length := by
    rw [henvs]; simp; omega
  have hsame : ∀ key, d.Get (c.call w x).1 key = c.Get (c.call w x).1 key := by
    intro key
    refine env.Get_parent _ hwf1 d.env c.env _ key hcell rfl hclen ?_
    intro v hv
    unfold SyncMap.Load at hv
    split_ifs at hv
    simp at hv
  refine ⟨hde, henvs, hsame, ?_, ?_⟩
  · intro key
    rw [hsame key]
    simp only [context.Get, env.Get, henvs]
    exact (env.append_frame w.envs hwf _ (c.env + 1) c.env hc).1 key
  · intro later h2 hrun key hown
    obtain ⟨hwf2, hlen2, hpar⟩ := runCalls_preserves later _ h2 hwf1 hrun
    obtain ⟨node', hn', hp'⟩ := hpar d.env _ hcell
    exact env.Get_parent h2 hwf2 d.env c.env node' key hn' hp' (by omega) (hown node' hn')

/-- C14: every derivation that returns a context `d` gives it a new environment cell whose
parent is the environment of the receiver `c` and whose store is empty, so that right after
the call `d.Get(key)` returns what `c.Get(key)` returns, for every key; and after any later
`Fork` and `Set` calls on the cells of the heap, `d.Get(key)` still returns what `c.Get(key)`
returns, unless `d` holds the key itself. -/
theorem C14_env_forked (w : World) (c d : context) (x : CtxCall)
    (hwf : WellFormed w.envs) (hc : c.env < w.envs.length)
    (hd : (c.call w x).2 = some d) :
    d.env = w.envs.length ∧
      (c.call w x).1.envs = w.envs ++ [{ parent := some c.env, vals := [] }] ∧
      (∀ key, d.Get (c.call w x).1 key = c.Get (c.call w x).1 key) ∧
      (∀ key, d.Get (c.call w x).1 key = c.Get w key) ∧
      ∀ (later : List EnvCall) (h2 : Heap), runCalls (c.call w x).1.envs later = some h2 →
        ∀ key, (∀ node, h2[d.env]? = some node → ∀ v, node.vals.Load key ≠ .ok (some v)) →
          env.Get h2 d.env key = env.Get h2 c.env key :=
  context.call_env_forked w c d x hwf hc hd

/-- C14 on a fresh root: the context `root.At("a")` returns sees the `region` the root sets
afterwards. -/
theorem C14_env_forked_witness :
    (rootContext.At rootWorld "a").2.env = 1 ∧
      env.Get (EnvCall.apply (rootContext.At rootWorld "a").1.envs
          (.Set 0 (.string "region") (.string "us"))) 1 (.string "region") =
        .ok (.string "us", true) := by
  have h := C14_env_forked rootWorld rootContext (rootContext.At rootWorld "a").2 (.At "a")
    wellFormed_rootWorld (by decide) rfl
  refine ⟨h.1, ?_⟩
  have h2 := h.2.2.2.2 [.Set 0 (.string "region") (.string "us")]
    (EnvCall.apply (rootContext.At rootWorld "a").1.envs
      (.Set 0 (.string "region") (.string "us"))) rfl (.string "region")
    (by
      intro node hn v hv
      have hn' : node = { parent := some 0, vals := [] } := by
        have : (EnvCall.apply (rootContext.At rootWorld "a").1.envs
          (.Set 0 (.string "region") (.string "us")))[(rootContext.At rootWorld "a").2.env]? =
            some { parent := some 0, vals := [] } := rfl
        rw [this] at hn
        injection hn with hn
        exact hn.symm
      subst hn'
      cases hv)
  rw [show (rootContext.At rootWorld "a").2.env = 1 from rfl] at h2
  rw [h2]
  rfl

theorem goEq_sameType {a b : GoVal} (h : goEq a b = true) : sameType a b = true := by
  cases a <;> cases b <;> simp [goEq] at h <;> rfl

/-- On a key that can be hashed, `==` does not panic and is the equality the maps use. -/
theorem ifaceEq_of_hashable (a : GoVal) (ha : hashable a = true) :
    ∀ b, ifaceEq a b = .ok (goEq a b) := by
  induction a with
  | ip bytes => simp [hashable] at ha
  | array2 x y ihx ihy =>
    simp only [hashable, Bool.and_eq_true] at ha
    intro b
    cases b with
    | array2 c d =>
      simp only [ifaceEq, goEq, ihx ha.1 c, ihy ha.2 d]
      cases goEq x c <;> simp
    | _ => rfl
  | _ => intro b; cases b <;> rfl

/-- C15, as stated, fails for keys the standard lookup does not accept, cannot find again or
cannot compare: `WithValue` with the nil key panics and returns no context; with a NaN key it
returns a context for which `Value` of that key is still nil; and with the key
`[2]any{net.IP(nil), nil}` it returns a context for which `Value` of the other key
`[2]any{net.IP(nil), 5}` panics, the comparison of the two reaching the pair of `net.IP`
first. -/
theorem C15_counterexample :
    (rootContext.WithValue rootWorld .nil (.int 1)).2 = .error .nilKey ∧
      (rootContext.WithValue rootWorld nanKey (.int 1)).2.map (fun d => d.Value nanKey) =
        .ok (.ok .nil) ∧
      (rootContext.WithValue rootWorld (.array2 (.ip none) .nil) (.int 1)).2.map
          (fun d => d.Value (.array2 (.ip none) (.int 5))) = .ok (.error .uncomparable) := by
  refine ⟨rfl, rfl, rfl⟩

/-- C15, amended: `c.WithValue(k, v)` panics exactly when `k` is nil or of a type that is not
comparable; otherwise the context `d` it returns answers `d.Value(k')` by the comparison
`k == k'`: it panics when the comparison panics, is `v` when the comparison is true and is
`c.Value(k')` when it is false. The comparison panics when `k` and `k'` are arrays whose
first elements are both of a non-comparable type. For a key `k` that can be hashed it never
panics: `d.Value(k') = v` for every key `k'` equal (Go `==`) to `k`, in particular
`d.Value(k) = v` when `k` is equal to itself, and `d.Value(k') = c.Value(k')` for every key
`k'` not equal to `k`. `d.Get(k'')` returns what `c.Get(k'')` returned, for every key; and
`c.Set` changes nothing of the world but the heap of environments, so that every
`c.Value(k')` and `c.Err()` are as before. -/
theorem C15_value_and_env_independent (w : World) (c : context) (k v : GoVal)
    (hwf : WellFormed w.envs) (hc : c.env < w.envs.length) :
    ((∃ p, (c.WithValue w k v).2 = .error p) ↔ (k = .nil ∨ typeComparable k = false)) ∧
      (∀ d, (c.WithValue w k v).2 = .ok d →
        (∀ k', d.Value k' =
          match ifaceEq k k' with
          | .error p => .error p
          | .ok true => .ok v
          | .ok false => c.Value k') ∧
        (hashable k = true → goEq k k = true → d.Value k = .ok v) ∧
        (∀ k', hashable k = true → goEq k k' = true → d.Value k' = .ok v) ∧
        (∀ k', hashable k = true → goEq k k' = false → d.Value k' = c.Value k') ∧
        (∀ a b x y, k = .array2 (.ip a) x →
          d.Value (.array2 (.ip b) y) = .error .uncomparable) ∧
        (∀ k'', d.Get (c.WithValue w k v).1 k'' = c.Get w k'')) ∧
      (∀ key value,
        (c.Set w key value).1.ended = w.ended ∧ (c.Set w key value).1.gnext = w.gnext ∧
        (c.Set w key value).1.now = w.now ∧ (c.Set w key value).1.trackers = w.trackers ∧
        c.Err (c.Set w key value).1 = c.Err w) := by
  refine ⟨?_, ?_, ?_⟩
  · simp only [context.WithValue, gcontext.WithValue]
    by_cases h1 : k = .nil
    · simp [h1]
    · cases h2 : typeComparable k <;> simp [h1]
  · intro d hd
    have hcall : (c.call w (.WithValue k v)).2 = some d := by
      simp only [context.call, hd]
    obtain ⟨-, -, -, hget, -⟩ := context.call_env_forked w c d (.WithValue k v) hwf hc hcall
    have hg : d.gctx = .valueCtx c.gctx k v := by
      simp only [context.WithValue, gcontext.WithValue] at hd
      split_ifs at hd
      simp only [Except.ok.injEq] at hd
      subst hd
      rfl
    have hval : ∀ k', d.Value k' =
        match ifaceEq k k' with
        | .error p => .error p
        | .ok true => .ok v
        | .ok false => c.Value k' := by
      intro k'
      simp only [context.Value, hg, GCtx.Value]
    refine ⟨hval, ?_, ?_, ?_, ?_, ?_⟩
    · intro hk hkk
      rw [hval k, ifaceEq_of_hashable k hk k, hkk]
    · intro k' hk hkk
      rw [hval k', ifaceEq_of_hashable k hk k', hkk]
    · intro k' hk hkk
      rw [hval k', ifaceEq_of_hashable k hk k', hkk]
    · intro a b x y hk
      rw [hval, hk]
      rfl
    · intro k''
      exact hget k''
  · intro key value
    exact ⟨rfl, rfl, rfl, rfl, rfl⟩

/-- C15 on a fresh root: the context `root.WithValue("user", 7)` returns finds `7` under
`user` in the standard lookup and nothing under `user` in the Environment. -/
theorem C15_value_and_env_independent_witness :
    (rootContext.WithValue rootWorld (.string "user") (.int 7)).2.map
        (fun d => d.Value (.string "user")) = .ok (.ok (.int 7)) ∧
      (rootContext.WithValue rootWorld (.string "user") (.int 7)).2.map
        (fun d => d.Get (rootContext.WithValue rootWorld (.string "user") (.int 7)).1
          (.string "user")) = .ok (.ok (.nil, false)) := by
  have h := (C15_value_and_env_independent rootWorld rootContext (.string "user") (.int 7)
    wellFormed_rootWorld (by decide)).2.1
  cases hd : (rootContext.WithValue rootWorld (.string "user") (.int 7)).2 with
  | error p => cases hd
  | ok d =>
    obtain ⟨-, hself, -, -, -, hget⟩ := h d hd
    simp only [Except.map]
    rw [hself rfl rfl, hget]
    exact ⟨rfl, rfl⟩

/-! ## `gerror`: encoding and decoding (C16, C17) -/

theorem wrapInt32_of_int32 (z : Int) (h1 : -(2 : Int) ^ 31 ≤ z) (h2 : z < (2 : Int) ^ 31) :
    wrapInt32 z = z := by
  unfold wrapInt32
  omega

theorem float64ToInt32_intCast (z : Int) (h1 : -(2 : Int) ^ 31 ≤ z) (h2 : z < (2 : Int) ^ 31) :
    float64ToInt32 (z : ℚ) = z := by
  unfold float64ToInt32
  simp only [Rat.intCast_num, Rat.intCast_den, Nat.cast_one, Int.tdiv_one]
  rw [if_pos ⟨h1, h2⟩]

theorem magic_isPrefixOf (rest : String) :
    MAGIC_PREFIX.data.isPrefixOf (MAGIC_PREFIX ++ rest).data = true := by
  rw [String.data_append, List.isPrefixOf_iff_prefix]
  exact List.prefix_append _ _

/-- Decoding what `Encode` gives for a `GError` with a positive code gives the `GError` back. -/
theorem gerror.Decode_Encode (e : GError) (hpos : 0 < e.Code) (h32 : e.Code < (2 : Int) ^ 31) :
    gerror.Decode e.Encode = some e := by
  have hmsg : ∀ m : String, MAGIC_PREFIX.data.isPrefixOf
      (if e.Message = "" then
          MAGIC_PREFIX ++ " # " ++ e.Name ++ "[" ++ toString e.Code ++ "]"
        else
          MAGIC_PREFIX ++ " # " ++ e.Name ++ "[" ++ toString e.Code ++ "]: " ++ m).data
      = true := by
    intro m
    split_ifs
    · rw [String.append_assoc, String.append_assoc, String.append_assoc, String.append_assoc]
      exact magic_isPrefixOf _
    · rw [String.append_assoc, String.append_assoc, String.append_assoc, String.append_assoc,
        String.append_assoc]
      exact magic_isPrefixOf _
  have hcode : float64ToInt32 (e.Code : ℚ) = e.Code :=
    float64ToInt32_intCast e.Code (by omega) h32
  simp only [gerror.Decode, GError.Encode, statusConvert]
  rw [if_neg (by decide), if_pos ⟨trivial, hmsg e.Message⟩]
  have hl1 : List.lookup "code" [("code", PbField.number (e.Code : ℚ)),
      ("name", PbField.string e.Name), ("message", PbField.string e.Message)]
      = some (.number e.Code) := rfl
  have hl2 : List.lookup "name" [("code", PbField.number (e.Code : ℚ)),
      ("name", PbField.string e.Name), ("message", PbField.string e.Message)]
      = some (.string e.Name) := rfl
  have hl3 : List.lookup "message" [("code", PbField.number (e.Code : ℚ)),
      ("name", PbField.string e.Name), ("message", PbField.string e.Message)]
      = some (.string e.Message) := rfl
  simp only [hl1, hl2, hl3, PbField.GetNumberValue, PbField.GetStringValue, hcode]
  rw [if_pos ⟨by simp, hpos⟩]

/-- What `New` returns when it returns: the enum has a method `String`, its number is positive
and not the boundary, and the error holds number, name and message. -/
theorem gerror.New_ok (code : PbEnum) (msg : String) (g : GError)
    (h : gerror.New (some code) msg = .ok g) :
    ∃ name, code.name = some name ∧ 0 < wrapInt32 code.number ∧
      wrapInt32 code.number ≠ 10000 ∧
      g = { Code := wrapInt32 code.number, Name := name, Message := msg } := by
  unfold gerror.New at h
  simp only at h
  cases hn : code.name with
  | none => simp [hn] at h
  | some name =>
    simp only [hn] at h
    split_ifs at h with h1 h2
    simp only [Except.ok.injEq] at h
    exact ⟨name, rfl, by omega, h2, h.symm⟩

/-- When `New` panics: on the nil interface, on an enum without a method `String`, on a number
that is not positive and on the boundary. -/
theorem gerror.New_panics (code : Option PbEnum) (msg : String) :
    (∃ p, gerror.New code msg = .error p) ↔
      (code = none ∨ ∃ enum, code = some enum ∧
        (enum.name = none ∨ wrapInt32 enum.number ≤ 0 ∨ wrapInt32 enum.number = 10000)) := by
  cases code with
  | none => simp [gerror.New]
  | some enum =>
    have hiff : (some enum = none ∨ ∃ e' : PbEnum, some enum = some e' ∧
        (e'.name = none ∨ wrapInt32 e'.number ≤ 0 ∨ wrapInt32 e'.number = 10000)) ↔
        (enum.name = none ∨ wrapInt32 enum.number ≤ 0 ∨ wrapInt32 enum.number = 10000) := by
      constructor
      · rintro (h | ⟨e', he, h⟩)
        · cases h
        · cases he
          exact h
      · intro h
        exact Or.inr ⟨enum, rfl, h⟩
    rw [hiff]
    unfold gerror.New
    simp only
    cases hn : enum.name with
    | none => exact ⟨fun _ => Or.inl rfl, fun _ => ⟨_, rfl⟩⟩
    | some name =>
      simp only
      by_cases c1 : wrapInt32 enum.number ≤ 0
      · rw [if_pos c1]
        exact ⟨fun _ => Or.inr (Or.inl c1), fun _ => ⟨_, rfl⟩⟩
      · rw [if_neg c1]
        by_cases c2 : wrapInt32 enum.number = CODE_GLOBAL_BOUNDARY
        · rw [if_pos c2]
          exact ⟨fun _ => Or.inr (Or.inr c2), fun _ => ⟨_, rfl⟩⟩
        · rw [if_neg c2]
          constructor
          · rintro ⟨p, hp⟩
            cases hp
          · rintro (hc | hc | hc)
            · cases hc
            · exact absurd hc c1
            · exact absurd hc c2

/-- C16: decoding the encoding of a `GError` with a positive code gives a `GError` with the
same code, name and message; hence for every enum value `New` accepts and every message,
`Decode(Encode(code, msg))` is not `OK()` and `Equal(code)` holds for it. -/
theorem C16_decode_encode (e : GError) (code : PbEnum) (msg : String) :
    (0 < e.Code → e.Code < (2 : Int) ^ 31 → gerror.Decode e.Encode = some e) ∧
      (∀ g, gerror.New (some code) msg = .ok g →
        ∃ err, gerror.Encode (some code) msg = .ok err ∧ gerror.Decode err = some g ∧
          g.OK = false ∧ g.Equal (.enum code) = .ok true) := by
  refine ⟨gerror.Decode_Encode e, ?_⟩
  intro g hg
  obtain ⟨name, hname, hpos', hne, hgeq⟩ := gerror.New_ok code msg g hg
  have hcode : g.Code = wrapInt32 code.number := by rw [hgeq]
  have hgname : g.Name = name := by rw [hgeq]
  have hpos : 0 < g.Code := by rw [hcode]; exact hpos'
  have h32 : g.Code < (2 : Int) ^ 31 := by
    rw [hcode]; unfold wrapInt32; omega
  refine ⟨g.Encode, by simp [gerror.Encode, hg], gerror.Decode_Encode g hpos h32, ?_, ?_⟩
  · simp only [GError.OK, beq_eq_false_iff_ne, ne_eq]
    omega
  · simp [GError.Equal, hcode, hname, hgname]

/-- The test `TestEncode1`: `Decode(Encode(Field_TYPE_STRING, msg))` has the code `9` and the
name of the enum value. -/
theorem C16_decode_encode_witness :
    gerror.Decode (GError.Encode { Code := 9, Name := "TYPE_STRING", Message := "m" }) =
      some { Code := 9, Name := "TYPE_STRING", Message := "m" } :=
  (C16_decode_encode { Code := 9, Name := "TYPE_STRING", Message := "m" } fieldTypeString
    "m").1 (by decide) (by decide)

/-- `Decode` returns nil for no error. -/
theorem gerror.Decode_ne_none (err : GoError) : gerror.Decode err ≠ none := by
  cases err with
  | nil => simp [gerror.Decode]
  | gerror e => cases e <;> simp [gerror.Decode]
  | grpcStatus s' =>
    simp only [gerror.Decode]
    split_ifs
    · simp
    · split
      · split_ifs <;> simp
      · simp
    · simp
  | wrapped msg s' =>
    simp only [gerror.Decode]
    split_ifs
    · simp
    · split
      · split_ifs <;> simp
      · simp
    · simp
  | other msg =>
    simp only [gerror.Decode]
    split_ifs
    · simp
    · split
      · split_ifs <;> simp
      · simp
    · simp

/-- C17: `Decode(nil)` is a non-nil `GError` with code `0`, name `OK` and an empty message,
for which `OK()` holds; `Decode` returns the same for a nil `*GError` and for every error
whose status has the code `OK`, carried by the error itself or by an error it wraps; and
`Decode` returns nil for no error. -/
theorem C17_decode_ok (err : GoError) (s : Status) :
    gerror.Decode .nil = some { Code := 0, Name := "OK", Message := "" } ∧
      GError.OK { Code := 0, Name := "OK", Message := "" } = true ∧
      gerror.Decode (.gerror none) = some { Code := 0, Name := "OK", Message := "" } ∧
      (s.code = 0 →
        gerror.Decode (.grpcStatus s) = some { Code := 0, Name := "OK", Message := "" }) ∧
      gerror.Decode err ≠ none ∧
      (s.code = 0 → ∀ msg,
        gerror.Decode (.wrapped msg s) = some { Code := 0, Name := "OK", Message := "" }) := by
  refine ⟨rfl, rfl, rfl, ?_, gerror.Decode_ne_none err, ?_⟩
  · intro hs
    simp [gerror.Decode, statusConvert, hs]
  · intro hs msg
    simp [gerror.Decode, statusConvert, hs]

/-- C17 on a status of code `OK` that carries a message and a detail: `Decode` still returns
the plain OK value. -/
theorem C17_decode_ok_witness :
    gerror.Decode (.grpcStatus { code := 0, message := "fine", details := [.other] }) =
      some { Code := 0, Name := "OK", Message := "" } :=
  (C17_decode_ok .nil { code := 0, message := "fine", details := [.other] }).2.2.2.1 rfl

/-! ## `gerror`: the categories (C18) -/

/-- The claim C18 fails for an enum without a method `String`: `New` panics on it in the type
assertion, although its number `5` is positive and not `10000`; so it does on the nil
interface, which has no number. -/
theorem C18_counterexample :
    gerror.New (some { number := 5, name := none }) "m" = .error .typeAssertion ∧
      ¬ ((5 : Int) ≤ 0 ∨ (5 : Int) = 10000) ∧
      gerror.New none "m" = .error .nilEnum := by
  refine ⟨rfl, by decide, rfl⟩

/-- C18, amended: the four categories are decided by the code alone (`OK` iff it is `0`, local
iff it lies strictly between `0` and `10000`, global iff it is above `10000`, grpc iff it is
negative), no two of them hold together, and one of them holds for every code other than
`10000`; `New` panics exactly when the enum is nil, or has no method `String`, or its number is
not positive or is `10000`, and what it returns otherwise has the number as its code, which is
positive, and is local or global. -/
theorem C18_categories (e : GError) (code : Option PbEnum) (msg : String)
    (hrange : ∀ enum, code = some enum →
      -(2 : Int) ^ 31 ≤ enum.number ∧ enum.number < (2 : Int) ^ 31) :
    ((e.OK = true ↔ e.Code = 0) ∧ (e.IsLocal = true ↔ 0 < e.Code ∧ e.Code < 10000) ∧
        (e.IsGlobal = true ↔ 10000 < e.Code) ∧ (e.IsGrpc = true ↔ e.Code < 0)) ∧
      (¬ (e.OK = true ∧ e.IsLocal = true) ∧ ¬ (e.OK = true ∧ e.IsGlobal = true) ∧
        ¬ (e.OK = true ∧ e.IsGrpc = true) ∧ ¬ (e.IsLocal = true ∧ e.IsGlobal = true) ∧
        ¬ (e.IsLocal = true ∧ e.IsGrpc = true) ∧ ¬ (e.IsGlobal = true ∧ e.IsGrpc = true)) ∧
      (e.Code ≠ 10000 →
        e.OK = true ∨ e.IsLocal = true ∨ e.IsGlobal = true ∨ e.IsGrpc = true) ∧
      (e.Code = 10000 →
        e.OK = false ∧ e.IsLocal = false ∧ e.IsGlobal = false ∧ e.IsGrpc = false) ∧
      ((∃ p, gerror.New code msg = .error p) ↔
        (code = none ∨ ∃ enum, code = some enum ∧
          (enum.name = none ∨ enum.number ≤ 0 ∨ enum.number = 10000))) ∧
      (∀ g, gerror.New code msg = .ok g →
        ∃ enum, code = some enum ∧ g.Code = enum.number ∧ enum.name = some g.Name ∧
          0 < g.Code ∧ g.Code ≠ 10000 ∧ (g.IsLocal = true ∨ g.IsGlobal = true)) := by
  have hb : wrapInt32 CODE_GLOBAL_BOUNDARY = 10000 := by decide
  have h1 : e.OK = true ↔ e.Code = 0 := by simp [GError.OK]
  have h2 : e.IsLocal = true ↔ 0 < e.Code ∧ e.Code < 10000 := by
    simp [GError.IsLocal, hb]
  have h3 : e.IsGlobal = true ↔ 10000 < e.Code := by simp [GError.IsGlobal, hb]
  have h4 : e.IsGrpc = true ↔ e.Code < 0 := by simp [GError.IsGrpc]
  refine ⟨⟨h1, h2, h3, h4⟩, ?_, ?_, ?_, ?_, ?_⟩
  · rw [h1, h2, h3, h4]
    refine ⟨?_, ?_, ?_, ?_, ?_, ?_⟩ <;> omega
  · intro hne
    rw [h1, h2, h3, h4]
    omega
  · intro heq
    have n1 : ¬ e.OK = true := by rw [h1]; omega
    have n2 : ¬ e.IsLocal = true := by rw [h2]; omega
    have n3 : ¬ e.IsGlobal = true := by rw [h3]; omega
    have n4 : ¬ e.IsGrpc = true := by rw [h4]; omega
    simp only [Bool.not_eq_true] at n1 n2 n3 n4
    exact ⟨n1, n2, n3, n4⟩
  · rw [gerror.New_panics]
    constructor
    · rintro (h | ⟨enum, he, h⟩)
      · exact Or.inl h
      · obtain ⟨hlo, hhi⟩ := hrange enum he
        rw [wrapInt32_of_int32 _ hlo hhi] at h
        exact Or.inr ⟨enum, he, h⟩
    · rintro (h | ⟨enum, he, h⟩)
      · exact Or.inl h
      · obtain ⟨hlo, hhi⟩ := hrange enum he
        refine Or.inr ⟨enum, he, ?_⟩
        rw [wrapInt32_of_int32 _ hlo hhi]
        exact h
  · intro g hg
    cases code with
    | none => simp [gerror.New] at hg
    | some enum =>
      obtain ⟨hlo, hhi⟩ := hrange enum rfl
      obtain ⟨name, hname, hpos, hne, hgeq⟩ := gerror.New_ok enum msg g hg
      rw [wrapInt32_of_int32 _ hlo hhi] at hpos hne hgeq
      subst hgeq
      refine ⟨enum, rfl, rfl, hname, hpos, hne, ?_⟩
      simp only [GError.IsLocal, GError.IsGlobal, hb, Bool.and_eq_true, decide_eq_true_eq]
      omega

/-- C18 on the enum value of the test: `New` accepts the number `9` and returns a local
error. -/
theorem C18_categories_witness :
    (gerror.New (some fieldTypeString) "m").map (fun g => (g.Code, g.IsLocal, g.IsGlobal)) =
      .ok (9, true, false) ∧
      ¬ (∃ p, gerror.New (some fieldTypeString) "m" = .error p) :=
  ⟨rfl,
   fun h => absurd
     ((C18_categories okGError (some fieldTypeString) "m"
        (fun enum he => by
          simp only [Option.some.injEq] at he
          subst he
          decide)).2.2.2.2.1.mp h)
     (by
       rintro (h | ⟨enum, he, h⟩)
       · cases h
       · simp only [Option.some.injEq] at he
         subst he
         revert h
         decide)⟩

/-! ## `netkit`: facts about the libraries -/

theorem digitChar_isDigit : ∀ k, k < 10 → (Nat.digitChar k).isDigit = true := by
  decide

theorem toDigitsCore_isDigit (fuel : Nat) :
    ∀ (n : Nat) (ds : List Char), (∀ c ∈ ds, c.isDigit = true) →
      ∀ c ∈ Nat.toDigitsCore 10 fuel n ds, c.isDigit = true := by
  induction fuel with
  | zero => intro n ds hds c hc; exact hds c hc
  | succ fuel ih =>
    intro n ds hds c hc
    simp only [Nat.toDigitsCore] at hc
    have hd : ∀ x ∈ Nat.digitChar (n % 10) :: ds, x.isDigit = true := by
      intro x hx
      rcases List.mem_cons.mp hx with hx | hx
      · rw [hx]; exact digitChar_isDigit _ (Nat.mod_lt _ (by decide))
      · exact hds x hx
    split_ifs at hc
    · exact hd c hc
    · exact ih _ _ hd c hc

/-- A decimal numeral consists of decimal digits. -/
theorem toDigits_isDigit (n : Nat) : ∀ c ∈ Nat.toDigits 10 n, c.isDigit = true :=
  toDigitsCore_isDigit _ _ _ (by simp)

/-- A decimal numeral is not empty. -/
theorem toDigits_ne_nil (n : Nat) : Nat.toDigits 10 n ≠ [] := by
  unfold Nat.toDigits
  simp only [Nat.toDigitsCore]
  split_ifs
  · simp
  · rw [toDigitsCore_append]
    simp

theorem isDigit_not_special {c : Char} (h : c.isDigit = true) :
    c ≠ ':' ∧ c ≠ '.' ∧ c ≠ '%' ∧ c ≠ '[' ∧ c ≠ ']' ∧ c ≠ ',' := by
  refine ⟨?_, ?_, ?_, ?_, ?_, ?_⟩ <;>
  · rintro rfl
    revert h
    decide

theorem FormatUint_data (n : Nat) : (FormatUint n).data = Nat.toDigits 10 n := rfl

/-- `ParseUint` reads back the numeral `FormatUint` writes. -/
theorem ParseUint_FormatUint (n bitSize : Nat) (h : n < 2 ^ bitSize) :
    ParseUint (FormatUint n) bitSize = some n := by
  unfold ParseUint
  rw [if_neg (by rw [FormatUint_data]; exact toDigits_ne_nil n),
    if_pos (by rw [FormatUint_data, List.all_eq_true]; exact toDigits_isDigit n),
    decimalValue_FormatUint, if_pos h]

/-- `ParseUint` rejects a string that holds a character other than a decimal digit. -/
theorem ParseUint_of_not_digit (s : String) (bitSize : Nat) (c : Char) (hc : c ∈ s.data)
    (hd : c.isDigit = false) : ParseUint s bitSize = none := by
  unfold ParseUint
  split_ifs with h1 h2
  · rfl
  · rw [List.all_eq_true] at h2
    rw [h2 c hc] at hd
    cases hd
  · rfl
  · rfl

/-- `ParseIP` rejects a string without `.`, `:` and `%`, a decimal numeral for one. -/
theorem ParseIP_of_digits (s : String) (h : ∀ c ∈ s.data, c.isDigit = true) :
    ParseIP s = none := by
  unfold ParseIP
  have : s.data.find? (fun c => c = '.' || c = ':' || c = '%') = none := by
    rw [List.find?_eq_none]
    intro c hc
    obtain ⟨h1, h2, h3, -⟩ := isDigit_not_special (h c hc)
    simp [h1, h2, h3]
  rw [this]

theorem JoinHostPort_of_no_colon (host port : String) (h : ':' ∉ host.data) :
    JoinHostPort host port = host ++ ":" ++ port := by
  unfold JoinHostPort
  rw [if_neg]
  simpa using h

theorem splitLastColon_of_no_colon (p : List Char) (h : ':' ∉ p) : splitLastColon p = none := by
  induction p with
  | nil => rfl
  | cons c cs ih =>
    simp only [List.mem_cons, not_or] at h
    simp only [splitLastColon, ih h.2]
    rw [if_neg (fun e => h.1 e.symm)]

theorem splitLastColon_append (hs p : List Char) (h : ':' ∉ p) :
    splitLastColon (hs ++ ':' :: p) = some (hs, p) := by
  induction hs with
  | nil => simp [splitLastColon, splitLastColon_of_no_colon p h]
  | cons c cs ih => simp [splitLastColon, ih]

/-- `SplitHostPort` splits `host:port` at the colon when neither part holds a colon or a
bracket. -/
theorem SplitHostPort_simple (hs p : List Char)
    (hh : ∀ c ∈ hs, c ≠ ':' ∧ c ≠ '[' ∧ c ≠ ']') (hp : ∀ c ∈ p, c ≠ ':' ∧ c ≠ '[' ∧ c ≠ ']') :
    SplitHostPort (String.mk (hs ++ ':' :: p)) = some (String.mk hs, String.mk p) := by
  have hpc : ':' ∉ p := fun h => (hp _ h).1 rfl
  have hall : ∀ c ∈ hs ++ ':' :: p, c ≠ '[' ∧ c ≠ ']' := by
    intro c hc
    rcases List.mem_append.mp hc with hc | hc
    · exact (hh c hc).2
    · rcases List.mem_cons.mp hc with hc | hc
      · subst hc; exact ⟨by decide, by decide⟩
      · exact (hp c hc).2
  have hhead : (hs ++ ':' :: p).head? ≠ some '[' := by
    intro h
    have hmem : '[' ∈ hs ++ ':' :: p := List.mem_of_mem_head? h
    exact (hall _ hmem).1 rfl
  unfold SplitHostPort
  simp only [splitLastColon_append hs p hpc]
  rw [if_neg hhead, if_neg, if_neg, if_neg]
  · have h : ']' ∉ hs ++ ':' :: p := fun h => (hall _ h).2 rfl
    simpa using h
  · have h : '[' ∉ hs ++ ':' :: p := fun h => (hall _ h).1 rfl
    simpa using h
  · have h : ':' ∉ hs := fun h => (hh _ h).1 rfl
    simpa using h

set_option maxRecDepth 100000 in
theorem toDigits_byte : ∀ b, b < 256 → Nat.toDigits 10 b =
    if b < 10 then [Nat.digitChar b]
    else if b < 100 then [Nat.digitChar (b / 10), Nat.digitChar (b % 10)]
    else [Nat.digitChar (b / 100), Nat.digitChar (b / 10 % 10), Nat.digitChar (b % 10)] := by
  decide

theorem digitChar_toNat : ∀ k, k < 10 → (Nat.digitChar k).toNat - 48 = k := by
  decide

theorem parseIPv4Loop_digit (k val pos digLen : Nat) (rest : List Char) (fields : List Nat)
    (hk : k < 10) (h0 : ¬(digLen = 1 ∧ val = 0)) (h255 : val * 10 + k ≤ 255) :
    parseIPv4Loop (Nat.digitChar k :: rest) val pos digLen fields =
      parseIPv4Loop rest (val * 10 + k) pos (digLen + 1) fields := by
  rw [parseIPv4Loop, if_pos (digitChar_isDigit k hk), if_neg h0, digitChar_toNat k hk,
    if_neg (by omega)]

/-- The IPv4 parser reads one decimal field of a byte. -/
theorem parseIPv4Loop_field (b : Nat) (hb : b < 256) (tail : List Char) (pos : Nat)
    (fields : List Nat) :
    ∃ k, 0 < k ∧ parseIPv4Loop (Nat.toDigits 10 b ++ tail) 0 pos 0 fields =
      parseIPv4Loop tail b pos k fields := by
  rw [toDigits_byte b hb]
  split_ifs with h1 h2
  · refine ⟨1, by decide, ?_⟩
    rw [List.singleton_append, parseIPv4Loop_digit b 0 pos 0 tail fields h1 (by simp) (by omega)]
    simp
  · refine ⟨2, by decide, ?_⟩
    simp only [List.cons_append, List.nil_append]
    rw [parseIPv4Loop_digit _ 0 pos 0 _ fields (by omega) (by simp) (by omega),
      parseIPv4Loop_digit _ _ pos _ _ fields (Nat.mod_lt _ (by decide)) (by omega) (by omega)]
    congr 1
    omega
  · refine ⟨3, by decide, ?_⟩
    simp only [List.cons_append, List.nil_append]
    rw [parseIPv4Loop_digit _ 0 pos 0 _ fields (by omega) (by simp) (by omega),
      parseIPv4Loop_digit _ _ pos _ _ fields (Nat.mod_lt _ (by decide)) (by omega) (by omega),
      parseIPv4Loop_digit _ _ pos _ _ fields (Nat.mod_lt _ (by decide)) (by omega) (by omega)]
    congr 1
    omega

theorem parseIPv4Loop_dot (rest : List Char) (val pos k : Nat) (fields : List Nat)
    (hne : rest ≠ []) (hk : 0 < k) (hpos : pos < 3) :
    parseIPv4Loop ('.' :: rest) val pos k fields =
      parseIPv4Loop rest 0 (pos + 1) 0 (fields ++ [val]) := by
  rw [parseIPv4Loop, if_neg (by decide), if_pos rfl, if_neg (by simp [hne]; omega),
    if_neg (by omega)]

theorem parseIPv4Loop_colon (rest : List Char) (val pos k : Nat) (fields : List Nat) :
    parseIPv4Loop (':' :: rest) val pos k fields = none := by
  rw [parseIPv4Loop, if_neg (by decide), if_neg (by decide)]

/-- The characters of a dotted decimal form. -/
theorem dotted_data (a b c d : Nat) : (dotted a b c d).data =
    Nat.toDigits 10 a ++ '.' :: (Nat.toDigits 10 b ++ '.' ::
      (Nat.toDigits 10 c ++ '.' :: Nat.toDigits 10 d)) := by
  simp [dotted, String.data_append, FormatUint_data]

/-- The IPv4 parser reads the four fields of a dotted decimal form of bytes and goes on with
what follows it. -/
theorem parseIPv4Loop_dotted (a b c d : Nat) (ha : a < 256) (hb : b < 256) (hc : c < 256)
    (hd : d < 256) (tail : List Char) :
    ∃ k, 0 < k ∧ parseIPv4Fields ((dotted a b c d).data ++ tail) =
      parseIPv4Loop tail d 3 k [a, b, c] := by
  have ne : ∀ (n : Nat) (l : List Char), Nat.toDigits 10 n ++ l ≠ [] := by
    intro n l h
    exact toDigits_ne_nil n (List.append_eq_nil.mp h).1
  obtain ⟨k1, hk1, e1⟩ := parseIPv4Loop_field a ha
    ('.' :: (Nat.toDigits 10 b ++ '.' :: (Nat.toDigits 10 c ++ '.' ::
      (Nat.toDigits 10 d ++ tail)))) 0 []
  obtain ⟨k2, hk2, e2⟩ := parseIPv4Loop_field b hb
    ('.' :: (Nat.toDigits 10 c ++ '.' :: (Nat.toDigits 10 d ++ tail))) 1 [a]
  obtain ⟨k3, hk3, e3⟩ := parseIPv4Loop_field c hc ('.' :: (Nat.toDigits 10 d ++ tail)) 2 [a, b]
  obtain ⟨k4, hk4, e4⟩ := parseIPv4Loop_field d hd tail 3 [a, b, c]
  refine ⟨k4, hk4, ?_⟩
  unfold parseIPv4Fields
  rw [dotted_data]
  simp only [List.append_assoc, List.cons_append]
  rw [e1, parseIPv4Loop_dot _ _ _ _ _ (ne _ _) hk1 (by decide), List.nil_append, e2,
    parseIPv4Loop_dot _ _ _ _ _ (ne _ _) hk2 (by decide)]
  show parseIPv4Loop _ 0 2 0 [a, b] = _
  rw [e3, parseIPv4Loop_dot _ _ _ _ _ (ne _ _) hk3 (by decide)]
  exact e4

theorem dotted_chars (a b c d : Nat) :
    ∀ x ∈ (dotted a b c d).data, x.isDigit = true ∨ x = '.' := by
  intro x hx
  rw [dotted_data] at hx
  simp only [List.mem_append, List.mem_cons] at hx
  rcases hx with h | h | h | h | h | h | h
  · exact Or.inl (toDigits_isDigit _ x h)
  · exact Or.inr h
  · exact Or.inl (toDigits_isDigit _ x h)
  · exact Or.inr h
  · exact Or.inl (toDigits_isDigit _ x h)
  · exact Or.inr h
  · exact Or.inl (toDigits_isDigit _ x h)

theorem dotted_not_special (a b c d : Nat) :
    ∀ x ∈ (dotted a b c d).data, x ≠ ':' ∧ x ≠ '[' ∧ x ≠ ']' := by
  intro x hx
  rcases dotted_chars a b c d x hx with h | h
  · obtain ⟨h1, -, -, h4, h5, -⟩ := isDigit_not_special h
    exact ⟨h1, h4, h5⟩
  · subst h
    exact ⟨by decide, by decide, by decide⟩

/-- The first of `.`, `:` and `%` in a string that starts with a dotted decimal form is `.`. -/
theorem find_sep_dotted (a b c d : Nat) (tail : List Char) :
    ((dotted a b c d).data ++ tail).find? (fun c => c = '.' || c = ':' || c = '%') =
      some '.' := by
  rw [dotted_data, List.append_assoc, List.find?_append]
  have : (Nat.toDigits 10 a).find? (fun c => c = '.' || c = ':' || c = '%') = none := by
    rw [List.find?_eq_none]
    intro x hx
    obtain ⟨h1, h2, h3, -⟩ := isDigit_not_special (toDigits_isDigit a x hx)
    simp [h1, h2, h3]
  rw [this]
  simp

/-- `ParseIP` reads a dotted decimal form of four bytes as these four bytes. -/
theorem ParseIP_dotted (a b c d : Nat) (ha : a < 256) (hb : b < 256) (hc : c < 256)
    (hd : d < 256) :
    ParseIP (dotted a b c d) = some ([0, 0, 0, 0, 0, 0, 0, 0, 0, 0, 255, 255] ++ [a, b, c, d]) := by
  obtain ⟨k, hk, e⟩ := parseIPv4Loop_dotted a b c d ha hb hc hd []
  have hf := find_sep_dotted a b c d []
  rw [List.append_nil] at e hf
  unfold ParseIP
  rw [hf]
  simp only [e]
  simp [parseIPv4Loop]

/-- `ParseIP` rejects a dotted decimal form followed by a colon. -/
theorem ParseIP_dotted_colon (a b c d : Nat) (ha : a < 256) (hb : b < 256) (hc : c < 256)
    (hd : d < 256) : ParseIP (dotted a b c d ++ ":") = none := by
  obtain ⟨k, hk, e⟩ := parseIPv4Loop_dotted a b c d ha hb hc hd [':']
  have hf := find_sep_dotted a b c d [':']
  have hdata : (dotted a b c d ++ ":").data = (dotted a b c d).data ++ [':'] := by
    simp [String.data_append]
  unfold ParseIP
  rw [hdata, hf]
  simp only [e, parseIPv4Loop_colon]

/-- `IPString` writes the 16-byte form of an IPv4 address in dotted decimal form. -/
theorem IPString_v4 (a b c d : Nat) :
    IPString (some ([0, 0, 0, 0, 0, 0, 0, 0, 0, 0, 255, 255] ++ [a, b, c, d])) = dotted a b c d := by
  rfl

/-- `ParseIP` rejects a colon followed by a decimal numeral. -/
theorem ParseIP_colon_digits (n : Nat) : ParseIP (":" ++ FormatUint n) = none := by
  have hdata : (":" ++ FormatUint n).data = ':' :: Nat.toDigits 10 n := by
    simp [String.data_append, FormatUint_data]
  obtain ⟨x, xs, hx⟩ := List.exists_cons_of_ne_nil (toDigits_ne_nil n)
  have hxd : x.isDigit = true := toDigits_isDigit n x (by rw [hx]; exact List.mem_cons_self _ _)
  obtain ⟨hx1, -, -, -, -, -⟩ := isDigit_not_special hxd
  unfold ParseIP
  rw [hdata, hx]
  have hfind : (':' :: x :: xs).find? (fun c => c = '.' || c = ':' || c = '%') = some ':' := by
    simp
  rw [hfind]
  simp only
  split_ifs
  · rfl
  · unfold parseIPv6
    split
    · next heq =>
      simp only [List.cons.injEq, true_and] at heq
      exact absurd heq.1 hx1
    · simp [parseIPv6Loop, parseHexField, hexVal]

/-! ## `netkit/addr.go`: `AddrCompletion` -/

theorem join_eq_mk (h p : String) : h ++ ":" ++ p = String.mk (h.data ++ ':' :: p.data) := by
  apply String.ext
  simp [String.data_append]

theorem ne_empty_of_data {s : String} (h : s.data ≠ []) : s ≠ "" := by
  intro e
  rw [e] at h
  exact h rfl

theorem FormatUint_ne_empty (n : Nat) : FormatUint n ≠ "" :=
  ne_empty_of_data (by rw [FormatUint_data]; exact toDigits_ne_nil n)

theorem dotted_ne_empty (a b c d : Nat) : dotted a b c d ≠ "" :=
  ne_empty_of_data (by rw [dotted_data]; exact fun h => toDigits_ne_nil a (List.append_eq_nil.mp h).1)

theorem FormatUint_not_special (n : Nat) :
    ∀ x ∈ (FormatUint n).data, x ≠ ':' ∧ x ≠ '[' ∧ x ≠ ']' := by
  intro x hx
  obtain ⟨h1, -, -, h4, h5, -⟩ := isDigit_not_special (toDigits_isDigit n x hx)
  exact ⟨h1, h4, h5⟩

theorem SplitHostPort_colon_digits (n : Nat) :
    SplitHostPort (":" ++ FormatUint n) = some ("", FormatUint n) := by
  have h := SplitHostPort_simple [] (FormatUint n).data (by simp) (FormatUint_not_special n)
  have e : ":" ++ FormatUint n = String.mk ([] ++ ':' :: (FormatUint n).data) := by
    apply String.ext
    simp [String.data_append]
  rw [e, h]

theorem SplitHostPort_dotted_colon (a b c d : Nat) :
    SplitHostPort (dotted a b c d ++ ":") = some (dotted a b c d, "") := by
  have h := SplitHostPort_simple (dotted a b c d).data [] (dotted_not_special a b c d) (by simp)
  have e : dotted a b c d ++ ":" = String.mk ((dotted a b c d).data ++ ':' :: []) := by
    apply String.ext
    simp [String.data_append]
  rw [e, h]

theorem JoinHostPort_dotted (a b c d : Nat) (p : String) :
    JoinHostPort (dotted a b c d) p = dotted a b c d ++ ":" ++ p :=
  JoinHostPort_of_no_colon _ _ (fun h => (dotted_not_special a b c d _ h).1 rfl)

theorem normalizeRaw_empty (raw : String) (h : TrimSpace raw = "") : normalizeRaw raw = ":" := by
  unfold normalizeRaw
  rw [if_pos h]
  rfl

theorem normalizeRaw_digits (raw : String) (n : Nat) (hn : n < 2 ^ 64)
    (h : TrimSpace raw = FormatUint n) : normalizeRaw raw = ":" ++ FormatUint n := by
  unfold normalizeRaw
  rw [h, if_neg (FormatUint_ne_empty n),
    ParseIP_of_digits _ (by rw [FormatUint_data]; exact toDigits_isDigit n),
    ParseUint_FormatUint n 64 hn]
  rfl

theorem normalizeRaw_colon_digits (raw : String) (n : Nat)
    (h : TrimSpace raw = ":" ++ FormatUint n) : normalizeRaw raw = ":" ++ FormatUint n := by
  unfold normalizeRaw
  rw [h, if_neg (ne_empty_of_data (by simp [String.data_append])), ParseIP_colon_digits,
    ParseUint_of_not_digit _ 64 ':' (by simp [String.data_append]) (by decide)]

theorem normalizeRaw_dotted (raw : String) (a b c d : Nat) (ha : a < 256) (hb : b < 256)
    (hc : c < 256) (hd : d < 256) (h : TrimSpace raw = dotted a b c d) :
    normalizeRaw raw = dotted a b c d ++ ":" := by
  unfold normalizeRaw
  rw [h, if_neg (dotted_ne_empty a b c d), ParseIP_dotted a b c d ha hb hc hd]
  simp only [IPString_v4, JoinHostPort_dotted]
  apply String.ext
  simp [String.data_append]

theorem normalizeRaw_dotted_colon (raw : String) (a b c d : Nat) (ha : a < 256) (hb : b < 256)
    (hc : c < 256) (hd : d < 256) (h : TrimSpace raw = dotted a b c d ++ ":") :
    normalizeRaw raw = dotted a b c d ++ ":" := by
  unfold normalizeRaw
  rw [h, if_neg (ne_empty_of_data (by simp [String.data_append])),
    ParseIP_dotted_colon a b c d ha hb hc hd,
    ParseUint_of_not_digit _ 64 ':' (by simp [String.data_append]) (by decide)]

/-- `AddrCompletion` on an input without host: the default ip is used, and the port is checked
as `AddrCompletion` checks every port. -/
theorem AddrCompletion_port_only (raw : String) (ip : Option (List Nat)) (port n : Nat)
    (hip : ip ≠ none) (h1 : 1 ≤ n) (h2 : n ≤ 65535)
    (h : normalizeRaw raw = ":" ++ FormatUint n) :
    AddrCompletion raw ip port = .ok (JoinHostPort (IPString ip) (FormatUint n)) := by
  unfold AddrCompletion
  rw [h, SplitHostPort_colon_digits]
  simp only [if_true, if_neg hip, if_neg (FormatUint_ne_empty n)]
  rw [ParseUint_FormatUint n 64 (by omega)]
  simp only
  rw [if_neg (by omega)]

/-- `AddrCompletion` on an input without port whose host is an IPv4 literal: the default port
is used. -/
theorem AddrCompletion_host_only (raw : String) (ip : Option (List Nat)) (port a b c d : Nat)
    (hport : port ≠ 0) (ha : a < 256) (hb : b < 256) (hc : c < 256) (hd : d < 256)
    (h : normalizeRaw raw = dotted a b c d ++ ":") :
    AddrCompletion raw ip port = .ok (dotted a b c d ++ ":" ++ FormatUint port) := by
  unfold AddrCompletion
  rw [h, SplitHostPort_dotted_colon]
  simp only [if_neg (dotted_ne_empty a b c d), ParseIP_dotted a b c d ha hb hc hd, if_true,
    if_neg hport, IPString_v4, JoinHostPort_dotted]

theorem AddrCompletion_empty (raw : String) (ip : Option (List Nat)) (port : Nat)
    (hip : ip ≠ none) (hport : port ≠ 0) (h : TrimSpace raw = "") :
    AddrCompletion raw ip port = .ok (JoinHostPort (IPString ip) (FormatUint port)) := by
  unfold AddrCompletion
  rw [normalizeRaw_empty raw h]
  have : SplitHostPort ":" = some ("", "") := by decide
  rw [this]
  simp only [if_true, if_neg hip, if_neg hport]

/-- C19: `AddrCompletion` completes the missing part of an address from the defaults. With
`raw` read up to surrounding whitespace (`TrimSpace raw`), a non-nil default `ip` and a
non-zero default `port`: the empty input gives `ip:port`; a decimal `n` in 1..65535, written
`n` or `:n`, gives `ip:n`; an IPv4 literal `a` (the dotted decimal form of four bytes),
written `a` or `a:`, gives `a:port`; each with a nil error. Here `ip:port` is
`net.JoinHostPort` of the text of `ip` and the port, which is the text of `ip`, a colon and
the port whenever the text of `ip` holds no colon. It returns an error when the input does
not split into host and port, when the host part is missing and `ip` is nil, when the port
part is missing and `port` is 0, when the host part is not an IP literal, and when the port
part is not a decimal number in 1..65535. -/
theorem C19_addr_completion (raw : String) (ip : Option (List Nat)) (port : Nat) :
    (ip ≠ none → port ≠ 0 → TrimSpace raw = "" →
      AddrCompletion raw ip port = .ok (JoinHostPort (IPString ip) (FormatUint port))) ∧
    (∀ n, ip ≠ none → 1 ≤ n → n ≤ 65535 →
      (TrimSpace raw = FormatUint n ∨ TrimSpace raw = ":" ++ FormatUint n) →
      AddrCompletion raw ip port = .ok (JoinHostPort (IPString ip) (FormatUint n))) ∧
    (∀ a b c d, port ≠ 0 → a < 256 → b < 256 → c < 256 → d < 256 →
      (TrimSpace raw = dotted a b c d ∨ TrimSpace raw = dotted a b c d ++ ":") →
      AddrCompletion raw ip port = .ok (dotted a b c d ++ ":" ++ FormatUint port)) ∧
    (∀ p, ':' ∉ (IPString ip).data →
      JoinHostPort (IPString ip) p = IPString ip ++ ":" ++ p) ∧
    (SplitHostPort (normalizeRaw raw) = none → ∃ e, AddrCompletion raw ip port = .error e) ∧
    (∀ rawhost rawport, SplitHostPort (normalizeRaw raw) = some (rawhost, rawport) →
      (rawhost = "" → ip = none → ∃ e, AddrCompletion raw ip port = .error e) ∧
      (rawport = "" → port = 0 → ∃ e, AddrCompletion raw ip port = .error e) ∧
      (rawhost ≠ "" → ParseIP rawhost = none → ∃ e, AddrCompletion raw ip port = .error e) ∧
      (rawport ≠ "" → (¬∃ m, ParseUint rawport 64 = some m ∧ 1 ≤ m ∧ m ≤ 65535) →
        ∃ e, AddrCompletion raw ip port = .error e)) := by
  refine ⟨AddrCompletion_empty raw ip port, ?_, ?_, ?_, ?_, ?_⟩
  · rintro n hip h1 h2 (h | h)
    · exact AddrCompletion_port_only raw ip port n hip h1 h2
        (normalizeRaw_digits raw n (by omega) h)
    · exact AddrCompletion_port_only raw ip port n hip h1 h2 (normalizeRaw_colon_digits raw n h)
  · rintro a b c d hport ha hb hc hd (h | h)
    · exact AddrCompletion_host_only raw ip port a b c d hport ha hb hc hd
        (normalizeRaw_dotted raw a b c d ha hb hc hd h)
    · exact AddrCompletion_host_only raw ip port a b c d hport ha hb hc hd
        (normalizeRaw_dotted_colon raw a b c d ha hb hc hd h)
  · intro p hp
    exact JoinHostPort_of_no_colon _ _ hp
  · intro h
    unfold AddrCompletion
    rw [h]
    exact ⟨_, rfl⟩
  · intro rawhost rawport h
    unfold AddrCompletion
    rw [h]
    refine ⟨?_, ?_, ?_, ?_⟩
    · intro hh hip
      simp only [if_pos hh, if_pos hip]
      exact ⟨_, rfl⟩
    · intro hp hport
      simp only [if_pos hp, if_pos hport]
      split
      · exact ⟨_, rfl⟩
      · exact ⟨_, rfl⟩
    · intro hh hip
      simp only [if_neg hh, hip]
      exact ⟨_, rfl⟩
    · intro hp hbad
      simp only [if_neg hp]
      split
      · exact ⟨_, rfl⟩
      · cases hpu : ParseUint rawport 64 with
        | none => exact ⟨_, rfl⟩
        | some m =>
          have hm : m = 0 ∨ m > 65535 := by
            by_contra hc
            exact hbad ⟨m, hpu, by omega, by omega⟩
          simp only [if_pos hm]
          exact ⟨_, rfl⟩

/-- C19 at `" 80 "`, `" 1.2.3.4: "` and `""` with the defaults `10.0.0.1` and `8080`, and at
`"x:80"`, whose host part is not an IP literal. -/
theorem C19_addr_completion_witness :
    AddrCompletion " 80 " (some [10, 0, 0, 1]) 8080 = .ok "10.0.0.1:80" ∧
    AddrCompletion " 1.2.3.4: " (some [10, 0, 0, 1]) 8080 = .ok "1.2.3.4:8080" ∧
    AddrCompletion "" (some [10, 0, 0, 1]) 8080 = .ok "10.0.0.1:8080" ∧
    (∃ e, AddrCompletion "x:80" (some [10, 0, 0, 1]) 8080 = .error e) :=
  ⟨(C19_addr_completion " 80 " (some [10, 0, 0, 1]) 8080).2.1 80 (by decide) (by decide)
      (by decide) (Or.inl (by decide)),
   (C19_addr_completion " 1.2.3.4: " (some [10, 0, 0, 1]) 8080).2.2.1 1 2 3 4 (by decide)
      (by decide) (by decide) (by decide) (by decide) (Or.inr (by decide)),
   (C19_addr_completion "" (some [10, 0, 0, 1]) 8080).1 (by decide) (by decide) (by decide),
   ((C19_addr_completion "x:80" (some [10, 0, 0, 1]) 8080).2.2.2.2.2 "x" "80" (by decide)).2.2.1
      (by decide) (by decide)⟩

/-! ## `netkit/addr.go`: `UniqCSVAddrs` -/

theorem colon_join_ne_empty (x y : String) : x ++ ":" ++ y ≠ "" :=
  ne_empty_of_data (by simp [String.data_append])

theorem JoinHostPort_ne_empty (host port : String) : JoinHostPort host port ≠ "" := by
  unfold JoinHostPort
  split_ifs
  · exact ne_empty_of_data (by simp [String.data_append])
  · exact colon_join_ne_empty host port

/-- One segment adds at most one address, at the end, and only one that is not yet in the list;
with a port to complete with, the address added is not empty. -/
theorem uniqParse_shape (port : Nat) (addrs : List String) (baddr : String) :
    uniqParse port addrs baddr = addrs ∨
      ∃ a, uniqParse port addrs baddr = addrs ++ [a] ∧ a ∉ addrs ∧ (0 < port → a ≠ "") := by
  unfold uniqParse
  simp only
  by_cases h0 : TrimSpace baddr = ""
  · left
    rw [if_pos h0]
  · rw [if_neg h0]
    generalize hres : (if port > 0 then _ else _ : Option String) = result
    have hne : 0 < port → ∀ a, result = some a → a ≠ "" := by
      intro hp a ha
      rw [← hres, if_pos hp] at ha
      split at ha
      · cases ha
        exact JoinHostPort_ne_empty _ _
      · split at ha
        · split at ha
          · cases ha
          · split_ifs at ha
            · cases ha
              exact colon_join_ne_empty _ _
            · cases ha
              exact h0
        · split_ifs at ha
          · cases ha
            exact h0
          · cases ha
            exact colon_join_ne_empty _ _
    cases result with
    | none => left; rfl
    | some a =>
      simp only
      by_cases hc : addrs.contains a = true
      · left
        rw [if_pos hc]
      · right
        rw [if_neg hc]
        refine ⟨a, rfl, ?_, fun hp => hne hp a rfl⟩
        simpa using hc

/-- The invariant of `UniqCSVAddrs`: no address twice, and no empty address when there is a
port to complete with. -/
theorem uniqParse_inv (port : Nat) (addrs : List String) (baddr : String)
    (h : addrs.Nodup ∧ (0 < port → "" ∉ addrs)) :
    (uniqParse port addrs baddr).Nodup ∧ (0 < port → "" ∉ uniqParse port addrs baddr) := by
  rcases uniqParse_shape port addrs baddr with e | ⟨a, e, hnot, hne⟩
  · rw [e]
    exact h
  · rw [e]
    refine ⟨?_, ?_⟩
    · rw [List.nodup_append]
      refine ⟨h.1, List.nodup_singleton a, ?_⟩
      intro x hx hx'
      rw [List.mem_singleton] at hx'
      subst hx'
      exact hnot hx
    · intro hp hmem
      rcases List.mem_append.mp hmem with hm | hm
      · exact h.2 hp hm
      · rw [List.mem_singleton] at hm
        exact hne hp hm.symm

theorem foldl_inv {α β : Type} (P : β → Prop) (f : β → α → β) (hf : ∀ b a, P b → P (f b a)) :
    ∀ (l : List α) (b : β), P b → P (l.foldl f b) := by
  intro l
  induction l with
  | nil => intro b hb; exact hb
  | cons x xs ih => intro b hb; exact ih _ (hf b x hb)

theorem UniqCSVAddrs_inv (port : Nat) (csvs : List String) :
    (UniqCSVAddrs port csvs).Nodup ∧ (0 < port → "" ∉ UniqCSVAddrs port csvs) := by
  unfold UniqCSVAddrs
  refine foldl_inv (fun addrs => addrs.Nodup ∧ (0 < port → "" ∉ addrs)) _ ?_ csvs []
    ⟨List.nodup_nil, fun _ h => by cases h⟩
  intro addrs csv h
  split_ifs
  · exact h
  · exact foldl_inv (fun addrs => addrs.Nodup ∧ (0 < port → "" ∉ addrs)) _
      (fun b a hb => uniqParse_inv port b (String.mk a) hb) _ addrs h

/-- C20: `UniqCSVAddrs(0, ":0")` returns the list of one empty string, where the claim has no
empty string in any result. The rest of the claim holds on these points: no result holds a
string twice, no result for a port above 0 holds the empty string, and the test input gives
the four addresses of the test. -/
theorem C20_uniq_csv_addrs_empty_string :
    UniqCSVAddrs 0 [":0"] = [""] ∧
    (∀ port csvs, (UniqCSVAddrs port csvs).Nodup) ∧
    (∀ port csvs, 0 < port → "" ∉ UniqCSVAddrs port csvs) ∧
    UniqCSVAddrs 2181
        ["127.0.0.1", "", "127.0.0.2:111", "127.0.0.3:2181,127.0.0.4:2181", "中:文"] =
      ["127.0.0.1:2181", "127.0.0.2:111", "127.0.0.3:2181", "127.0.0.4:2181"] :=
  ⟨by decide, fun port csvs => (UniqCSVAddrs_inv port csvs).1,
    fun port csvs => (UniqCSVAddrs_inv port csvs).2, by decide⟩

/-- C20 at the port 2181 and the input `":0, ,x"`: the result holds no empty string. -/
theorem C20_uniq_csv_addrs_empty_string_witness :
    0 < 2181 ∧ "" ∉ UniqCSVAddrs 2181 [":0, ,x"] :=
  ⟨by decide, C20_uniq_csv_addrs_empty_string.2.2.1 2181 [":0, ,x"] (by decide)⟩

/-! ## `netkit/addr.go`: port completion in `UniqCSVAddrs` (C21) -/

/-- One segment that is an IPv4 literal, for a port above 0: the literal with the port. -/
theorem uniqParse_dotted (port : Nat) (baddr : String) (a b c d : Nat) (hport : 0 < port)
    (ha : a < 256) (hb : b < 256) (hc : c < 256) (hd : d < 256)
    (h : TrimSpace baddr = dotted a b c d) :
    uniqParse port [] baddr = [dotted a b c d ++ ":" ++ FormatUint port] := by
  unfold uniqParse
  simp only [h, if_neg (dotted_ne_empty a b c d), if_pos hport,
    ParseIP_dotted a b c d ha hb hc hd, IPString_v4, JoinHostPort_dotted]
  rfl

/-- One segment that is no IP literal and splits into host and port, for a port above 0. -/
theorem uniqParse_split (port : Nat) (baddr h p : String) (hport : 0 < port)
    (hne : TrimSpace baddr ≠ "") (hip : ParseIP (TrimSpace baddr) = none)
    (hsplit : SplitHostPort (TrimSpace baddr) = some (h, p)) :
    (ParseUint p 16 = none → uniqParse port [] baddr = []) ∧
    (ParseUint p 16 = some 0 → uniqParse port [] baddr = [h ++ ":" ++ FormatUint port]) ∧
    (∀ num, ParseUint p 16 = some num → num ≠ 0 → uniqParse port [] baddr = [TrimSpace baddr]) := by
  unfold uniqParse
  simp only [if_neg hne, if_pos hport, hip, hsplit]
  refine ⟨?_, ?_, ?_⟩
  · intro hp
    simp only [hp]
  · intro hp
    simp only [hp, if_true]
    rfl
  · intro num hp hnum
    simp only [hp, if_neg hnum]
    rfl

/-- One segment that is no IP literal and does not split, for a port above 0: completed with
the port when it holds no colon, kept as it is when it holds one. -/
theorem uniqParse_no_split (port : Nat) (baddr : String) (hport : 0 < port)
    (hne : TrimSpace baddr ≠ "") (hip : ParseIP (TrimSpace baddr) = none)
    (hsplit : SplitHostPort (TrimSpace baddr) = none) :
    (baddr.data.contains ':' = false →
      uniqParse port [] baddr = [TrimSpace baddr ++ ":" ++ FormatUint port]) ∧
    (baddr.data.contains ':' = true → uniqParse port [] baddr = [TrimSpace baddr]) := by
  unfold uniqParse
  simp only [if_neg hne, if_pos hport, hip, hsplit]
  refine ⟨?_, ?_⟩
  · intro hc
    simp only [hc]
    rfl
  · intro hc
    simp only [hc, if_true]
    rfl

/-- C21: `UniqCSVAddrs(2181, "[::1]:0")` returns `"::1:2181"` and `UniqCSVAddrs(2181, "a:b:c")`
returns `"a:b:c"`, neither of which `net.SplitHostPort` splits, where the claim has every
returned address split into a host and a port. The completion the claim describes is what
the code does on one segment for a port above 0: an IPv4 literal gets the port; a segment
that splits into host and port is dropped when the port is no decimal number of 16 bits, has
the port 0 replaced by the given port, and is kept with another port; a segment without
colon that does not split gets the port. -/
theorem C21_uniq_port_completion (port : Nat) (baddr : String) (hport : 0 < port) :
    (UniqCSVAddrs 2181 ["[::1]:0"] = ["::1:2181"] ∧ SplitHostPort "::1:2181" = none) ∧
    (UniqCSVAddrs 2181 ["a:b:c"] = ["a:b:c"] ∧ SplitHostPort "a:b:c" = none) ∧
    (∀ a b c d, a < 256 → b < 256 → c < 256 → d < 256 → TrimSpace baddr = dotted a b c d →
      uniqParse port [] baddr = [dotted a b c d ++ ":" ++ FormatUint port]) ∧
    (∀ h p, TrimSpace baddr ≠ "" → ParseIP (TrimSpace baddr) = none →
      SplitHostPort (TrimSpace baddr) = some (h, p) →
      (ParseUint p 16 = none → uniqParse port [] baddr = []) ∧
      (ParseUint p 16 = some 0 → uniqParse port [] baddr = [h ++ ":" ++ FormatUint port]) ∧
      (∀ num, ParseUint p 16 = some num → num ≠ 0 →
        uniqParse port [] baddr = [TrimSpace baddr])) ∧
    (TrimSpace baddr ≠ "" → ParseIP (TrimSpace baddr) = none →
      SplitHostPort (TrimSpace baddr) = none → baddr.data.contains ':' = false →
      uniqParse port [] baddr = [TrimSpace baddr ++ ":" ++ FormatUint port]) :=
  ⟨⟨by decide, by decide⟩, ⟨by decide, by decide⟩,
    fun a b c d ha hb hc hd h => uniqParse_dotted port baddr a b c d hport ha hb hc hd h,
    fun h p hne hip hsplit => uniqParse_split port baddr h p hport hne hip hsplit,
    fun hne hip hsplit hc => (uniqParse_no_split port baddr hport hne hip hsplit).1 hc⟩

/-- C21 at the port 2181: the segment `" 1.2.3.4 "` is completed, `"h:0"` gets the port,
`"h:80"` keeps its port, `"h:70000"` is dropped and `"h"` is completed. -/
theorem C21_uniq_port_completion_witness :
    uniqParse 2181 [] " 1.2.3.4 " = ["1.2.3.4:2181"] ∧
    uniqParse 2181 [] "h:0" = ["h:2181"] ∧
    uniqParse 2181 [] "h:80" = ["h:80"] ∧
    uniqParse 2181 [] "h:70000" = [] ∧
    uniqParse 2181 [] "h" = ["h:2181"] :=
  ⟨(C21_uniq_port_completion 2181 " 1.2.3.4 " (by decide)).2.2.1 1 2 3 4 (by decide) (by decide)
      (by decide) (by decide) (by decide),
    ((C21_uniq_port_completion 2181 "h:0" (by decide)).2.2.2.1 "h" "0" (by decide) (by decide)
      (by decide)).2.1 (by decide),
    ((C21_uniq_port_completion 2181 "h:80" (by decide)).2.2.2.1 "h" "80" (by decide) (by decide)
      (by decide)).2.2 80 (by decide) (by decide),
    ((C21_uniq_port_completion 2181 "h:70000" (by decide)).2.2.2.1 "h" "70000" (by decide)
      (by decide) (by decide)).1 (by decide),
    (C21_uniq_port_completion 2181 "h" (by decide)).2.2.2.2 (by decide) (by decide) (by decide)
      (by decide)⟩

/-! ## `netkit/addr.go`: `TrimPort` and `PrettyCSVAddr` (C22) -/

theorem lessChars_asymm : ∀ a b : List Char, lessChars a b = true → lessChars b a = false := by
  intro a
  induction a with
  | nil => intro b _; cases b <;> rfl
  | cons x xs ih =>
    intro b h
    cases b with
    | nil => simp [lessChars] at h
    | cons y ys =>
      simp only [lessChars] at h ⊢
      rcases Nat.lt_trichotomy x.toNat y.toNat with hlt | heq | hgt
      · have h1 : ¬ y.toNat < x.toNat := by omega
        simp [hlt, h1]
      · have h1 : ¬ x.toNat < y.toNat := by omega
        have h2 : ¬ y.toNat < x.toNat := by omega
        simp only [h1, h2, if_false] at h ⊢
        exact ih ys h
      · have h1 : ¬ x.toNat < y.toNat := by omega
        simp [hgt, h1] at h

theorem lessChars_trans : ∀ a b c : List Char,
    lessChars b a = false → lessChars c b = false → lessChars c a = false := by
  intro a
  induction a with
  | nil => intro b c _ _; cases c <;> rfl
  | cons x xs ih =>
    intro b c h1 h2
    cases b with
    | nil => simp [lessChars] at h1
    | cons y ys =>
      cases c with
      | nil => simp [lessChars] at h2
      | cons z zs =>
        simp only [lessChars] at h1 h2 ⊢
        split_ifs at h1 h2 ⊢ <;>
          first
          | rfl
          | omega
          | exact ih _ _ h1 h2

theorem stringLE_total (a b : String) : stringLE a b ∨ stringLE b a := by
  unfold stringLE stringLess
  cases h : lessChars b.data a.data with
  | false => exact Or.inl rfl
  | true => exact Or.inr (lessChars_asymm _ _ h)

theorem stringLE_trans (a b c : String) (h1 : stringLE a b) (h2 : stringLE b c) :
    stringLE a c :=
  lessChars_trans a.data b.data c.data h1 h2

/-- `sort.Strings` leaves the strings in ascending order, the same strings as before. -/
theorem sortStrings_spec (l : List String) :
    (sortStrings l).Sorted stringLE ∧ (sortStrings l).Perm l :=
  haveI : IsTotal String stringLE := ⟨stringLE_total⟩
  haveI : IsTrans String stringLE := ⟨stringLE_trans⟩
  ⟨List.sorted_insertionSort stringLE l, List.perm_insertionSort stringLE l⟩

/-- C22: `PrettyCSVAddr(2181, "127.0.0.1:2181,127.0.0.1:02181")` returns
`"127.0.0.1,127.0.0.1"`, where the claim has no element twice, and
`PrettyCSVAddr(2181, "[a:2181]:2181")` returns `"a:2181"`, an element with the given port. The
rest of the claim holds: the result joins a list in ascending order that holds the strings
`TrimPort` returns, `TrimPort` keeps length and order, replaces an address that splits into a
host and the given port by the host and keeps every other address, and the example of the
test gives `"127.0.0.1"`. -/
theorem C22_pretty_csv_addr (port : Nat) (csvs addrs : List String) (addr h p : String) :
    PrettyCSVAddr 2181 ["127.0.0.1:2181,127.0.0.1:02181"] = "127.0.0.1,127.0.0.1" ∧
    (PrettyCSVAddr 2181 ["[a:2181]:2181"] = "a:2181" ∧ TrimPort 2181 ["a:2181"] = ["a"]) ∧
    PrettyCSVAddr 2181 ["127.0.0.1:2181"] = "127.0.0.1" ∧
    (∃ l, PrettyCSVAddr port csvs = Join l "," ∧ l.Sorted stringLE ∧
      l.Perm (TrimPort port (UniqCSVAddrs port csvs))) ∧
    ((TrimPort port addrs).length = addrs.length ∧
      TrimPort port (addr :: addrs) = TrimPort port [addr] ++ TrimPort port addrs) ∧
    (SplitHostPort addr = some (h, p) → ParseUint p 16 = some port → TrimPort port [addr] = [h]) ∧
    ((∀ h p, SplitHostPort addr = some (h, p) → ParseUint p 16 ≠ some port) →
      TrimPort port [addr] = [addr]) := by
  refine ⟨by decide, ⟨by decide, by decide⟩, by decide,
    ⟨_, rfl, (sortStrings_spec _).1, (sortStrings_spec _).2⟩,
    ⟨by simp [TrimPort], by simp [TrimPort]⟩, ?_, ?_⟩
  · intro hs hp
    have hlt : port < 2 ^ 16 := by
      unfold ParseUint at hp
      split_ifs at hp with c1 c2 c3
      simp only [Option.some.injEq] at hp
      omega
    simp only [TrimPort, List.map_cons, List.map_nil, hs, hp, Nat.mod_eq_of_lt hlt, if_true]
  · intro hall
    simp only [TrimPort, List.map_cons, List.map_nil]
    cases hs : SplitHostPort addr with
    | none => rfl
    | some hp =>
      obtain ⟨h', p'⟩ := hp
      simp only
      cases hp : ParseUint p' 16 with
      | none => rfl
      | some num =>
        simp only
        have hlt : num < 2 ^ 16 := by
          unfold ParseUint at hp
          split_ifs at hp with c1 c2 c3
          simp only [Option.some.injEq] at hp
          omega
        rw [Nat.mod_eq_of_lt hlt, if_neg]
        intro e
        exact hall h' p' hs (by rw [hp, e])

/-- C22 on the address of the test: `TrimPort(2181, "127.0.0.1:2181")` is the host alone. -/
theorem C22_pretty_csv_addr_witness :
    TrimPort 2181 ["127.0.0.1:2181"] = ["127.0.0.1"] :=
  (C22_pretty_csv_addr 2181 [] [] "127.0.0.1:2181" "127.0.0.1" "2181").2.2.2.2.2.1
    (by decide) (by decide)

/-! ## `netkit/net.go` (C23) -/

set_option maxRecDepth 100000 in
theorem land_c0 : ∀ b, b < 256 → ((b &&& 0xc0 == 64) = true ↔ 64 ≤ b ∧ b ≤ 127) := by
  decide

set_option maxRecDepth 100000 in
theorem land_f0 : ∀ b, b < 256 → ((b &&& 0xf0 == 16) = true ↔ 16 ≤ b ∧ b ≤ 31) := by
  decide

/-- The test on the first two bytes, in ranges. -/
theorem privateBytes_iff (a b : Nat) (hb : b < 256) :
    privateBytes a b = true ↔
      (a = 127 ∨ a = 10 ∨ (a = 100 ∧ 64 ≤ b ∧ b ≤ 127) ∨ (a = 172 ∧ 16 ≤ b ∧ b ≤ 31) ∨
        (a = 192 ∧ b = 168) ∨ (a = 169 ∧ b = 254)) := by
  unfold privateBytes
  simp only [Bool.or_eq_true, Bool.and_eq_true, land_c0 b hb, land_f0 b hb, beq_iff_eq]
  tauto

/-- C23: for every IPv4 address `a.b.c.d`, given in 4 bytes or in the 16 bytes of its IPv6
form, `IsPrivateIPv4` is true exactly when `a = 127`, or `a = 10`, or `a = 100` and
`64 <= b <= 127`, or `a = 172` and `16 <= b <= 31`, or `a = 192` and `b = 168`, or `a = 169`
and `b = 254`, and `IsPublicIPv4` is true exactly when `IsPrivateIPv4` is false; for every
input that is no IPv4 address (`To4` gives nil, as for the nil slice) both are false; and the
addresses of the test are public and private as the test has them. -/
theorem C23_private_public (ip : Option (List Nat)) (a b c d : Nat) (hb : b < 256) :
    (ip.bind IPTo4 = some [a, b, c, d] →
      (IsPrivateIPv4 ip = true ↔
        (a = 127 ∨ a = 10 ∨ (a = 100 ∧ 64 ≤ b ∧ b ≤ 127) ∨ (a = 172 ∧ 16 ≤ b ∧ b ≤ 31) ∨
          (a = 192 ∧ b = 168) ∨ (a = 169 ∧ b = 254))) ∧
      (IsPublicIPv4 ip = true ↔ IsPrivateIPv4 ip = false)) ∧
    ((some [a, b, c, d]).bind IPTo4 = some [a, b, c, d] ∧
      (some ([0, 0, 0, 0, 0, 0, 0, 0, 0, 0, 255, 255] ++ [a, b, c, d])).bind IPTo4 =
        some [a, b, c, d]) ∧
    (ip.bind IPTo4 = none → IsPrivateIPv4 ip = false ∧ IsPublicIPv4 ip = false) ∧
    (IsPrivateIPv4 none = false ∧ IsPublicIPv4 none = false) ∧
    (["1.1.1.1", "2.2.2.2", "3.3.3.3"].map
        (fun s => (IsPrivateIPv4 (ParseIP s), IsPublicIPv4 (ParseIP s))) =
      [(false, true), (false, true), (false, true)]) ∧
    (["192.168.0.0", "10.123.0.0", "172.31.0.0", "100.80.80.80", "169.254.0.0"].map
        (fun s => (IsPrivateIPv4 (ParseIP s), IsPublicIPv4 (ParseIP s))) =
      [(true, false), (true, false), (true, false), (true, false), (true, false)]) := by
  refine ⟨?_, ⟨rfl, rfl⟩, ?_, ⟨rfl, rfl⟩, by decide, by decide⟩
  · intro h
    unfold IsPrivateIPv4 IsPublicIPv4
    rw [h]
    simp only [List.getD_cons_zero, List.getD_cons_succ]
    refine ⟨privateBytes_iff a b hb, ?_⟩
    cases privateBytes a b <;> simp
  · intro h
    unfold IsPrivateIPv4 IsPublicIPv4
    rw [h]
    exact ⟨rfl, rfl⟩

/-- C23 at `100.64.0.1`, given in 16 bytes: private, hence not public. -/
theorem C23_private_public_witness :
    IsPrivateIPv4 (some [0, 0, 0, 0, 0, 0, 0, 0, 0, 0, 255, 255, 100, 64, 0, 1]) = true ∧
    IsPublicIPv4 (some [0, 0, 0, 0, 0, 0, 0, 0, 0, 0, 255, 255, 100, 64, 0, 1]) = false :=
  have h := (C23_private_public (some [0, 0, 0, 0, 0, 0, 0, 0, 0, 0, 255, 255, 100, 64, 0, 1])
    100 64 0 1 (by decide)).1 rfl
  ⟨h.1.mpr (by decide), by decide⟩

/-! ## `event.go` (C25) -/

theorem Event.emitAll_done (args : List GoVal) (calls : List (List GoVal)) :
    Event.emitAll { done := true, Args := args } calls =
      ({ done := true, Args := args }, List.replicate calls.length false) := by
  induction calls with
  | nil => rfl
  | cons c rest ih =>
    simp only [Event.emitAll, Event.Emit, if_true, ih, List.length_cons, List.replicate_succ]

/-- C25: an event fires at most once. `Done()` is false on a new event; of a sequence of
`Emit` calls on a new event the first returns true and every later one false; after the
first of them `Done()` is true, and stays so after any further `Emit` calls; and `Args` holds
the arguments of the first `Emit` after any number of them. -/
theorem C25_event_fires_once (args : List GoVal) (calls later : List (List GoVal)) :
    NewEvent.Done = false ∧
    (NewEvent.emitAll (args :: calls)).2 = true :: List.replicate calls.length false ∧
    (NewEvent.emitAll (args :: calls)).1.Done = true ∧
    (NewEvent.emitAll (args :: calls)).1.Args = args ∧
    (((NewEvent.emitAll (args :: calls)).1.emitAll later).1.Done = true ∧
      ((NewEvent.emitAll (args :: calls)).1.emitAll later).1.Args = args ∧
      ((NewEvent.emitAll (args :: calls)).1.emitAll later).2 =
        List.replicate later.length false) := by
  have h : NewEvent.emitAll (args :: calls) =
      ({ done := true, Args := args }, true :: List.replicate calls.length false) := by
    simp [Event.emitAll, Event.Emit, NewEvent, Event.emitAll_done]
  rw [h]
  simp [Event.emitAll_done, Event.Done, NewEvent]

/-! ## `gerror`: plain gRPC errors (C27) -/

/-- A status that is no encoding of a `GError` decodes to the negated code, the name of the
code and the message of the status. -/
theorem gerror.Decode_plain (err : GoError) (hnil : err ≠ .nil) (hg : ∀ e, err ≠ .gerror e)
    (hok : (statusConvert err).code ≠ 0)
    (hplain : ¬ ((statusConvert err).code = 2 ∧
      MAGIC_PREFIX.data.isPrefixOf (statusConvert err).message.data = true ∧
      ∃ fields, (statusConvert err).details = [.structValue fields] ∧
        float64ToInt32 (PbField.GetNumberValue (fields.lookup "code")) > 0)) :
    gerror.Decode err =
      some { Code := wrapInt32 (-1 * wrapInt32 (statusConvert err).code),
             Name := codeString (statusConvert err).code,
             Message := (statusConvert err).message } := by
  have key : ∀ e : GoError, e = err →
      (if (statusConvert e).code = 0 then some { Code := 0, Name := "OK", Message := "" }
       else
        if (statusConvert e).code = 2 ∧
            MAGIC_PREFIX.data.isPrefixOf (statusConvert e).message.data = true then
          match (statusConvert e).details with
          | [.structValue fields] =>
            if fields ≠ [] ∧
                float64ToInt32 (PbField.GetNumberValue (fields.lookup "code")) > 0 then
              some { Code := float64ToInt32 (PbField.GetNumberValue (fields.lookup "code")),
                     Name := PbField.GetStringValue (fields.lookup "name"),
                     Message := PbField.GetStringValue (fields.lookup "message") }
            else some { Code := wrapInt32 (-1 * wrapInt32 (statusConvert e).code),
                        Name := codeString (statusConvert e).code,
                        Message := (statusConvert e).message }
          | _ => some { Code := wrapInt32 (-1 * wrapInt32 (statusConvert e).code),
                        Name := codeString (statusConvert e).code,
                        Message := (statusConvert e).message }
        else some { Code := wrapInt32 (-1 * wrapInt32 (statusConvert e).code),
                    Name := codeString (statusConvert e).code,
                    Message := (statusConvert e).message } : Option GError) =
      some { Code := wrapInt32 (-1 * wrapInt32 (statusConvert err).code),
             Name := codeString (statusConvert err).code,
             Message := (statusConvert err).message } := by
    intro e he
    subst he
    rw [if_neg hok]
    split_ifs with h1
    · split
      · next fields hd =>
        rw [if_neg]
        rintro ⟨-, hpos⟩
        exact hplain ⟨h1.1, h1.2, fields, hd, hpos⟩
      · rfl
    · rfl
  cases err with
  | nil => exact absurd rfl hnil
  | gerror e => exact absurd rfl (hg e)
  | grpcStatus s => exact key _ rfl
  | wrapped msg s => exact key _ rfl
  | other msg => exact key _ rfl

theorem wrapInt32_neg_code (c : Nat) (h : c ≤ 2 ^ 31) :
    wrapInt32 (-1 * wrapInt32 c) = -(c : Int) := by
  unfold wrapInt32
  omega

theorem wrapInt32_neg_code_ne_zero (c : Nat) (h0 : c ≠ 0) (h : c < 2 ^ 32) :
    wrapInt32 (-1 * wrapInt32 c) ≠ 0 := by
  unfold wrapInt32
  omega

theorem wrapInt32_neg_code_overflow (c : Nat) (h1 : 2 ^ 31 < c) (h2 : c < 2 ^ 32) :
    wrapInt32 (-1 * wrapInt32 c) = (2 : Int) ^ 32 - c := by
  unfold wrapInt32
  omega

/-- C27: the status of code `4294967295` decodes to the code `1`, for which `IsGrpc()` is
false and `IsLocal()` is true, where the claim has a negative code for every plain gRPC
error; so does every status code above `2 ^ 31`, which decodes to `2 ^ 32` minus the code.
The claim holds for the codes up to `2 ^ 31`: for every error `err` that is no `*GError` and
whose status, its own or the one of an error it wraps, has a code `c` other than OK and is no
encoding of a `GError`, `Decode(err)` has the code `-1*int32(c)`, the name `c.String()` and
the message of the status, so that `Equal(c)` is true and `OK()` is false, and for `c` up to
`2 ^ 31` the code is `-c`, `IsGrpc()` is true and `IsLocal()` and `IsGlobal()` are false.
`Decode` of a non-nil `*GError` is that `GError`, and `Decode(Decode(err)) = Decode(err)` for
every `err`. -/
theorem C27_grpc_error_decodes_negative (err : GoError) (g : GError)
    (hcode : (statusConvert err).code < 2 ^ 32) :
    (gerror.Decode (.grpcStatus { code := 4294967295, message := "x", details := [] }) =
        some { Code := 1, Name := "Code(4294967295)", Message := "x" } ∧
      GError.IsGrpc { Code := 1, Name := "Code(4294967295)", Message := "x" } = false ∧
      GError.IsLocal { Code := 1, Name := "Code(4294967295)", Message := "x" } = true) ∧
    (err ≠ .nil → (∀ e, err ≠ .gerror e) → (statusConvert err).code ≠ 0 →
      ¬ ((statusConvert err).code = 2 ∧
        MAGIC_PREFIX.data.isPrefixOf (statusConvert err).message.data = true ∧
        ∃ fields, (statusConvert err).details = [.structValue fields] ∧
          float64ToInt32 (PbField.GetNumberValue (fields.lookup "code")) > 0) →
      ∃ d, gerror.Decode err = some d ∧
        d.Code = wrapInt32 (-1 * wrapInt32 (statusConvert err).code) ∧
        d.Name = codeString (statusConvert err).code ∧
        d.Message = (statusConvert err).message ∧
        d.Equal (.grpc (statusConvert err).code) = .ok true ∧ d.OK = false ∧
        ((statusConvert err).code ≤ 2 ^ 31 →
          d.Code = -((statusConvert err).code : Int) ∧ d.IsGrpc = true ∧
            d.IsLocal = false ∧ d.IsGlobal = false) ∧
        (2 ^ 31 < (statusConvert err).code →
          d.Code = (2 : Int) ^ 32 - (statusConvert err).code ∧ d.IsGrpc = false)) ∧
    gerror.Decode (.gerror (some g)) = some g ∧
    (∃ d, gerror.Decode err = some d ∧ gerror.Decode (.gerror (some d)) = some d) := by
  refine ⟨by decide, ?_, rfl, ?_⟩
  · intro hnil hg hok hplain
    refine ⟨_, gerror.Decode_plain err hnil hg hok hplain, rfl, rfl, rfl, ?_, ?_, ?_, ?_⟩
    · simp [GError.Equal]
    · simp only [GError.OK, beq_eq_false_iff_ne, ne_eq]
      exact wrapInt32_neg_code_ne_zero _ hok hcode
    · intro hle
      have hc := wrapInt32_neg_code _ hle
      have hb : wrapInt32 CODE_GLOBAL_BOUNDARY = 10000 := by decide
      simp only [GError.IsGrpc, GError.IsLocal, GError.IsGlobal, hc, hb]
      refine ⟨trivial, ?_, ?_, ?_⟩
      · simp only [decide_eq_true_eq]; omega
      · simp only [Bool.and_eq_false_imp, decide_eq_true_eq, decide_eq_false_iff_not]; omega
      · simp only [decide_eq_false_iff_not]; omega
    · intro hgt
      have hc := wrapInt32_neg_code_overflow _ hgt hcode
      simp only [GError.IsGrpc, hc]
      refine ⟨trivial, ?_⟩
      simp only [decide_eq_false_iff_not]
      omega
  · cases hd : gerror.Decode err with
    | none => exact absurd hd (gerror.Decode_ne_none err)
    | some d => exact ⟨d, rfl, rfl⟩

/-- C27 on the error of `status.New(codes.NotFound, "gone")`: it decodes to the code `-5`
and the name `NotFound`; so does an error that wraps it, with its own text as the message. -/
theorem C27_grpc_error_decodes_negative_witness :
    (∃ d, gerror.Decode (.grpcStatus { code := 5, message := "gone", details := [] }) = some d ∧
      d.Code = -5 ∧ d.Name = "NotFound" ∧ d.Message = "gone" ∧ d.IsGrpc = true) ∧
    (∃ d, gerror.Decode (.wrapped "get: gone" { code := 5, message := "gone", details := [] }) =
        some d ∧
      d.Code = -5 ∧ d.Name = "NotFound" ∧ d.Message = "get: gone" ∧ d.IsGrpc = true) :=
  have h1 := (C27_grpc_error_decodes_negative
    (.grpcStatus { code := 5, message := "gone", details := [] }) okGError (by decide)).2.1
    (by decide) (fun e => by simp) (by decide) (fun h => absurd h.1 (by decide))
  have h2 := (C27_grpc_error_decodes_negative
    (.wrapped "get: gone" { code := 5, message := "gone", details := [] }) okGError
    (by decide)).2.1
    (by decide) (fun e => by simp) (by decide) (fun h => absurd h.1 (by decide))
  ⟨h1.imp fun _ hd => ⟨hd.1, hd.2.1, hd.2.2.1, hd.2.2.2.1, (hd.2.2.2.2.2.2.1 (by decide)).2.1⟩,
    h2.imp fun _ hd => ⟨hd.1, hd.2.1, hd.2.2.1, hd.2.2.2.1, (hd.2.2.2.2.2.2.1 (by decide)).2.1⟩⟩

/-! ## `xiao.go`: `SessionNameGenerator` (C24) -/

theorem isDigit_toNat {c : Char} (h : c.isDigit = true) : 48 ≤ c.toNat ∧ c.toNat ≤ 57 := by
  unfold Char.isDigit at h
  simp only [ge_iff_le, Bool.and_eq_true, decide_eq_true_eq] at h
  exact ⟨h.1, h.2⟩

theorem isDigit_utf8Size {c : Char} (h : c.isDigit = true) : c.utf8Size = 1 := by
  have h1 := isDigit_toNat h
  unfold Char.utf8Size
  have : c.val ≤ UInt32.ofNatCore 127 (by decide) := by
    show c.val.toNat ≤ 127
    have : c.val.toNat = c.toNat := rfl
    omega
  rw [if_pos this]

theorem digits_utf8Len (l : List Char) (h : ∀ c ∈ l, c.isDigit = true) :
    String.utf8Len l = l.length := by
  induction l with
  | nil => rfl
  | cons x xs ih =>
    rw [String.utf8Len_cons, ih (fun c hc => h c (List.mem_cons_of_mem _ hc)),
      isDigit_utf8Size (h x (List.mem_cons_self _ _)), List.length_cons]

theorem foldl_value (l : List Char) : ∀ acc,
    l.foldl (fun acc c => 10 * acc + (c.toNat - 48)) acc =
      acc * 10 ^ l.length + l.foldl (fun acc c => 10 * acc + (c.toNat - 48)) 0 := by
  induction l with
  | nil => intro acc; simp
  | cons x xs ih =>
    intro acc
    simp only [List.foldl_cons, List.length_cons]
    rw [ih (10 * acc + (x.toNat - 48)), ih (10 * 0 + (x.toNat - 48))]
    ring

theorem value_lt (l : List Char) (h : ∀ c ∈ l, c.isDigit = true) :
    l.foldl (fun acc c => 10 * acc + (c.toNat - 48)) 0 < 10 ^ l.length := by
  induction l with
  | nil => simp
  | cons x xs ih =>
    have hx := isDigit_toNat (h x (List.mem_cons_self _ _))
    have ih' := ih (fun c hc => h c (List.mem_cons_of_mem _ hc))
    simp only [List.foldl_cons, List.length_cons]
    rw [foldl_value xs (10 * 0 + (x.toNat - 48))]
    have h9 : (10 * 0 + (x.toNat - 48)) * 10 ^ xs.length ≤ 9 * 10 ^ xs.length :=
      Nat.mul_le_mul_right _ (by omega)
    rw [pow_succ]
    omega

/-- Of two numerals of the same length the one of the smaller number is the smaller string. -/
theorem lessChars_of_value : ∀ a b : List Char, a.length = b.length →
    (∀ c ∈ a, c.isDigit = true) → (∀ c ∈ b, c.isDigit = true) →
    a.foldl (fun acc c => 10 * acc + (c.toNat - 48)) 0 <
      b.foldl (fun acc c => 10 * acc + (c.toNat - 48)) 0 →
    lessChars a b = true := by
  intro a
  induction a with
  | nil =>
    intro b hl _ _ hv
    cases b with
    | nil => simp at hv
    | cons y ys => simp at hl
  | cons x xs ih =>
    intro b hl ha hb hv
    cases b with
    | nil => simp at hl
    | cons y ys =>
      have hx := isDigit_toNat (ha x (List.mem_cons_self _ _))
      have hy := isDigit_toNat (hb y (List.mem_cons_self _ _))
      have hxs : ∀ c ∈ xs, c.isDigit = true := fun c hc => ha c (List.mem_cons_of_mem _ hc)
      have hys : ∀ c ∈ ys, c.isDigit = true := fun c hc => hb c (List.mem_cons_of_mem _ hc)
      have hlen : xs.length = ys.length := by simpa using hl
      have vx := value_lt xs hxs
      have vy := value_lt ys hys
      simp only [List.foldl_cons] at hv
      rw [foldl_value xs (10 * 0 + (x.toNat - 48)), foldl_value ys (10 * 0 + (y.toNat - 48)),
        hlen] at hv
      rw [hlen] at vx
      simp only [lessChars]
      rcases Nat.lt_trichotomy x.toNat y.toNat with hlt | heq | hgt
      · rw [if_pos hlt]
      · rw [if_neg (by omega), if_neg (by omega)]
        rw [heq] at hv
        exact ih ys hlen hxs hys (by omega)
      · exfalso
        have hm : (10 * 0 + (y.toNat - 48) + 1) * 10 ^ ys.length ≤
            (10 * 0 + (x.toNat - 48)) * 10 ^ ys.length :=
          Nat.mul_le_mul_right _ (by omega)
        rw [Nat.add_mul, Nat.one_mul] at hm
        omega

theorem lessChars_append (p a b : List Char) : lessChars (p ++ a) (p ++ b) = lessChars a b := by
  induction p with
  | nil => rfl
  | cons x xs ih => simp [lessChars, ih]

theorem lessChars_irrefl (a : List Char) : lessChars a a = false := by
  induction a with
  | nil => rfl
  | cons x xs ih => simp [lessChars, ih]

theorem foldl_value_zeros (k : Nat) :
    (List.replicate k '0').foldl (fun acc c => 10 * acc + (c.toNat - 48)) 0 = 0 := by
  induction k with
  | zero => rfl
  | succ k ih => rw [List.replicate_succ, List.foldl_cons]; exact ih

theorem toDigits_length_le (n : Nat) (h : n < 10 ^ 12) : (Nat.toDigits 10 n).length ≤ 12 :=
  Nat.toDigitsCore_length 10 (by decide) (n + 1) n 12 h (by decide)

/-- The 12 digits of a number below `10 ^ 12`: 12 decimal digits that stand for the number. -/
theorem zeroPadded12_spec (n : Nat) (h : n < 10 ^ 12) :
    (zeroPadded12 n).data.length = 12 ∧ (∀ c ∈ (zeroPadded12 n).data, c.isDigit = true) ∧
      decimalValue (zeroPadded12 n) = n := by
  have hl := toDigits_length_le n h
  refine ⟨?_, ?_, ?_⟩
  · simp only [zeroPadded12, List.length_append, List.length_replicate]
    omega
  · intro c hc
    simp only [zeroPadded12, List.mem_append, List.mem_replicate] at hc
    rcases hc with ⟨-, rfl⟩ | hc
    · rfl
    · exact toDigits_isDigit n c hc
  · have hv := decimalValue_FormatUint n
    unfold decimalValue at hv ⊢
    rw [FormatUint_data] at hv
    simp only [zeroPadded12, List.foldl_append, foldl_value_zeros]
    exact hv

theorem Generator.call_fst (g : Generator) (pfx : List String) :
    (g.call pfx).1 = { header := g.header, counter := (g.counter + 1) % 2 ^ 64 } := by
  simp [Generator.call, atomicAddUint64]

theorem Generator.calls_state (calls : List (List String)) : ∀ g : Generator,
    (g.calls calls).header = g.header ∧
      (g.counter < 2 ^ 64 → (g.calls calls).counter = (g.counter + calls.length) % 2 ^ 64) := by
  induction calls with
  | nil =>
    intro g
    exact ⟨rfl, fun h => by simp only [Generator.calls, List.length_nil]; omega⟩
  | cons p rest ih =>
    intro g
    obtain ⟨h1, h2⟩ := ih (g.call p).1
    simp only [Generator.calls, List.length_cons]
    rw [Generator.call_fst] at h1 h2 ⊢
    refine ⟨h1, fun _ => ?_⟩
    rw [h2 (Nat.mod_lt _ (by decide))]
    simp only
    omega

theorem zeros_append_digits (n : Nat) (h : (Nat.toDigits 10 n).length ≤ 12) :
    String.mk (zeros12.data.take (12 - (FormatUint n).data.length)) ++ FormatUint n =
      zeroPadded12 n := by
  have hz : zeros12.data = List.replicate 12 '0' := by decide
  apply String.ext
  rw [String.data_append, hz, FormatUint_data, List.take_replicate]
  simp only [zeroPadded12]
  congr 2
  omega

/-- A call of the generator whose counter holds `n - 1`, for `n` below `10 ^ 12`. -/
theorem Generator.call_snd (g : Generator) (pfx : List String) (n : Nat) (hn : n < 10 ^ 12)
    (hc : g.counter + 1 = n) : (g.call pfx).2 = some (sessionName pfx g.header n) := by
  have hl := toDigits_length_le n hn
  have hseq : (atomicAddUint64 [g.counter] 0).2 = n := by
    simp only [atomicAddUint64, List.getD_cons_zero, hc]
    omega
  simp only [Generator.call, hseq]
  rw [if_pos (by rw [FormatUint_data]; exact hl)]
  cases pfx with
  | nil =>
    simp only [sessionName]
    rw [String.append_assoc, zeros_append_digits n hl]
  | cons p rest =>
    simp only [sessionName]
    rw [String.append_assoc, zeros_append_digits n hl]

theorem sessionName_data (pfx : List String) (header : String) (n : Nat) :
    (sessionName pfx header n).data =
      ((pfx.head?.getD "") ++ header).data ++ (zeroPadded12 n).data := by
  cases pfx with
  | nil => simp [sessionName, String.data_append]
  | cons p rest => simp [sessionName, String.data_append]

theorem utf8ByteSize_eq (s : String) : s.utf8ByteSize = String.utf8Len s.data := by
  cases s
  rfl

/-- C24: the `n`-th call of a generator `SessionNameGenerator(header)`, for `n` from 1 and
below `10 ^ 12`, returns the first given prefix (if any), the header and `n` written as 12
decimal digits, padded with zeros on the left; so the slice `h[:12-len(s)]` is in range in
these calls. The names of one generator with the same prefix are strictly increasing as
strings, hence pairwise distinct, and of length `len(prefix) + len(header) + 12`. -/
theorem C24_session_names (header : String) (before : List (List String))
    (pfx : List String) (n m : Nat) :
    (before.length + 1 < 10 ^ 12 →
      (((SessionNameGenerator header).calls before).call pfx).2 =
        some (sessionName pfx header (before.length + 1))) ∧
    (n < 10 ^ 12 →
      (zeroPadded12 n).data.length = 12 ∧ (∀ c ∈ (zeroPadded12 n).data, c.isDigit = true) ∧
        decimalValue (zeroPadded12 n) = n) ∧
    (n < m → m < 10 ^ 12 →
      stringLess (sessionName pfx header n) (sessionName pfx header m) = true ∧
        sessionName pfx header n ≠ sessionName pfx header m) ∧
    (n < 10 ^ 12 →
      (sessionName pfx header n).utf8ByteSize =
        (pfx.head?.getD "").utf8ByteSize + header.utf8ByteSize + 12) := by
  refine ⟨?_, zeroPadded12_spec n, ?_, ?_⟩
  · intro hn
    obtain ⟨h1, h2⟩ := Generator.calls_state before (SessionNameGenerator header)
    have hc : ((SessionNameGenerator header).calls before).counter + 1 = before.length + 1 := by
      have h0 : (SessionNameGenerator header).counter = 0 := rfl
      rw [h2 (by rw [h0]; decide), h0]
      omega
    have := Generator.call_snd _ pfx _ hn hc
    rw [h1] at this
    exact this
  · intro hnm hm
    obtain ⟨ln, dn, vn⟩ := zeroPadded12_spec n (by omega)
    obtain ⟨lm, dm, vm⟩ := zeroPadded12_spec m hm
    have hless : stringLess (sessionName pfx header n) (sessionName pfx header m) = true := by
      unfold stringLess
      rw [sessionName_data, sessionName_data, lessChars_append]
      refine lessChars_of_value _ _ (by rw [ln, lm]) dn dm ?_
      unfold decimalValue at vn vm
      rw [vn, vm]
      exact hnm
    refine ⟨hless, ?_⟩
    intro e
    rw [e] at hless
    unfold stringLess at hless
    rw [lessChars_irrefl] at hless
    cases hless
  · intro hn
    obtain ⟨ln, dn, -⟩ := zeroPadded12_spec n hn
    rw [utf8ByteSize_eq, sessionName_data, String.utf8Len_append, String.data_append,
      String.utf8Len_append, digits_utf8Len _ dn, ln, utf8ByteSize_eq, utf8ByteSize_eq]

/-- C24 on the third call of a generator, with a prefix: the name ends in `000000000003`;
and the second name is below the third. -/
theorem C24_session_names_witness :
    (((SessionNameGenerator "boot-").calls [[], ["a"]]).call ["p-"]).2 =
      some "p-boot-000000000003" ∧
    stringLess (sessionName ["p-"] "boot-" 2) (sessionName ["p-"] "boot-" 3) = true :=
  ⟨(C24_session_names "boot-" [[], ["a"]] ["p-"] 2 3).1 (by decide),
    ((C24_session_names "boot-" [[], ["a"]] ["p-"] 2 3).2.2.1 (by decide) (by decide)).1⟩

/-- Past the claim: the call that draws the number `10 ^ 12` finds the slice `h[:12-len(s)]` out
of range, the numeral having 13 digits. -/
theorem Generator.call_out_of_range (header : String) (pfx : List String) :
    (Generator.call { header := header, counter := 999999999999 } pfx).2 = none := by
  have hs : (atomicAddUint64 [999999999999] 0).2 = 1000000000000 := by decide
  simp only [Generator.call, hs]
  rw [if_neg (by decide)]

end Xiao
